import Mathlib

/-!
# sgit: repository discovery, pull fan-out, branch switching and the views

A shallow embedding of the parts of `GriffinJin/sgit` that the specification
talks about:

* `internal/gitutils/git.go`: `FindGitRepos` (with the standard-library
  functions it calls: `filepath.Walk`, `filepath.Dir`, `filepath.Join`,
  `strings.Contains`), `SwitchOrCreateBranch`, `SwitchAndTrackBranch`,
  `ResetHard`, `CleanUntracked`, `FetchAll`, `GetCurrentBranch`, `IsDirty`,
  `GetBranchStatus`, `GetRemoteInfo`, `GetRepoName` (with a matcher for the
  regular expression it compiles), `IsGitRepo`, `RemoveTargetDir`;
* `cmd/pull.go`: `pullReposSequential`, `pullReposParallel`;
* `cmd/switch.go`: the four methods of `switchResult`, the dispatch of the
  goroutine and the confirmation of `Run`;
* `cmd/branch.go`: the detached-HEAD tests of the three views and the loop of
  `outputBranchSummary`;
* `cmd/remote.go`: `outputRawRemoteInfo`;
* `cmd/clean.go`: `Run` and `cleanRepo`.

Go strings are modelled by `String`; the file system and the external `git`
tool are explicit arguments.
-/

namespace Sgit

/-! ## Go strings and errors -/

/-- Go `strings.Contains(s, substr)`: `substr` occurs in `s` as a contiguous
block (the empty string occurs in every string). -/
def Contains (s substr : String) : Prop := substr.data <:+: s.data

instance (s substr : String) : Decidable (Contains s substr) := by
  unfold Contains; infer_instance

/-- Go `error` values that occur in the program. `SkipDir` and `SkipAll` are
the sentinels of `path/filepath`; `os` is an error reported by the operating
system or by running an external command; `errorf pre e post` is
`fmt.Errorf(pre + "%w" + post, e)`; `plain` is `fmt.Errorf` without `%w`. -/
inductive GoError where
  | SkipDir : GoError
  | SkipAll : GoError
  | os : String → GoError
  | errorf : String → GoError → String → GoError
  | plain : String → GoError
  deriving DecidableEq, Repr

/-- The text of `err.Error()`. -/
def GoError.Error : GoError → String
  | .SkipDir => "skip this directory"
  | .SkipAll => "skip everything and stop the walk"
  | .os msg => msg
  | .errorf pre e post => pre ++ e.Error ++ post
  | .plain msg => msg

/-- Go `a < b` on strings: lexicographic order of the characters. -/
def strLess (a b : String) : Prop := a.data < b.data

instance (a b : String) : Decidable (strLess a b) := by
  unfold strLess; infer_instance

/-- Go `unicode.IsSpace`. -/
def isSpace (c : Char) : Bool :=
  c = '\t' || c = '\n' || c = Char.ofNat 0x0B || c = Char.ofNat 0x0C || c = '\r' || c = ' '
    || c = Char.ofNat 0x85 || c = Char.ofNat 0xA0 || c = Char.ofNat 0x1680
    || (0x2000 ≤ c.toNat && c.toNat ≤ 0x200A) || c = Char.ofNat 0x2028 || c = Char.ofNat 0x2029
    || c = Char.ofNat 0x202F || c = Char.ofNat 0x205F || c = Char.ofNat 0x3000

/-- Go `strings.TrimSpace`. -/
def TrimSpace (s : String) : String :=
  ⟨((s.data.dropWhile isSpace).reverse.dropWhile isSpace).reverse⟩

/-! ## path/filepath (Unix) -/

/-- Go `strings.Split(s, "/")` on the characters of a path. -/
def splitSep : List Char → List (List Char)
  | [] => [[]]
  | c :: cs =>
    if c = '/' then [] :: splitSep cs
    else
      match splitSep cs with
      | [] => [[c]]
      | h :: t => (c :: h) :: t

/-- Go `strings.Join(elems, "/")`. -/
def joinSep : List (List Char) → List Char
  | [] => []
  | [x] => x
  | x :: y :: r => x ++ '/' :: joinSep (y :: r)

/-- One iteration of the loop of `filepath.Clean`, on whole path elements.
`stack` holds the elements written to the output buffer so far, last one
first. An empty element and `.` are dropped; `..` removes the last real
element, is dropped at the top of a rooted path, and is kept when the output
is empty or consists of `..` elements only; every other element is copied. -/
def cleanStep (rooted : Bool) (stack : List (List Char)) (elem : List Char) :
    List (List Char) :=
  if elem = [] then stack
  else if elem = ['.'] then stack
  else if elem = ['.', '.'] then
    match stack with
    | [] => if rooted then [] else [elem]
    | top :: rest => if top = ['.', '.'] then elem :: stack else rest
  else elem :: stack

/-- The output buffer of `filepath.Clean` as a string: the leading slash of a
rooted path, the elements separated by single slashes, and `.` when a
relative path has no element left. -/
def renderPath (rooted : Bool) (elems : List (List Char)) : List Char :=
  if rooted then '/' :: joinSep elems
  else if elems = [] then ['.'] else joinSep elems

/-- `filepath.Clean` on the characters of a path. -/
def cleanChars (p : List Char) : List Char :=
  if p = [] then ['.']
  else
    let rooted := decide (p.head? = some '/')
    renderPath rooted ((splitSep p).foldl (cleanStep rooted) []).reverse

/-- Go `filepath.Clean(path)`. -/
def Clean (path : String) : String := ⟨cleanChars path.data⟩

/-- Go `filepath.Join(a, b)`: empty leading elements are ignored, the rest is
joined with `/` and cleaned. -/
def Join (a b : String) : String :=
  if a = "" then (if b = "" then "" else Clean b)
  else Clean ⟨a.data ++ '/' :: b.data⟩

/-- The part of a path up to and including its last slash. -/
def dirPart (p : List Char) : List Char :=
  (p.reverse.dropWhile (fun c => c ≠ '/')).reverse

/-- Go `filepath.Dir(path)`: drop the last element, then `Clean`. -/
def Dir (path : String) : String := Clean ⟨dirPart path.data⟩

/-- The first loop of `os.basename` on the reversed name: remove trailing
slashes while more than one character is left. -/
def dropTrailingSep : List Char → List Char
  | c :: d :: r => if c = '/' then dropTrailingSep (d :: r) else c :: d :: r
  | l => l

/-- Go `os.basename(name)`, which gives `FileInfo.Name()` for the result of
`os.Lstat(name)`: trailing slashes and the leading directory are removed. -/
def basename (name : String) : String :=
  match dropTrailingSep name.data.reverse with
  | [] => ""
  | last :: restRev => ⟨(restRev.takeWhile (fun c => c ≠ '/')).reverse ++ [last]⟩

/-! ## Cleaned paths and the paths of directory entries -/

/-- A path element that `filepath.Clean` copies to its output: not empty, not
`.`, not `..`, and without a slash. These are the names a directory listing
can contain. -/
def PlainElem (e : List Char) : Prop :=
  e ≠ [] ∧ e ≠ ['.'] ∧ e ≠ ['.', '.'] ∧ '/' ∉ e

instance (e : List Char) : Decidable (PlainElem e) := by
  unfold PlainElem; infer_instance

/-- The invariant of the output buffer of `filepath.Clean` (last element
first): every element is plain, or is `..` on top of nothing but `..` elements
in a relative path. -/
def StackOK (rooted : Bool) : List (List Char) → Prop
  | [] => True
  | top :: rest =>
    (PlainElem top ∨ (top = ['.', '.'] ∧ rooted = false ∧ ∀ e ∈ rest, e = ['.', '.'])) ∧
      StackOK rooted rest

/-- Whether `filepath.Clean` treats the path as rooted. -/
def rootedC (p : List Char) : Bool := decide (p.head? = some '/')

/-- The elements `filepath.Clean` keeps of a path, first one first. -/
def stackC (p : List Char) : List (List Char) :=
  ((splitSep p).foldl (cleanStep (rootedC p)) []).reverse

/-- A name a directory listing can contain: not empty, not `.`, not `..`,
without a slash. -/
def PlainName (name : String) : Prop := PlainElem name.data

instance (name : String) : Decidable (PlainName name) := by
  unfold PlainName; infer_instance

/-- The path `filepath.Walk` builds for the entry reached from `root` through
the directory entries `names`: `filepath.Join` applied once per name. -/
def descendPath (root : String) (names : List String) : String :=
  names.foldl Join root

/-- The path `path` lies inside the directory `dir`: it is reached from it
through one or more directory entries. -/
def Inside (dir path : String) : Prop :=
  ∃ names : List String, names ≠ [] ∧ (∀ m ∈ names, PlainName m) ∧ path = descendPath dir names

/-- The path `p` is reached from `path` through plain names. -/
def Below (path p : String) : Prop :=
  ∃ ms : List String, (∀ m ∈ ms, PlainName m) ∧ p = descendPath path ms

/-- The path `p` is reached from `path` through an entry with one of the
given names and then through plain names. -/
def BelowEntry (path : String) (names : List String) (p : String) : Prop :=
  ∃ (n : String) (ms : List String), n ∈ names ∧ PlainName n ∧ (∀ m ∈ ms, PlainName m) ∧
    p = descendPath path (n :: ms)

/-! ## The file system seen by `filepath.Walk` -/

mutual
/-- What `os.Lstat` and the directory listing report for one path. -/
inductive Node where
  /-- lstat succeeds, not a directory (regular file, symbolic link, ...) -/
  | file : Node
  /-- lstat succeeds, a directory whose listing succeeds -/
  | dir : Entries → Node
  /-- lstat succeeds, a directory whose listing fails with the given error -/
  | unreadable : String → Node
  /-- lstat fails with the given error -/
  | lstatFails : String → Node
/-- The entries of a directory, in the order `filepath.Walk` visits them
(lexical order of the names). -/
inductive Entries where
  | nil : Entries
  | cons : String → Node → Entries → Entries
end

/-- The `os.FileInfo` fields the program reads. -/
structure FileInfo where
  Name : String
  IsDir : Bool
  deriving DecidableEq, Repr

/-- Type of the callback of `filepath.Walk` (`filepath.WalkFunc`), with the
variables the closure captures passed as state `σ`. -/
abbrev WalkFunc (σ : Type) := String → Option FileInfo → Option GoError → σ → σ × Option GoError

/-- Whether lstat succeeded and reported a directory. -/
def Node.IsDir : Node → Bool
  | .dir _ => true
  | .unreadable _ => true
  | _ => false

/-- Whether an error returned for a directory entry ends the loop over the
entries in `filepath.walk`: after a failed lstat every error but `SkipDir`
does; after a successful one every error does, except `SkipDir` returned for
a directory. -/
def stopsLoop (node : Node) (err : GoError) : Bool :=
  match node with
  | .lstatFails _ => decide (err ≠ GoError.SkipDir)
  | _ => !node.IsDir || decide (err ≠ GoError.SkipDir)

mutual
/-- The treatment of one path by `filepath.Walk`: `os.Lstat`, then either the
callback with the lstat error, or `filepath.walk`: the callback on a
non-directory; on a directory the listing is read, the callback is called
(with the listing error if any) and, if neither failed, the entries are
walked. -/
def visit {σ : Type} (fn : WalkFunc σ) (path : String) : Node → σ → σ × Option GoError
  | .lstatFails e, s => fn path none (some (.os e)) s
  | .file, s => fn path (some ⟨basename path, false⟩) none s
  | .unreadable e, s => fn path (some ⟨basename path, true⟩) (some (.os e)) s
  | .dir es, s =>
    match fn path (some ⟨basename path, true⟩) none s with
    | (s1, some err1) => (s1, some err1)
    | (s1, none) => visitEntries fn path es s1
/-- The loop over the names of a directory in `filepath.walk`. -/
def visitEntries {σ : Type} (fn : WalkFunc σ) (path : String) : Entries → σ → σ × Option GoError
  | .nil, s => (s, none)
  | .cons name node rest, s =>
    match visit fn (Join path name) node s with
    | (s1, some err) =>
      if stopsLoop node err then (s1, some err) else visitEntries fn path rest s1
    | (s1, none) => visitEntries fn path rest s1
end

/-- Go `filepath.Walk(root, fn)`: `SkipDir` and `SkipAll` at the top are not
errors. -/
def Walk {σ : Type} (fn : WalkFunc σ) (fs : Node) (root : String) (s : σ) : σ × Option GoError :=
  match visit fn root fs s with
  | (s1, some err) =>
    if err = GoError.SkipDir ∨ err = GoError.SkipAll then (s1, none) else (s1, some err)
  | (s1, none) => (s1, none)

/-- The names of the entries of a directory. -/
def Entries.names : Entries → List String
  | .nil => []
  | .cons name _ rest => name :: rest.names

/-- The entry of a directory with a given name. -/
def Entries.find : Entries → String → Option Node
  | .nil, _ => none
  | .cons name node rest, m => if name = m then some node else rest.find m

/-- The node reached from a node through the directory entries `names`. -/
def Node.descend : Node → List String → Option Node
  | n, [] => some n
  | .dir es, m :: ms =>
    match es.find m with
    | some c => c.descend ms
    | none => none
  | _, _ :: _ => none

mutual
/-- A tree a file system can produce: in every directory the names are plain
(not empty, not `.` or `..`, no slash) and different from each other. -/
def Node.wf : Node → Bool
  | .dir es => es.wf
  | _ => true
/-- Well-formed entries of a directory. -/
def Entries.wf : Entries → Bool
  | .nil => true
  | .cons name node rest =>
    decide (PlainName name) && decide (name ∉ rest.names) && node.wf && rest.wf
end

mutual
/-- A tree without I/O errors: every lstat and every listing succeeds. -/
def Node.readable : Node → Bool
  | .file => true
  | .dir es => es.readable
  | .unreadable _ => false
  | .lstatFails _ => false
/-- Entries without I/O errors. -/
def Entries.readable : Entries → Bool
  | .nil => true
  | .cons _ node rest => node.readable && rest.readable
end

/-! ## gitutils.FindGitRepos -/

/-- The closure passed to `filepath.Walk` in `FindGitRepos`; the captured
slice `gitRepos` is the state. `info` is nil only together with an error. -/
def findWalkFn (excludeDirs : List String) : WalkFunc (List String) :=
  fun path info err gitRepos =>
    match err with
    | some e => (gitRepos, some e)
    | none =>
      if excludeDirs.any (fun dir => decide (Contains path dir)) then
        (gitRepos, some GoError.SkipDir)
      else
        match info with
        | some i =>
          if i.IsDir && i.Name == ".git" then
            (gitRepos ++ [Dir path], some GoError.SkipDir)
          else (gitRepos, none)
        | none => (gitRepos, none)

/-- Go `FindGitRepos(root, excludeDirs)` on the file system `fs` found at
`root`: the pair of the returned slice (nil is the empty list) and error. -/
def FindGitRepos (fs : Node) (root : String) (excludeDirs : List String) :
    List String × Option GoError :=
  match Walk (findWalkFn excludeDirs) fs root [] with
  | (_, some err) => ([], some (.errorf "查找Git仓库失败: " err ""))
  | (gitRepos, none) => (gitRepos, none)

/-- The record of one call of the callback of `filepath.Walk`. -/
structure VisitRec where
  path : String
  info : Option FileInfo
  err : Option GoError
  deriving DecidableEq, Repr

/-- A callback that behaves as `fn` and also appends every call to a log. -/
def logged {σ : Type} (fn : WalkFunc σ) : WalkFunc (σ × List VisitRec) :=
  fun path info err st =>
    (((fn path info err st.1).1, st.2 ++ [⟨path, info, err⟩]), (fn path info err st.1).2)

/-- The calls of the callback made by the walk of `FindGitRepos`, in order. -/
def visited (fs : Node) (root : String) (excludeDirs : List String) : List VisitRec :=
  (Walk (logged (findWalkFn excludeDirs)) fs root ([], [])).1.2

/-- The visit of a directory named `.git`: the callback got a `FileInfo` of a
directory with that name and no error. -/
def VisitRec.IsGitDir (v : VisitRec) : Prop :=
  v.err = none ∧ v.info = some ⟨".git", true⟩

instance (v : VisitRec) : Decidable v.IsGitDir := by
  unfold VisitRec.IsGitDir; infer_instance

/-- Whether the callback was handed a directory. -/
def VisitRec.isDirectory (v : VisitRec) : Bool :=
  match v.info with
  | some i => i.IsDir
  | none => false

/-- The repositories one call of the callback of `FindGitRepos` appends. -/
def added (excludeDirs : List String) (v : VisitRec) : List String :=
  (findWalkFn excludeDirs v.path v.info v.err []).1

/-- The value one call of the callback of `FindGitRepos` returns. -/
def returned (excludeDirs : List String) (v : VisitRec) : Option GoError :=
  (findWalkFn excludeDirs v.path v.info v.err []).2

/-- The record of the call for a path on which lstat succeeded and no listing
error occurred. -/
def okRec (path : String) (isDir : Bool) : VisitRec :=
  ⟨path, some ⟨basename path, isDir⟩, none⟩

/-- The calls the walk of `FindGitRepos` makes for one path and what is below
it, in order. -/
def visitLog (E : List String) (path : String) (node : Node) : List VisitRec :=
  (visit (logged (findWalkFn E)) path node ([], [])).1.2

/-- The error the walk of one path returns. -/
def visitRet (E : List String) (path : String) (node : Node) : Option GoError :=
  (visit (logged (findWalkFn E)) path node ([], [])).2

/-- The calls made by the loop over the entries of the directory `path`. -/
def entriesLog (E : List String) (path : String) (es : Entries) : List VisitRec :=
  (visitEntries (logged (findWalkFn E)) path es ([], [])).1.2

/-- The error the loop over the entries of a directory returns. -/
def entriesRet (E : List String) (path : String) (es : Entries) : Option GoError :=
  (visitEntries (logged (findWalkFn E)) path es ([], [])).2

/-- Whether the loop over the entries goes on after an entry whose walk
returned `r`. -/
def continues (node : Node) (r : Option GoError) : Bool :=
  match r with
  | none => true
  | some err => !stopsLoop node err

/-- How the calls `L` made while walking one path relate to the error `r` the
walk of that path returns: without an I/O error on any call the walk returns
nil or `SkipDir`; otherwise it returns the I/O error of one of the calls. -/
def LogOutcome (L : List VisitRec) (r : Option GoError) : Prop :=
  ((r = none ∨ r = some GoError.SkipDir) ∧ ∀ v ∈ L, v.err = none) ∨
  (∃ e, r = some (GoError.os e) ∧ ∃ v ∈ L, v.err = some (GoError.os e))

/-- The paths the walk started at `root` can hand to the callback: `root`
itself, and results of `filepath.Join`. -/
def Reached (root path : String) : Prop := path = root ∨ ∃ a b, path = Join a b

/-- The facts about the calls `L` made while walking one path that do not
depend on the callback: the `FileInfo` carries the base name of the path. -/
def InfoNamed (L : List VisitRec) : Prop :=
  ∀ v ∈ L, ∀ i, v.info = some i → i.Name = basename v.path

/-- No call of the callback was for an excluded non-directory (for which the
callback would return `SkipDir` on a file). -/
def NoExcludedFile (E : List String) (L : List VisitRec) : Prop :=
  ∀ v ∈ L, v.isDirectory = false → ∀ e ∈ E, ¬ Contains v.path e

instance (E : List String) (L : List VisitRec) : Decidable (NoExcludedFile E L) := by
  unfold NoExcludedFile; infer_instance

/-! ## Sample directory trees -/

/-- A `.git` directory as the walk sees it. -/
def gitDir : Node := .dir (.cons "HEAD" .file (.cons "config" .file .nil))

/-- A tree with the repositories `app` and `vendor/lib`. -/
def treeTwoRepos : Node :=
  .dir (.cons "app" (.dir (.cons ".git" gitDir (.cons "main.go" .file .nil)))
    (.cons "vendor" (.dir (.cons "lib" (.dir (.cons ".git" gitDir .nil)) .nil)) .nil))

/-- A tree with a repository `a` and an unreadable directory `b` after it. -/
def treeRepoThenError : Node :=
  .dir (.cons "a" (.dir (.cons ".git" (.dir .nil) .nil))
    (.cons "b" (.unreadable "permission denied") .nil))

/-- A readable tree without any repository. -/
def treeNoRepo : Node := .dir (.cons "a" (.dir (.cons "x" .file .nil)) .nil)

/-- A tree in which a file sorts before a repository: `a_skip` is a regular
file, `b` a repository. -/
def treeFileThenRepo : Node :=
  .dir (.cons "a_skip" .file (.cons "b" (.dir (.cons ".git" gitDir .nil)) .nil))

/-- A repository whose `.git` directory contains a directory `sub` that has a
`.git` subdirectory of its own. -/
def treeNestedInGit : Node :=
  .dir (.cons ".git" (.dir (.cons "sub" (.dir (.cons ".git" gitDir .nil)) .nil)) .nil)

/-! ## cmd/pull.go -/

/-- The element type of the `results` channel of `pullReposParallel`; for
`pullReposSequential` the repository of one iteration and the outcome line
printed for it. -/
structure PullResult where
  repo : String
  result : String
  deriving DecidableEq, Repr

/-- The outcome text for the error returned by `gitutils.PullRepo`. -/
def pullText (err : Option GoError) : String :=
  match err with
  | some e => "❌ 错误: " ++ e.Error
  | none => "✅ 拉取成功"

/-- What one repository contributes: its path and the text for the outcome of
`gitutils.PullRepo` on it. -/
def pullOne (PullRepo : String → Option GoError) (repo : String) : PullResult :=
  ⟨repo, pullText (PullRepo repo)⟩

/-- Go `pullReposSequential(repos)`: one iteration per repository, in list
order; an error does not end the loop. -/
def pullReposSequential (PullRepo : String → Option GoError) :
    List String → List PullResult
  | [] => []
  | repo :: rest => pullOne PullRepo repo :: pullReposSequential PullRepo rest

/-- The state of the worker pool of `pullReposParallel`. -/
structure Pool where
  /-- repositories the main goroutine has not yet sent on `jobs` -/
  toSend : List String
  /-- contents of the buffered channel `jobs`, oldest first -/
  jobs : List String
  /-- for each of the four workers, the repository it is pulling -/
  busy : List (Option String)
  /-- contents of the buffered channel `results`, oldest first -/
  results : List PullResult
  deriving DecidableEq, Repr

/-- The steps of the goroutines of `pullReposParallel`. -/
inductive Action where
  /-- the main goroutine sends the next repository on `jobs` -/
  | send : Action
  /-- worker `w` receives a repository from `jobs` -/
  | recv : Nat → Action
  /-- worker `w` finishes `PullRepo` and sends its result on `results` -/
  | finish : Nat → Action
  deriving DecidableEq, Repr

/-- The pool when the workers have been started: four idle workers, both
channels empty (their capacity `len(repos)` is never exceeded). -/
def Pool.init (repos : List String) : Pool :=
  ⟨repos, [], [none, none, none, none], []⟩

/-- One step of the pool; `none` when the step is not enabled. -/
def Pool.step (PullRepo : String → Option GoError) (p : Pool) : Action → Option Pool
  | .send =>
    match p.toSend with
    | [] => none
    | repo :: rest => some { p with toSend := rest, jobs := p.jobs ++ [repo] }
  | .recv w =>
    match p.busy.get? w, p.jobs with
    | some none, repo :: rest => some { p with jobs := rest, busy := p.busy.set w (some repo) }
    | _, _ => none
  | .finish w =>
    match p.busy.get? w with
    | some (some repo) =>
      some { p with busy := p.busy.set w none, results := p.results ++ [pullOne PullRepo repo] }
    | _ => none

/-- A sequence of steps of the pool. -/
def Pool.run (PullRepo : String → Option GoError) : Pool → List Action → Option Pool
  | p, [] => some p
  | p, a :: rest =>
    match p.step PullRepo a with
    | some q => q.run PullRepo rest
    | none => none

/-- The pool when `wg.Wait()` returns: every repository was sent, `jobs` is
closed and drained, and every worker has left its loop. -/
def Pool.finished (p : Pool) : Bool :=
  p.toSend.isEmpty && p.jobs.isEmpty && p.busy.all (fun b => b.isNone)

/-- The slice `resultsList` of `pullReposParallel` before it is sorted: the
contents of `results` after the workers ran as in `sched`; `none` when `sched`
is not a complete run of the pool. -/
def pullCollect (PullRepo : String → Option GoError) (repos : List String)
    (sched : List Action) : Option (List PullResult) :=
  match (Pool.init repos).run PullRepo sched with
  | some p => if p.finished then some p.results else none
  | none => none

/-- The less function passed to `sort.Slice` in `pullReposParallel`, on the
elements at the two indices: `resultsList[i].repo < resultsList[j].repo`. -/
def lessByRepo (a b : PullResult) : Bool := decide (strLess a.repo b.repo)

/-- What `sort.Slice` requires of its less function (the requirement of
`sort.Interface.Less`): it never holds of an element and itself, it is
transitive, and so is its negation. -/
def StrictWeak (less : PullResult → PullResult → Bool) : Prop :=
  (∀ a, less a a = false) ∧
  (∀ a b c, less a b = true → less b c = true → less a c = true) ∧
  (∀ a b c, less a b = false → less b c = false → less a c = false)

/-- The contract of `sort.Slice(x, less)`: for every less function that meets
the requirement, the slice is permuted (not necessarily stably) so that no
element is less than an earlier one. -/
def SliceSorts
    (sortSlice : (PullResult → PullResult → Bool) → List PullResult → List PullResult) : Prop :=
  ∀ less l, StrictWeak less →
    (sortSlice less l).Perm l ∧ (sortSlice less l).Pairwise (fun a b => less b a = false)

/-- Ascending order of repository path (equal paths allowed). -/
def AscendingByRepo (l : List PullResult) : Prop :=
  l.Pairwise (fun a b => strLess a.repo b.repo ∨ a.repo = b.repo)

/-- Go `pullReposParallel(repos)`: the list the final loop prints, for the run
of the workers given by `sched`. `sortSlice` is `sort.Slice`, called with the
less function of the program. -/
def pullReposParallel (PullRepo : String → Option GoError)
    (sortSlice : (PullResult → PullResult → Bool) → List PullResult → List PullResult)
    (repos : List String) (sched : List Action) : Option (List PullResult) :=
  (pullCollect PullRepo repos sched).map (sortSlice lessByRepo)

/-- A run of the pool in which the main goroutine sends everything first and
worker 0 then handles the jobs one after the other. -/
def soloSchedule (repos : List String) : List Action :=
  repos.map (fun _ => Action.send) ++ (repos.map (fun _ => [Action.recv 0, Action.finish 0])).flatten

/-- A run of the pool on two repositories in which the second one finishes
first. -/
def swappedSchedule : List Action :=
  [.send, .send, .recv 0, .recv 1, .finish 1, .finish 0]

/-- A sort meeting the contract of `sort.Slice`: insertion sort, placing an
element before the first one that is less than it or after everything. -/
def insertionSlice (less : PullResult → PullResult → Bool) (l : List PullResult) :
    List PullResult :=
  l.insertionSort (fun a b => less b a = false)

/-- What the pool still owes or has delivered: the results in the channel and
the results of the repositories being pulled, queued, or not yet sent. -/
def Pool.owed (PullRepo : String → Option GoError) (p : Pool) : List PullResult :=
  p.results ++ (p.busy.reduceOption ++ p.jobs ++ p.toSend).map (pullOne PullRepo)

/-- The number of steps the pool has left to do. -/
def Pool.remaining (p : Pool) : Nat :=
  3 * p.toSend.length + 2 * p.jobs.length + p.busy.reduceOption.length

/-! ## The external git tool -/

/-- An `exec.Command("git", ...)` with its working directory. -/
structure Cmd where
  dir : String
  args : List String
  deriving DecidableEq, Repr

/-- What running a command gives: the error of `Run`/`Output`/`CombinedOutput`
and the captured output. -/
structure Outcome where
  err : Option GoError
  output : String
  deriving DecidableEq, Repr

/-- The external tool: the outcome of a command, which may depend on the
commands run before it. -/
abbrev Git := List Cmd → Cmd → Outcome

/-- The command `git reset --hard`. -/
def resetCmd (workDir : String) : Cmd := ⟨workDir, ["git", "reset", "--hard"]⟩

/-- The command `git clean -f -d`. -/
def cleanCmd (workDir : String) : Cmd := ⟨workDir, ["git", "clean", "-f", "-d"]⟩

/-- The command `git fetch --all`. -/
def fetchAllCmd (workDir : String) : Cmd := ⟨workDir, ["git", "fetch", "--all"]⟩

/-- Go `gitutils.ResetHard(workDir)`, with the commands run so far. -/
def ResetHard (git : Git) (workDir : String) (tr : List Cmd) : Option GoError × List Cmd :=
  let c := resetCmd workDir
  match (git tr c).err with
  | some e => (some (.errorf "reset失败: " e ("\n输出: " ++ (git tr c).output)), tr ++ [c])
  | none => (none, tr ++ [c])

/-- Go `gitutils.CleanUntracked(workDir)`. -/
def CleanUntracked (git : Git) (workDir : String) (tr : List Cmd) : Option GoError × List Cmd :=
  let c := cleanCmd workDir
  match (git tr c).err with
  | some e => (some (.errorf "清理失败: " e ("\n输出: " ++ (git tr c).output)), tr ++ [c])
  | none => (none, tr ++ [c])

/-- Go `gitutils.FetchAll(workDir)`. -/
def FetchAll (git : Git) (workDir : String) (tr : List Cmd) : Option GoError × List Cmd :=
  let c := fetchAllCmd workDir
  ((git tr c).err, tr ++ [c])

/-- The command `git checkout <branch>` of `SwitchOrCreateBranch`. -/
def checkoutCmd (workDir branchName : String) : Cmd := ⟨workDir, ["git", "checkout", branchName]⟩

/-- The command `git checkout -b <branch>` of `SwitchOrCreateBranch`. -/
def createCmd (workDir branchName : String) : Cmd :=
  ⟨workDir, ["git", "checkout", "-b", branchName]⟩

/-- Go `gitutils.SwitchOrCreateBranch(workDir, branchName, create)`. -/
def SwitchOrCreateBranch (git : Git) (workDir branchName : String) (create : Bool)
    (tr : List Cmd) : Option GoError × List Cmd :=
  let c1 := checkoutCmd workDir branchName
  match (git tr c1).err with
  | none => (none, tr ++ [c1])
  | some _ =>
    if create then
      let c2 := createCmd workDir branchName
      ((git (tr ++ [c1]) c2).err, tr ++ [c1] ++ [c2])
    else (some (.plain ("分支 " ++ branchName ++ " 不存在")), tr ++ [c1])

/-- The command `git ls-remote --heads <remote> <branch>`. -/
def lsRemoteCmd (workDir branchName remoteName : String) : Cmd :=
  ⟨workDir, ["git", "ls-remote", "--heads", remoteName, branchName]⟩

/-- The command `git checkout -b <branch> <remote>/<branch> --track`. -/
def trackCmd (workDir branchName remoteName : String) : Cmd :=
  ⟨workDir, ["git", "checkout", "-b", branchName, remoteName ++ "/" ++ branchName, "--track"]⟩

/-- The error of `SwitchAndTrackBranch` for a remote branch that does not
exist. -/
def remoteBranchNotFound (branchName remoteName : String) : GoError :=
  .plain ("远程分支 " ++ (remoteName ++ "/" ++ branchName) ++ " 不存在")

/-- Go `gitutils.SwitchAndTrackBranch(workDir, branchName, remoteName)`. -/
def SwitchAndTrackBranch (git : Git) (workDir branchName remoteName : String)
    (tr : List Cmd) : Option GoError × List Cmd :=
  let remoteBranch := remoteName ++ "/" ++ branchName
  let c1 := lsRemoteCmd workDir branchName remoteName
  match (git tr c1).err with
  | some e => (some (.errorf "检查远程分支失败: " e ""), tr ++ [c1])
  | none =>
    if TrimSpace (git tr c1).output = "" then
      (some (.plain ("远程分支 " ++ remoteBranch ++ " 不存在")), tr ++ [c1])
    else
      let c2 := trackCmd workDir branchName remoteName
      match (git (tr ++ [c1]) c2).err with
      | some e => (some (.errorf "切换到跟踪分支失败: " e ""), tr ++ [c1] ++ [c2])
      | none => (none, tr ++ [c1] ++ [c2])

/-! ## cmd/switch.go -/

/-- The struct `switchResult`. -/
structure switchResult where
  name : String
  path : String
  message : String
  err : Option GoError
  deriving DecidableEq, Repr

/-- The package-level flag variables the methods of `switchResult` read. -/
structure SwitchFlags where
  switchCreate : Bool
  switchFetch : Bool
  switchRemote : String
  deriving DecidableEq, Repr

/-- The value `switchResult{path: relPath, name: ...}` built in `Run`. -/
def switchResult.new (name path : String) : switchResult := ⟨name, path, "", none⟩

/-- Go `(*switchResult).switchOnly(repoPath, branch)`. -/
def switchResult.switchOnly (git : Git) (r : switchResult) (repoPath branch : String)
    (tr : List Cmd) : switchResult × List Cmd :=
  match SwitchOrCreateBranch git repoPath branch false tr with
  | (some err, tr1) => ({ r with err := some (.errorf "切换失败: " err "") }, tr1)
  | (none, tr1) => ({ r with message := branch }, tr1)

/-- Go `(*switchResult).switchOrCreate(repoPath, branch)`. -/
def switchResult.switchOrCreate (git : Git) (r : switchResult) (repoPath branch : String)
    (tr : List Cmd) : switchResult × List Cmd :=
  match SwitchOrCreateBranch git repoPath branch true tr with
  | (some err, tr1) => ({ r with err := some (.errorf "切换失败: " err "") }, tr1)
  | (none, tr1) => ({ r with message := branch }, tr1)

/-- Go `(*switchResult).switchWithTracking(repoPath, branch)`. -/
def switchResult.switchWithTracking (git : Git) (flags : SwitchFlags) (r : switchResult)
    (repoPath branch : String) (tr : List Cmd) : switchResult × List Cmd :=
  let track (tr0 : List Cmd) : switchResult × List Cmd :=
    match SwitchAndTrackBranch git repoPath branch flags.switchRemote tr0 with
    | (some err, tr1) => ({ r with err := some (.errorf "创建跟踪分支失败: " err "") }, tr1)
    | (none, tr1) => ({ r with message := "跟踪分支: " ++ branch }, tr1)
  if flags.switchFetch then
    match FetchAll git repoPath tr with
    | (some err, tr1) => ({ r with err := some (.errorf "获取远程信息失败: " err "") }, tr1)
    | (none, tr1) => track tr1
  else track tr

/-- Go `(*switchResult).switchForce(repoPath, branch)`. -/
def switchResult.switchForce (git : Git) (flags : SwitchFlags) (r : switchResult)
    (repoPath branch : String) (tr : List Cmd) : switchResult × List Cmd :=
  match ResetHard git repoPath tr with
  | (some err, tr1) => ({ r with err := some (.errorf "重置失败: " err "") }, tr1)
  | (none, tr1) =>
    match CleanUntracked git repoPath tr1 with
    | (some err, tr2) => ({ r with err := some (.errorf "清理未跟踪文件失败: " err "") }, tr2)
    | (none, tr2) =>
      if flags.switchCreate then
        match SwitchOrCreateBranch git repoPath branch true tr2 with
        | (some err, tr3) => ({ r with err := some (.errorf "切换失败: " err "") }, tr3)
        | (none, tr3) => ({ r with message := "创建并切换到: " ++ branch }, tr3)
      else
        match SwitchOrCreateBranch git repoPath branch false tr2 with
        | (some err, tr3) => ({ r with err := some (.errorf "切换失败: " err "") }, tr3)
        | (none, tr3) => ({ r with message := "切换到: " ++ branch }, tr3)

/-- The outcome every finished switch must have: success with a message and no
error, or an error and no message. -/
def switchResult.OneOutcome (r : switchResult) : Prop :=
  (r.err = none ∧ r.message ≠ "") ∨ (r.err ≠ none ∧ r.message = "")

instance (r : switchResult) : Decidable r.OneOutcome := by
  unfold switchResult.OneOutcome; infer_instance

/-- The commands run before `SwitchAndTrackBranch` in `switchWithTracking`:
the fetch when `switchFetch` is set. -/
def trackStart (flags : SwitchFlags) (repoPath : String) (tr : List Cmd) : List Cmd :=
  if flags.switchFetch then tr ++ [fetchAllCmd repoPath] else tr

/-! ## Sample behaviours of the git tool -/

/-- A tool whose `git clean` fails and everything else succeeds. -/
def gitCleanFails : Git := fun _ c => if c.args = ["git", "clean", "-f", "-d"] then ⟨some (.os "exit status 1"), "denied"⟩ else ⟨none, ""⟩

/-- A tool whose `git ls-remote` prints only a newline and succeeds, as does
every other command. -/
def gitNoRemoteBranch : Git := fun _ _ => ⟨none, "\n"⟩

/-- A tool whose `git checkout <branch>` fails and everything else succeeds. -/
def gitNoLocalBranch : Git :=
  fun _ c => if c.args.length = 3 then ⟨some (.os "exit status 1"), ""⟩ else ⟨none, ""⟩

/-! ## regexp and gitutils.GetRepoName -/

/-- Go `strings.HasPrefix(s, pre)`. -/
def HasPrefix (s pre : String) : Bool := pre.data.isPrefixOf s.data

/-- Go `filepath.Base(path)`: the last element of the path after removing
trailing slashes; `.` for the empty path and `/` for a path of slashes. -/
def Base (path : String) : String :=
  if path = "" then "."
  else
    match ((path.data.reverse.dropWhile (fun c => c = '/')).takeWhile (fun c => c ≠ '/')).reverse with
    | [] => "/"
    | last => ⟨last⟩

/-- The regular expressions of Go `regexp` (RE2 syntax) that occur in the
program, with the flag `m` set: `^` and `$` are line assertions and `.` does
not match a newline. -/
inductive Regex where
  /-- the empty expression -/
  | eps : Regex
  /-- a literal character -/
  | lit : Char → Regex
  /-- `.`: any character but newline -/
  | dot : Regex
  /-- `\s`: one of tab, newline, form feed, carriage return, space -/
  | space : Regex
  /-- `^` under `(?m)`: at the start of the text or after a newline -/
  | bol : Regex
  /-- `$` under `(?m)`: at the end of the text or before a newline -/
  | eol : Regex
  /-- concatenation -/
  | seq : Regex → Regex → Regex
  /-- `r*` when the flag is true, `r*?` when it is false -/
  | star : Regex → Bool → Regex
  /-- the capturing group `(r)` (the program has one group) -/
  | group : Regex → Regex

/-- A position reached by the matcher together with the span of the capturing
group, if it was passed. -/
abbrev MatchState := Nat × Option (Nat × Nat)

/-- The repetition `r*` / `r*?` at one position: the positions reached after
zero or more rounds of `step`, in the order the matcher prefers them (more
rounds first when greedy, fewer first when not). A round that does not advance
is not repeated; `fuel` bounds the number of rounds by the length of the text. -/
def starLoop (step : Nat → Option (Nat × Nat) → List MatchState) (greedy : Bool) :
    Nat → Nat → Option (Nat × Nat) → List MatchState
  | 0, i, cap => [(i, cap)]
  | fuel + 1, i, cap =>
    let more := ((step i cap).filter (fun st => decide (i < st.1))).flatMap
      (fun st => starLoop step greedy fuel st.1 st.2)
    if greedy then more ++ [(i, cap)] else (i, cap) :: more

/-- The backtracking matcher: all ways `r` matches `text` from position `i`,
in order of preference (leftmost-first semantics of Go `regexp`). -/
def Regex.run (text : List Char) : Regex → Nat → Option (Nat × Nat) → List MatchState
  | .eps, i, cap => [(i, cap)]
  | .lit c, i, cap => if text.get? i = some c then [(i + 1, cap)] else []
  | .dot, i, cap =>
    match text.get? i with
    | some c => if c = '\n' then [] else [(i + 1, cap)]
    | none => []
  | .space, i, cap =>
    match text.get? i with
    | some c =>
      if c = '\t' ∨ c = '\n' ∨ c = Char.ofNat 0x0C ∨ c = '\r' ∨ c = ' ' then [(i + 1, cap)] else []
    | none => []
  | .bol, i, cap => if i = 0 ∨ text.get? (i - 1) = some '\n' then [(i, cap)] else []
  | .eol, i, cap => if i = text.length ∨ text.get? i = some '\n' then [(i, cap)] else []
  | .seq a b, i, cap => (a.run text i cap).flatMap (fun st => b.run text st.1 st.2)
  | .star r greedy, i, cap => starLoop (fun j c => r.run text j c) greedy text.length i cap
  | .group r, i, cap => (r.run text i cap).map (fun st => (st.1, some (i, st.1)))

/-- The expression matching the characters of `s` one after the other,
followed by `rest`. -/
def Regex.lits (s : List Char) (rest : Regex) : Regex :=
  s.foldr (fun c r => Regex.seq (Regex.lit c) r) rest

/-- The expression `r+` / `r+?`. -/
def Regex.plus (r : Regex) (greedy : Bool) : Regex := .seq r (.star r greedy)

/-- The search of `FindStringSubmatch` for the leftmost match: the start
positions are tried from `start` on, at most `fuel` of them. -/
def findFrom (re : Regex) (text : List Char) : Nat → Nat → List String
  | 0, _ => []
  | fuel + 1, start =>
    match re.run text start none with
    | (stop, cap) :: _ =>
      [⟨(text.drop start).take (stop - start)⟩,
        match cap with
        | some (a, b) => ⟨(text.drop a).take (b - a)⟩
        | none => ""]
    | [] => findFrom re text fuel (start + 1)

/-- Go `re.FindStringSubmatch(text)` for an expression with one group: the
leftmost match, as the matched text and the text of the group; `[]` is nil. -/
def FindStringSubmatch (re : Regex) (text : String) : List String :=
  findFrom re text.data (text.length + 1) 0

/-- The expression compiled in `GetRepoName`:
`(?m)^$$remote "origin"$$.*?url\s*=\s*.+/(.+?)\.git`. -/
def repoNamePattern : Regex :=
  .seq .bol (.seq .eol (.seq .eol (Regex.lits "remote \"origin\"".data
    (.seq .eol (.seq .eol (.seq (.star .dot false) (Regex.lits "url".data
      (.seq (.star .space true) (.seq (.lit '=') (.seq (.star .space true)
        (.seq (Regex.plus .dot true) (.seq (.lit '/')
          (.seq (.group (Regex.plus .dot false)) (Regex.lits ".git".data .eps))))))))))))))

/-- What `os.Stat` and `os.ReadFile` give for the file `.git/config` of a
repository. -/
inductive ConfigFile where
  /-- `os.Stat` fails -/
  | absent : ConfigFile
  /-- the path is a directory -/
  | directory : ConfigFile
  /-- `os.ReadFile` fails -/
  | unreadable : ConfigFile
  /-- the content read -/
  | content : String → ConfigFile

/-- Go `gitutils.GetRepoName(path)`; `config` gives the state of the file at
a path (here `filepath.Join(path, ".git", "config")`). -/
def GetRepoName (config : String → ConfigFile) (path : String) : String :=
  let configPath := Join (Join path ".git") "config"
  let repoName :=
    match config configPath with
    | .content data =>
      match FindStringSubmatch repoNamePattern data with
      | _ :: name :: _ => name
      | _ => ""
    | _ => ""
  if repoName = "" then Base path else repoName

/-- A sample expression: the part of the expression of `GetRepoName` from
`url` on, anchored at the start of a line. -/
def urlTailPattern : Regex :=
  .seq .bol (Regex.lits "url".data (.seq (.star .space true) (.seq (.lit '=') (.seq (.star .space true)
    (.seq (Regex.plus .dot true) (.seq (.lit '/')
      (.seq (.group (Regex.plus .dot false)) (Regex.lits ".git".data .eps))))))))

/-! ## gitutils: the branch and working-tree queries -/

/-- The command `git rev-parse --abbrev-ref HEAD`. -/
def currentBranchCmd (workDir : String) : Cmd :=
  ⟨workDir, ["git", "rev-parse", "--abbrev-ref", "HEAD"]⟩

/-- Go `gitutils.GetCurrentBranch(workDir)`, with the commands run so far. -/
def GetCurrentBranch (git : Git) (workDir : String) (tr : List Cmd) :
    (String × Option GoError) × List Cmd :=
  let c := currentBranchCmd workDir
  match (git tr c).err with
  | some e => (("", some (.errorf "获取分支失败: " e "")), tr ++ [c])
  | none => ((TrimSpace (git tr c).output, none), tr ++ [c])

/-- The command `git status --porcelain`. -/
def statusCmd (workDir : String) : Cmd := ⟨workDir, ["git", "status", "--porcelain"]⟩

/-- Go `gitutils.IsDirty(workDir)`. -/
def IsDirty (git : Git) (workDir : String) (tr : List Cmd) : Bool × List Cmd :=
  let c := statusCmd workDir
  match (git tr c).err with
  | some _ => (false, tr ++ [c])
  | none => (decide ((TrimSpace (git tr c).output).utf8ByteSize > 0), tr ++ [c])

/-! ## cmd/branch.go -/

/-- The colours of the `color` package used for a branch name. -/
inductive Color where
  | green : Color
  | yellow : Color
  deriving DecidableEq, Repr

/-- The `branchColor` chosen in `outputCurrentBranches` (yellow marks a
detached HEAD). -/
def currentBranchColor (branch : String) : Color :=
  if branch = "HEAD" ∨ branch = "(detached from " ++ branch ++ ")" then .yellow else .green

/-- The `branchColor` chosen in `outputSimpleBranchInfo`. -/
def simpleBranchColor (branch : String) : Color :=
  if branch = "HEAD" ∨ HasPrefix branch "(detached from" = true then .yellow else .green

/-- The test for a detached HEAD in `outputBranchSummary`. -/
def summaryDetached (branch : String) : Bool :=
  branch = "HEAD" ∨ HasPrefix branch "(detached from" = true

/-- The four collections filled by the loop of `outputBranchSummary`. The map
`branchCount` is kept as the list of its keys with their counts. -/
structure BranchSummary where
  branchCount : List (String × Nat)
  detachedRepos : List String
  errorRepos : List String
  dirtyRepos : List String
  deriving DecidableEq, Repr

/-- Go `m[key]` on a `map[string]int`: the count of the key, `0` when the key
is missing. -/
def countOf : List (String × Nat) → String → Nat
  | [], _ => 0
  | (k, n) :: rest, key => if k = key then n else countOf rest key

/-- Go `m[key]++` on a `map[string]int`. -/
def countIncr : List (String × Nat) → String → List (String × Nat)
  | [], key => [(key, 1)]
  | (k, n) :: rest, key => if k = key then (k, n + 1) :: rest else (k, n) :: countIncr rest key

/-- One round of the loop of `outputBranchSummary`, on the collections and the
commands run so far. -/
def summaryStep (git : Git) (config : String → ConfigFile) (acc : BranchSummary × List Cmd)
    (repoPath : String) : BranchSummary × List Cmd :=
  let repoName := GetRepoName config repoPath
  match GetCurrentBranch git repoPath acc.2 with
  | ((_, some _), tr1) => ({ acc.1 with errorRepos := acc.1.errorRepos ++ [repoName] }, tr1)
  | ((branch, none), tr1) =>
    if summaryDetached branch then
      ({ acc.1 with detachedRepos := acc.1.detachedRepos ++ [repoName] }, tr1)
    else
      let counted := { acc.1 with branchCount := countIncr acc.1.branchCount branch }
      match IsDirty git repoPath tr1 with
      | (true, tr2) => ({ counted with dirtyRepos := counted.dirtyRepos ++ [repoName] }, tr2)
      | (false, tr2) => (counted, tr2)

/-- The loop of Go `outputBranchSummary(repos, rootDir)`: the collections it
prints from, and the commands it ran. -/
def outputBranchSummary (git : Git) (config : String → ConfigFile) (repos : List String) :
    BranchSummary × List Cmd :=
  repos.foldl (summaryStep git config) (⟨[], [], [], []⟩, [])

/-- How `outputBranchSummary` files a repository. -/
inductive RepoClass where
  | failed : RepoClass
  | detached : RepoClass
  | onBranch : String → RepoClass
  deriving DecidableEq, Repr

/-- The commands run by `outputBranchSummary` before it comes to the
repository at position `i`. -/
def summaryTrace (git : Git) (config : String → ConfigFile) (repos : List String) (i : Nat) :
    List Cmd :=
  (outputBranchSummary git config (repos.take i)).2

/-- The class of the repository at position `i`: what its current-branch query
gives at the moment `outputBranchSummary` makes it. -/
def classAt (git : Git) (config : String → ConfigFile) (repos : List String) (i : Nat) :
    RepoClass :=
  match (GetCurrentBranch git (repos.getD i "") (summaryTrace git config repos i)).1 with
  | (_, some _) => .failed
  | (branch, none) => if summaryDetached branch then .detached else .onBranch branch

/-- What `IsDirty` gives for the repository at position `i` right after its
current-branch query. -/
def dirtyAt (git : Git) (config : String → ConfigFile) (repos : List String) (i : Nat) : Bool :=
  (IsDirty git (repos.getD i "")
    (GetCurrentBranch git (repos.getD i "") (summaryTrace git config repos i)).2).1

/-- The names of the repositories at the positions that satisfy `p`, in the
order of the list. -/
def namesWhere (config : String → ConfigFile) (repos : List String) (p : Nat → Bool) :
    List String :=
  ((List.range repos.length).filter p).map (fun i => GetRepoName config (repos.getD i ""))

/-- A tool for two repositories: in the directory `/w/A` the
branch is `main` and the tree is clean, elsewhere HEAD is detached and a file
is modified. -/
def gitCleanMainDirtyDetached : Git := fun _ c =>
  if c.dir = "/w/A" then
    (if c.args = ["git", "status", "--porcelain"] then ⟨none, ""⟩ else ⟨none, "main\n"⟩)
  else
    (if c.args = ["git", "status", "--porcelain"] then ⟨none, " M file.txt\n"⟩ else ⟨none, "HEAD\n"⟩)

/-- Whether the class is a branch of the histogram. -/
def RepoClass.isBranch : RepoClass → Bool
  | .onBranch _ => true
  | _ => false

/-! ## Go strings: Split and Fields -/

/-- Go `strings.Split(s, sep)` for a separator of one character, on lists of
characters: the pieces between the separators (one piece more than there are
separators). -/
def splitChar (sep : Char) : List Char → List (List Char)
  | [] => [[]]
  | c :: cs =>
    if c = sep then [] :: splitChar sep cs
    else
      match splitChar sep cs with
      | [] => [[c]]
      | h :: t => (c :: h) :: t

/-- Go `strings.Split(s, sep)` for a separator of one character. -/
def Split (s : String) (sep : Char) : List String := (splitChar sep s.data).map String.mk

/-- The loop of `strings.Fields`: `cur` holds the characters of the field
being read, last one first. -/
def fieldsFrom : List Char → List Char → List (List Char)
  | [], cur => if cur = [] then [] else [cur.reverse]
  | c :: cs, cur =>
    if isSpace c then
      (if cur = [] then fieldsFrom cs [] else cur.reverse :: fieldsFrom cs [])
    else fieldsFrom cs (c :: cur)

/-- Go `strings.Fields(s)`: the maximal runs of characters that are not white
space. -/
def Fields (s : String) : List String := (fieldsFrom s.data []).map String.mk

/-- Go `fmt.Sprintf("%d", n)` for a number that is not negative. -/
def formatInt (n : Nat) : String := Nat.repr n

/-! ## gitutils.GetBranchStatus and gitutils.GetRemoteInfo -/

/-- The command `git rev-parse --abbrev-ref` for the upstream of a branch. -/
def upstreamCmd (workDir branch : String) : Cmd :=
  ⟨workDir, ["git", "rev-parse", "--abbrev-ref", branch ++ "@\x7bupstream\x7d"]⟩

/-- The command `git rev-list --left-right <branch>...<upstream>`. -/
def revListCmd (workDir branch upstreamName : String) : Cmd :=
  ⟨workDir, ["git", "rev-list", "--left-right", branch ++ "..." ++ upstreamName]⟩

/-- One round of the counting loop of `GetBranchStatus`, on the pair
`(ahead, behind)`. -/
def countLine (acc : Nat × Nat) (line : String) : Nat × Nat :=
  if HasPrefix line ">" then (acc.1 + 1, acc.2)
  else if HasPrefix line "<" then (acc.1, acc.2 + 1)
  else acc

/-- The text `GetBranchStatus` builds from the two counters. -/
def statusText (ahead behind : Nat) : String :=
  TrimSpace ((if ahead > 0 then "↑" ++ formatInt ahead ++ " " else "") ++
    (if behind > 0 then "↓" ++ formatInt behind ++ " " else ""))

/-- Go `gitutils.GetBranchStatus(workDir, branch)`, with the commands run so
far. -/
def GetBranchStatus (git : Git) (workDir branch : String) (tr : List Cmd) : String × List Cmd :=
  let c1 := upstreamCmd workDir branch
  match (git tr c1).err with
  | some _ => ("", tr ++ [c1])
  | none =>
    let upstreamName := TrimSpace (git tr c1).output
    let c2 := revListCmd workDir branch upstreamName
    match (git (tr ++ [c1]) c2).err with
    | some _ => ("", tr ++ [c1] ++ [c2])
    | none =>
      let counts := Split (git (tr ++ [c1]) c2).output '\n'
      let total := counts.foldl countLine (0, 0)
      (statusText total.1 total.2, tr ++ [c1] ++ [c2])

/-- The command `git remote`. -/
def remoteCmd (workDir : String) : Cmd := ⟨workDir, ["git", "remote"]⟩

/-- The command `git remote get-url <name>`. -/
def getUrlCmd (workDir remoteName : String) : Cmd :=
  ⟨workDir, ["git", "remote", "get-url", remoteName]⟩

/-- Go `m[key] = value` on a `map[string]string`, kept as the list of its
keys with their values. -/
def mapSet : List (String × String) → String → String → List (String × String)
  | [], key, value => [(key, value)]
  | (k, v) :: rest, key, value =>
    if k = key then (k, value) :: rest else (k, v) :: mapSet rest key value

/-- The loop of `GetRemoteInfo` over the names of the remotes. The nil map of
the error case is the empty list. -/
def remoteUrls (git : Git) (workDir : String) :
    List String → List (String × String) → List Cmd →
      (List (String × String) × Option GoError) × List Cmd
  | [], remotes, tr => ((remotes, none), tr)
  | remoteName :: rest, remotes, tr =>
    let c := getUrlCmd workDir remoteName
    match (git tr c).err with
    | some e => (([], some (.errorf "获取远程URL失败: " e "")), tr ++ [c])
    | none =>
      remoteUrls git workDir rest (mapSet remotes remoteName (TrimSpace (git tr c).output))
        (tr ++ [c])

/-- Go `gitutils.GetRemoteInfo(workDir)`, with the commands run so far. -/
def GetRemoteInfo (git : Git) (workDir : String) (tr : List Cmd) :
    (List (String × String) × Option GoError) × List Cmd :=
  let c := remoteCmd workDir
  match (git tr c).err with
  | some e => (([], some (.errorf "获取远程列表失败: " e "")), tr ++ [c])
  | none =>
    let remoteList := Fields (git tr c).output
    if remoteList.length = 0 then (([], none), tr ++ [c])
    else remoteUrls git workDir remoteList [] (tr ++ [c])

/-! ## cmd/remote.go -/

/-- The lines `outputRawRemoteInfo` prints for one repository, each the text
of one `Printf` call without its final newline. `order` is the order in which
`range` yields the entries of the map. -/
def rawLines (order : List (String × String) → List (String × String)) (repoPath : String)
    (result : List (String × String) × Option GoError) : List String :=
  match result with
  | (_, some err) => [repoPath ++ ": ERROR: " ++ err.Error]
  | (remotes, none) =>
    if remotes.length = 0 then [repoPath ++ ": NO_REMOTES"]
    else (order remotes).map (fun kv => repoPath ++ ":" ++ kv.1 ++ ":" ++ kv.2)

/-- Go `outputRawRemoteInfo(repos)`: the lines printed and the commands run. -/
def outputRawRemoteInfo (git : Git) (order : List (String × String) → List (String × String)) :
    List String → List Cmd → List String × List Cmd
  | [], tr => ([], tr)
  | repoPath :: rest, tr =>
    let query := GetRemoteInfo git repoPath tr
    let later := outputRawRemoteInfo git order rest query.2
    (rawLines order repoPath query.1 ++ later.1, later.2)

/-- A tool for a branch with an upstream, two commits only on the local branch
and one commit only on the upstream. -/
def gitTwoLocalOneUpstream : Git := fun _ c =>
  if c.args.take 2 = ["git", "rev-list"] then ⟨none, "<a1\n<a2\n>b1\n"⟩
  else ⟨none, "origin/main\n"⟩

/-- A tool for three repositories: `/w/A` has no remote, `/w/B` has the
remotes `origin` and `fork`, and in `/w/C` the command `git remote` fails. -/
def gitThreeRemotes : Git := fun _ c =>
  if c.args = ["git", "remote"] then
    (if c.dir = "/w/A" then ⟨none, ""⟩
     else if c.dir = "/w/B" then ⟨none, "origin\nfork\n"⟩
     else ⟨some (.os "exit status 128"), ""⟩)
  else ⟨none, "https://h/" ++ c.args.getLastD "" ++ ".git\n"⟩

/-! ## The exclusion list of the commands -/

/-- The slice `excludeDirs` the commands build from the value of `--exclude`:
nil for the empty value, otherwise `strings.Split(value, ",")`. -/
def parseExclude (value : String) : List String :=
  if value ≠ "" then Split value ',' else []

/-! ## cmd/switch.go: the command -/

/-- The flag variables of the `switch` command. -/
structure SwitchOptions where
  switchPath : String
  switchExclude : String
  switchCreate : Bool
  switchTrack : Bool
  switchRemote : String
  switchFetch : Bool
  switchForce : Bool
  switchSilent : Bool
  deriving DecidableEq, Repr

/-- The flags as the methods of `switchResult` read them, after `Run` has set
the default remote name. -/
def SwitchOptions.flags (o : SwitchOptions) : SwitchFlags :=
  ⟨o.switchCreate, o.switchFetch,
    if o.switchTrack = true ∧ o.switchRemote = "" then "origin" else o.switchRemote⟩

/-- The value `result` built in the goroutine of `Run` before the dispatch.
`rel` is `filepath.Rel`. -/
def taskResult (config : String → ConfigFile) (rel : String → String → String)
    (rootDir repoPath : String) : switchResult :=
  let relPath := rel rootDir repoPath
  let relPath := if relPath = "." then Base repoPath else relPath
  switchResult.new (GetRepoName config repoPath) relPath

/-- The body of the goroutine started by `Run` for one repository: the result
sent to the channel and the commands run. The goroutines run side by side,
each in its own repository; the tool answers a goroutine from the commands
that goroutine has run. -/
def switchTask (git : Git) (config : String → ConfigFile) (rel : String → String → String)
    (o : SwitchOptions) (rootDir branchName repoPath : String) : switchResult × List Cmd :=
  let result := taskResult config rel rootDir repoPath
  if o.switchForce then result.switchForce git o.flags repoPath branchName []
  else if o.switchTrack then result.switchWithTracking git o.flags repoPath branchName []
  else if o.switchCreate then result.switchOrCreate git repoPath branchName []
  else result.switchOnly git repoPath branchName []

/-- How `Run` of the `switch` command ends: the discovery failed, no
repository was found, the user declined, or the tasks ran (one entry for each
repository, in the order of the discovery). -/
inductive SwitchOutcome where
  | findFailed : GoError → SwitchOutcome
  | noRepos : SwitchOutcome
  | cancelled : SwitchOutcome
  | ran : List (switchResult × List Cmd) → SwitchOutcome
  deriving DecidableEq, Repr

/-- Go `switchCmd.Run` on the tree `fs` found at the root directory. `cwd` is
what `os.Getwd` gives, `confirm` the word `fmt.Scanln` would read from the
standard input. -/
def switchRun (git : Git) (config : String → ConfigFile) (rel : String → String → String)
    (fs : Node) (cwd : String) (o : SwitchOptions) (branchName confirm : String) :
    SwitchOutcome :=
  let rootDir := if o.switchPath ≠ "" then o.switchPath else cwd
  let excludeDirs := parseExclude o.switchExclude
  match FindGitRepos fs rootDir excludeDirs with
  | (_, some err) => .findFailed err
  | (repos, none) =>
    if repos.length = 0 then .noRepos
    else if (!o.switchSilent && (o.switchForce || !o.switchCreate)) = true ∧
        (confirm ≠ "y" ∧ confirm ≠ "Y") then .cancelled
    else .ran (repos.map (switchTask git config rel o rootDir branchName))

/-- All the commands run by the `switch` command. -/
def SwitchOutcome.cmds : SwitchOutcome → List Cmd
  | .ran results => results.flatMap (fun t => t.2)
  | _ => []

/-! ## cmd/clean.go -/

/-- The flag variables of the `clean` command. -/
structure CleanOptions where
  forceFlag : Bool
  recursiveFlag : Bool
  excludeFlag : String
  pathFlag : String
  deriving DecidableEq, Repr

/-- How the operating system answers `RemoveTargetDir`: whether `os.Stat`
reports that the path does not exist, and the error of `os.RemoveAll`. -/
structure TargetDirs where
  notExist : String → Bool
  removeAll : String → Option GoError

/-- What the `clean` command has done so far: the git commands run and the
paths handed to `os.RemoveAll`. -/
structure Effects where
  cmds : List Cmd
  removed : List String
  deriving DecidableEq, Repr

/-- The command `git rev-parse --is-inside-work-tree`. -/
def insideWorkTreeCmd (workDir : String) : Cmd :=
  ⟨workDir, ["git", "rev-parse", "--is-inside-work-tree"]⟩

/-- Go `gitutils.IsGitRepo(workDir)`. -/
def IsGitRepo (git : Git) (workDir : String) (tr : List Cmd) : Bool × List Cmd :=
  let c := insideWorkTreeCmd workDir
  (decide ((git tr c).err = none), tr ++ [c])

/-- Go `gitutils.RemoveTargetDir(workDir)`. -/
def RemoveTargetDir (dirs : TargetDirs) (workDir : String) (removed : List String) :
    Option GoError × List String :=
  let targetPath := Join workDir "target"
  if dirs.notExist targetPath then (none, removed)
  else
    match dirs.removeAll targetPath with
    | some err => (some (.errorf "删除目录失败: " err ""), removed ++ [targetPath])
    | none => (none, removed ++ [targetPath])

/-- Go `cleanRepo(repoPath)`. -/
def cleanRepo (git : Git) (dirs : TargetDirs) (repoPath : String) (eff : Effects) :
    Option GoError × Effects :=
  match ResetHard git repoPath eff.cmds with
  | (some err, tr1) => (some (.errorf "重置失败: " err ""), ⟨tr1, eff.removed⟩)
  | (none, tr1) =>
    match CleanUntracked git repoPath tr1 with
    | (some err, tr2) => (some (.errorf "清理未跟踪文件失败: " err ""), ⟨tr2, eff.removed⟩)
    | (none, tr2) =>
      match RemoveTargetDir dirs repoPath eff.removed with
      | (some err, rm) => (some (.errorf "删除target目录失败: " err ""), ⟨tr2, rm⟩)
      | (none, rm) => (none, ⟨tr2, rm⟩)

/-- The loop of the recursive mode of `clean` over the repositories: for each
one the error of `cleanRepo`. -/
def cleanAll (git : Git) (dirs : TargetDirs) :
    List String → Effects → List (String × Option GoError) × Effects
  | [], eff => ([], eff)
  | repo :: rest, eff =>
    let first := cleanRepo git dirs repo eff
    let later := cleanAll git dirs rest first.2
    ((repo, first.1) :: later.1, later.2)

/-- How `Run` of the `clean` command ends. -/
inductive CleanOutcome where
  | cancelled : CleanOutcome
  | findFailed : GoError → CleanOutcome
  | noRepos : CleanOutcome
  | notRepo : CleanOutcome
  | cleaned : List (String × Option GoError) → CleanOutcome
  deriving DecidableEq, Repr

/-- Go `cleanCmd.Run` on the tree `fs` found at the root directory. -/
def cleanRun (git : Git) (dirs : TargetDirs) (fs : Node) (cwd : String) (o : CleanOptions)
    (args : List String) (confirm : String) : CleanOutcome × Effects :=
  let rootDir :=
    if o.pathFlag ≠ "" then o.pathFlag
    else
      match args with
      | a :: _ => a
      | [] => cwd
  if o.forceFlag = false ∧ (confirm ≠ "y" ∧ confirm ≠ "Y") then (.cancelled, ⟨[], []⟩)
  else
    let excludeDirs := parseExclude o.excludeFlag
    if o.recursiveFlag then
      match FindGitRepos fs rootDir excludeDirs with
      | (_, some err) => (.findFailed err, ⟨[], []⟩)
      | (repos, none) =>
        if repos.length = 0 then (.noRepos, ⟨[], []⟩)
        else
          let done := cleanAll git dirs repos ⟨[], []⟩
          (.cleaned done.1, done.2)
    else
      match IsGitRepo git rootDir [] with
      | (false, tr) => (.notRepo, ⟨tr, []⟩)
      | (true, tr) =>
        let done := cleanRepo git dirs rootDir ⟨tr, []⟩
        (.cleaned [(rootDir, done.1)], done.2)

/-- A tool whose every command succeeds with empty output. -/
def gitAllOk : Git := fun _ _ => ⟨none, ""⟩

/-- An operating system on which every `target` directory exists and can be
removed. -/
def targetsPresent : TargetDirs := ⟨fun _ => false, fun _ => none⟩

/-- A stand-in for `filepath.Rel` that gives the target path back. -/
def relKeep : String → String → String := fun _ target => target

/-! # Properties -/

/-! ## Switch modes (C7 to C10) -/

theorem append_ne_empty_of_left (a b : String) (h : a ≠ "") : a ++ b ≠ "" := by
  intro hab
  apply h
  have h1 : (a ++ b).data = [] := by rw [hab]
  rw [String.data_append] at h1
  have h2 : a.data = [] := (List.append_eq_nil.mp h1).1
  exact String.ext h2

/-- C7 (as stated, refuted): with the empty branch name and a checkout that
succeeds, `switchOnly` leaves the result with no error and an empty message. -/
theorem C7_counterexample :
    ¬ ((switchResult.new "repo" "repo").switchOnly (fun _ _ => ⟨none, ""⟩)
        "/r/repo" "" []).1.OneOutcome := by
  decide

/-- C7 (amended): for every outcome of the git commands, `switchWithTracking`
and `switchForce` end with exactly one of (no error, non-empty message) and
(error, empty message) for every branch name, and `switchOnly` and
`switchOrCreate` do so for every non-empty branch name. -/
theorem C7_one_outcome (git : Git) (flags : SwitchFlags) (name path repoPath branch : String)
    (tr : List Cmd) :
    (branch ≠ "" →
      ((switchResult.new name path).switchOnly git repoPath branch tr).1.OneOutcome) ∧
    (branch ≠ "" →
      ((switchResult.new name path).switchOrCreate git repoPath branch tr).1.OneOutcome) ∧
    ((switchResult.new name path).switchWithTracking git flags repoPath branch tr).1.OneOutcome ∧
    ((switchResult.new name path).switchForce git flags repoPath branch tr).1.OneOutcome := by
  have h1 : "跟踪分支: " ++ branch ≠ "" := append_ne_empty_of_left _ _ (by decide)
  have h2 : "创建并切换到: " ++ branch ≠ "" := append_ne_empty_of_left _ _ (by decide)
  have h3 : "切换到: " ++ branch ≠ "" := append_ne_empty_of_left _ _ (by decide)
  refine ⟨?_, ?_, ?_, ?_⟩
  · intro hb
    unfold switchResult.switchOnly switchResult.OneOutcome switchResult.new
    split <;> simp_all
  · intro hb
    unfold switchResult.switchOrCreate switchResult.OneOutcome switchResult.new
    split <;> simp_all
  · unfold switchResult.switchWithTracking switchResult.OneOutcome switchResult.new
    split
    · split
      · simp
      · dsimp only
        split <;> simp_all
    · dsimp only
      split <;> simp_all
  · unfold switchResult.switchForce switchResult.OneOutcome switchResult.new
    split
    · simp
    · split
      · simp
      · split
        · split <;> simp_all
        · split <;> simp_all

/-- C7 witness: branch `main`, every command succeeding. -/
theorem C7_one_outcome_witness :
    ((switchResult.new "repo" "repo").switchOnly (fun _ _ => ⟨none, ""⟩)
        "/r/repo" "main" []).1.OneOutcome ∧
    ((switchResult.new "repo" "repo").switchOrCreate (fun _ _ => ⟨none, ""⟩)
        "/r/repo" "main" []).1.OneOutcome :=
  ⟨(C7_one_outcome (fun _ _ => ⟨none, ""⟩) ⟨false, false, "origin"⟩ "repo" "repo" "/r/repo"
      "main" []).1 (by decide),
   (C7_one_outcome (fun _ _ => ⟨none, ""⟩) ⟨false, false, "origin"⟩ "repo" "repo" "/r/repo"
      "main" []).2.1 (by decide)⟩

theorem ResetHard_ok {git : Git} {d : String} {tr : List Cmd}
    (h : (git tr (resetCmd d)).err = none) : ResetHard git d tr = (none, tr ++ [resetCmd d]) := by
  simp [ResetHard, h]

theorem ResetHard_err {git : Git} {d : String} {tr : List Cmd} {e : GoError}
    (h : (git tr (resetCmd d)).err = some e) :
    ResetHard git d tr =
      (some (.errorf "reset失败: " e ("\n输出: " ++ (git tr (resetCmd d)).output)),
        tr ++ [resetCmd d]) := by
  simp [ResetHard, h]

theorem CleanUntracked_ok {git : Git} {d : String} {tr : List Cmd}
    (h : (git tr (cleanCmd d)).err = none) :
    CleanUntracked git d tr = (none, tr ++ [cleanCmd d]) := by
  simp [CleanUntracked, h]

theorem CleanUntracked_err {git : Git} {d : String} {tr : List Cmd} {e : GoError}
    (h : (git tr (cleanCmd d)).err = some e) :
    CleanUntracked git d tr =
      (some (.errorf "清理失败: " e ("\n输出: " ++ (git tr (cleanCmd d)).output)),
        tr ++ [cleanCmd d]) := by
  simp [CleanUntracked, h]

theorem SwitchOrCreateBranch_trace (git : Git) (d b : String) (create : Bool) (tr : List Cmd) :
    (SwitchOrCreateBranch git d b create tr).2 = tr ++ [checkoutCmd d b] ∨
    (SwitchOrCreateBranch git d b create tr).2 = tr ++ [checkoutCmd d b] ++ [createCmd d b] := by
  unfold SwitchOrCreateBranch
  cases h : (git tr (checkoutCmd d b)).err <;> cases create <;> simp [h]

/-- C8: in `switchForce` the commands run in the order reset, clean, checkout.
A failing reset ends the call after the reset alone; a failing clean ends it
after reset and clean; when both succeed the call runs the checkout of
`SwitchOrCreateBranch` and nothing after it, and a failure of that checkout is
the error the result wraps. -/
theorem C8_force_short_circuit (git : Git) (flags : SwitchFlags) (r : switchResult)
    (repoPath branch : String) (tr : List Cmd) :
    (∀ e, (git tr (resetCmd repoPath)).err = some e →
      r.switchForce git flags repoPath branch tr =
        ({ r with err := some (.errorf "重置失败: "
            (.errorf "reset失败: " e ("\n输出: " ++ (git tr (resetCmd repoPath)).output)) "") },
         tr ++ [resetCmd repoPath])) ∧
    ((git tr (resetCmd repoPath)).err = none →
      ∀ e, (git (tr ++ [resetCmd repoPath]) (cleanCmd repoPath)).err = some e →
      r.switchForce git flags repoPath branch tr =
        ({ r with err := some (.errorf "清理未跟踪文件失败: "
            (.errorf "清理失败: " e
              ("\n输出: " ++ (git (tr ++ [resetCmd repoPath]) (cleanCmd repoPath)).output)) "") },
         tr ++ [resetCmd repoPath] ++ [cleanCmd repoPath])) ∧
    ((git tr (resetCmd repoPath)).err = none →
      (git (tr ++ [resetCmd repoPath]) (cleanCmd repoPath)).err = none →
      ((r.switchForce git flags repoPath branch tr).2 =
          tr ++ [resetCmd repoPath] ++ [cleanCmd repoPath] ++ [checkoutCmd repoPath branch] ∨
        (r.switchForce git flags repoPath branch tr).2 =
          tr ++ [resetCmd repoPath] ++ [cleanCmd repoPath] ++ [checkoutCmd repoPath branch]
            ++ [createCmd repoPath branch]) ∧
      (r.switchForce git flags repoPath branch tr).2 =
        (SwitchOrCreateBranch git repoPath branch flags.switchCreate
          (tr ++ [resetCmd repoPath] ++ [cleanCmd repoPath])).2 ∧
      ∀ e, (SwitchOrCreateBranch git repoPath branch flags.switchCreate
          (tr ++ [resetCmd repoPath] ++ [cleanCmd repoPath])).1 = some e →
        (r.switchForce git flags repoPath branch tr).1 =
          { r with err := some (.errorf "切换失败: " e "") }) := by
  refine ⟨?_, ?_, ?_⟩
  · intro e he
    unfold switchResult.switchForce
    rw [ResetHard_err he]
  · intro h0 e he
    unfold switchResult.switchForce
    rw [ResetHard_ok h0]
    dsimp only
    rw [CleanUntracked_err he]
  · intro h0 h1
    have key : (r.switchForce git flags repoPath branch tr).2 =
        (SwitchOrCreateBranch git repoPath branch flags.switchCreate
          (tr ++ [resetCmd repoPath] ++ [cleanCmd repoPath])).2 ∧
      ∀ e, (SwitchOrCreateBranch git repoPath branch flags.switchCreate
          (tr ++ [resetCmd repoPath] ++ [cleanCmd repoPath])).1 = some e →
        (r.switchForce git flags repoPath branch tr).1 =
          { r with err := some (.errorf "切换失败: " e "") } := by
      unfold switchResult.switchForce
      rw [ResetHard_ok h0]
      dsimp only
      rw [CleanUntracked_ok h1]
      dsimp only
      cases flags.switchCreate
      · generalize SwitchOrCreateBranch git repoPath branch false
          (tr ++ [resetCmd repoPath] ++ [cleanCmd repoPath]) = co
        rcases co with ⟨_ | e0, tr3⟩ <;> simp
      · generalize SwitchOrCreateBranch git repoPath branch true
          (tr ++ [resetCmd repoPath] ++ [cleanCmd repoPath]) = co
        rcases co with ⟨_ | e0, tr3⟩ <;> simp
    refine ⟨?_, key.1, key.2⟩
    rw [key.1]
    exact SwitchOrCreateBranch_trace git repoPath branch flags.switchCreate _

/-- C8 witness: a failing `git clean` after a successful reset. -/
theorem C8_force_short_circuit_witness :
    (switchResult.new "repo" "repo").switchForce gitCleanFails ⟨false, false, "origin"⟩ "/r/repo" "main" [] =
      ({ switchResult.new "repo" "repo" with err := some (.errorf "清理未跟踪文件失败: "
            (.errorf "清理失败: " (.os "exit status 1") ("\n输出: " ++ "denied")) "") },
        [] ++ [resetCmd "/r/repo"] ++ [cleanCmd "/r/repo"]) :=
  (C8_force_short_circuit gitCleanFails ⟨false, false, "origin"⟩ (switchResult.new "repo" "repo")
    "/r/repo" "main" []).2.1 (by decide) (.os "exit status 1") (by decide)

theorem TrimSpace_of_all_space (s : String) (h : s.data.all isSpace = true) :
    TrimSpace s = "" := by
  have h1 : s.data.dropWhile isSpace = [] := by
    rw [List.dropWhile_eq_nil_iff]
    intro x hx
    exact List.all_eq_true.mp h x hx
  unfold TrimSpace
  rw [h1]
  rfl

theorem append_ne_of_head (a b a1 b1 : String) (c c1 : Char) (ha : a.data.head? = some c)
    (ha1 : a1.data.head? = some c1) (hc : c ≠ c1) : a ++ b ≠ a1 ++ b1 := by
  intro h
  have h1 : (a ++ b).data.head? = (a1 ++ b1).data.head? := by rw [h]
  rw [String.data_append, String.data_append] at h1
  cases hd : a.data with
  | nil => rw [hd] at ha; simp at ha
  | cons x xs =>
    cases hd1 : a1.data with
    | nil => rw [hd1] at ha1; simp at ha1
    | cons y ys =>
      rw [hd] at ha h1
      rw [hd1] at ha1 h1
      simp at ha ha1 h1
      exact hc (by rw [← ha, ← ha1, h1])

theorem remoteBranchNotFound_text_ne (branch remote : String) (e : GoError) :
    (remoteBranchNotFound branch remote).Error ≠ (GoError.errorf "切换到跟踪分支失败: " e "").Error := by
  unfold remoteBranchNotFound
  simp only [GoError.Error]
  rw [String.append_assoc, String.append_assoc]
  exact append_ne_of_head "远程分支 " _ "切换到跟踪分支失败: " _ '远' '切' (by decide) (by decide) (by decide)

theorem wrap_text_ne (p a b : String) (h : a ≠ b) : p ++ a ++ "" ≠ p ++ b ++ "" := by
  intro hab
  apply h
  have h1 : (p ++ a ++ "").data = (p ++ b ++ "").data := by rw [hab]
  simp only [String.data_append] at h1
  exact String.ext (List.append_cancel_left (List.append_cancel_right h1))

/-- C9: when `git ls-remote --heads` succeeds with empty or whitespace-only
output, `SwitchAndTrackBranch` runs that command alone (the tracking checkout
is not among the commands run), returns the "remote branch not found" error,
whose text differs from that of every tracking-checkout failure, and
`switchWithTracking` reports it wrapped, again with a text that differs from
that of every wrapped tracking-checkout failure. -/
theorem C9_remote_branch_not_found (git : Git) (flags : SwitchFlags) (r : switchResult)
    (repoPath branch : String) (tr : List Cmd)
    (hfetch : flags.switchFetch = true → (git tr (fetchAllCmd repoPath)).err = none)
    (hls : (git (trackStart flags repoPath tr)
      (lsRemoteCmd repoPath branch flags.switchRemote)).err = none)
    (hout : (git (trackStart flags repoPath tr)
      (lsRemoteCmd repoPath branch flags.switchRemote)).output.data.all isSpace = true) :
    SwitchAndTrackBranch git repoPath branch flags.switchRemote (trackStart flags repoPath tr) =
      (some (remoteBranchNotFound branch flags.switchRemote),
        trackStart flags repoPath tr ++ [lsRemoteCmd repoPath branch flags.switchRemote]) ∧
    r.switchWithTracking git flags repoPath branch tr =
      ({ r with err := some (.errorf "创建跟踪分支失败: "
          (remoteBranchNotFound branch flags.switchRemote) "") },
        trackStart flags repoPath tr ++ [lsRemoteCmd repoPath branch flags.switchRemote]) ∧
    trackCmd repoPath branch flags.switchRemote ∉
      [lsRemoteCmd repoPath branch flags.switchRemote] ∧
    (∀ e : GoError, (remoteBranchNotFound branch flags.switchRemote).Error ≠
      (GoError.errorf "切换到跟踪分支失败: " e "").Error) ∧
    (∀ e : GoError,
      (GoError.errorf "创建跟踪分支失败: " (remoteBranchNotFound branch flags.switchRemote) "").Error ≠
      (GoError.errorf "创建跟踪分支失败: " (GoError.errorf "切换到跟踪分支失败: " e "") "").Error) := by
  have hcall : SwitchAndTrackBranch git repoPath branch flags.switchRemote
      (trackStart flags repoPath tr) =
      (some (remoteBranchNotFound branch flags.switchRemote),
        trackStart flags repoPath tr ++ [lsRemoteCmd repoPath branch flags.switchRemote]) := by
    unfold SwitchAndTrackBranch
    simp only [hls, TrimSpace_of_all_space _ hout, if_true, remoteBranchNotFound]
  refine ⟨hcall, ?_, ?_, remoteBranchNotFound_text_ne branch flags.switchRemote, ?_⟩
  · unfold switchResult.switchWithTracking
    cases hf : flags.switchFetch
    · simp [trackStart, hf] at hcall
      simp [hcall, trackStart, hf]
    · simp [trackStart, hf] at hcall
      have h2 := hfetch hf
      simp [FetchAll, h2, hcall, trackStart, hf]
  · simp [trackCmd, lsRemoteCmd]
  · intro e
    exact wrap_text_ne _ _ _ (remoteBranchNotFound_text_ne branch flags.switchRemote e)

/-- C9 witness: `ls-remote` succeeds and prints a newline only. -/
theorem C9_remote_branch_not_found_witness :
    SwitchAndTrackBranch gitNoRemoteBranch "/r/repo" "feature/x" "origin" [] =
      (some (remoteBranchNotFound "feature/x" "origin"),
        [lsRemoteCmd "/r/repo" "feature/x" "origin"]) :=
  (C9_remote_branch_not_found gitNoRemoteBranch ⟨false, false, "origin"⟩
    (switchResult.new "repo" "repo") "/r/repo" "feature/x" [] (by decide) (by decide)
    (by decide)).1

/-- C10: `switchOrCreate` first runs `git checkout <branch>`. If that succeeds
nothing else is run and the result is a success; if it fails
`git checkout -b <branch>` is run next and decides the outcome: its error is
the one the result wraps. In every success case the message is the branch name
itself. -/
theorem C10_switch_or_create (git : Git) (name path repoPath branch : String) (tr : List Cmd) :
    ((git tr (checkoutCmd repoPath branch)).err = none →
      (switchResult.new name path).switchOrCreate git repoPath branch tr =
        ({ switchResult.new name path with message := branch },
          tr ++ [checkoutCmd repoPath branch])) ∧
    (∀ e0, (git tr (checkoutCmd repoPath branch)).err = some e0 →
      ((switchResult.new name path).switchOrCreate git repoPath branch tr).2 =
        tr ++ [checkoutCmd repoPath branch] ++ [createCmd repoPath branch] ∧
      ((git (tr ++ [checkoutCmd repoPath branch]) (createCmd repoPath branch)).err = none →
        ((switchResult.new name path).switchOrCreate git repoPath branch tr).1 =
          { switchResult.new name path with message := branch }) ∧
      (∀ e, (git (tr ++ [checkoutCmd repoPath branch]) (createCmd repoPath branch)).err = some e →
        ((switchResult.new name path).switchOrCreate git repoPath branch tr).1 =
          { switchResult.new name path with err := some (.errorf "切换失败: " e "") })) ∧
    (((switchResult.new name path).switchOrCreate git repoPath branch tr).1.err = none →
      ((switchResult.new name path).switchOrCreate git repoPath branch tr).1.message = branch) := by
  refine ⟨?_, ?_, ?_⟩
  · intro h
    simp [switchResult.switchOrCreate, SwitchOrCreateBranch, h]
  · intro e0 h
    refine ⟨?_, ?_, ?_⟩
    · simp only [switchResult.switchOrCreate, SwitchOrCreateBranch, h, if_true]
      cases (git (tr ++ [checkoutCmd repoPath branch]) (createCmd repoPath branch)).err <;> rfl
    · intro h1
      simp [switchResult.switchOrCreate, SwitchOrCreateBranch, h, h1]
    · intro e h1
      simp [switchResult.switchOrCreate, SwitchOrCreateBranch, h, h1]
  · unfold switchResult.switchOrCreate
    generalize SwitchOrCreateBranch git repoPath branch true tr = co
    rcases co with ⟨_ | e, tr1⟩ <;> simp [switchResult.new]

/-- C10 witness: the scenario `switch feature/x --create` on a repository
without that branch: the checkout fails, the create-and-switch succeeds. -/
theorem C10_switch_or_create_witness :
    ((switchResult.new "repo" "repo").switchOrCreate gitNoLocalBranch "/r/repo" "feature/x" []).2 =
        [] ++ [checkoutCmd "/r/repo" "feature/x"] ++ [createCmd "/r/repo" "feature/x"] ∧
    ((switchResult.new "repo" "repo").switchOrCreate gitNoLocalBranch "/r/repo" "feature/x" []).1 =
        { switchResult.new "repo" "repo" with message := "feature/x" } :=
  ⟨((C10_switch_or_create gitNoLocalBranch "repo" "repo" "/r/repo" "feature/x" []).2.1
      (.os "exit status 1") (by decide)).1,
   ((C10_switch_or_create gitNoLocalBranch "repo" "repo" "/r/repo" "feature/x" []).2.1
      (.os "exit status 1") (by decide)).2.1 (by decide)⟩

/-! ## Pull fan-out (C5, C6) -/

theorem pullReposSequential_eq_map (PullRepo : String → Option GoError) (repos : List String) :
    pullReposSequential PullRepo repos = repos.map (pullOne PullRepo) := by
  induction repos with
  | nil => rfl
  | cons r rs ih => simp [pullReposSequential, ih]

theorem reduceOption_set_some (l : List (Option String)) (w : Nat) (r : String)
    (h : l.get? w = some none) :
    (l.set w (some r)).reduceOption.Perm (r :: l.reduceOption) := by
  induction l generalizing w with
  | nil => simp at h
  | cons x xs ih =>
    cases w with
    | zero =>
      simp at h
      subst h
      simp [List.reduceOption_cons_of_some, List.reduceOption_cons_of_none]
    | succ w =>
      simp at h
      have := ih w (by simpa using h)
      cases x with
      | none => simpa [List.reduceOption_cons_of_none] using this
      | some y =>
        simp only [List.set_cons_succ, List.reduceOption_cons_of_some]
        exact (List.Perm.cons y this).trans (List.Perm.swap r y _)

theorem reduceOption_set_none (l : List (Option String)) (w : Nat) (r : String)
    (h : l.get? w = some (some r)) :
    (r :: (l.set w none).reduceOption).Perm l.reduceOption := by
  induction l generalizing w with
  | nil => simp at h
  | cons x xs ih =>
    cases w with
    | zero =>
      simp at h
      subst h
      simp [List.reduceOption_cons_of_some, List.reduceOption_cons_of_none]
    | succ w =>
      simp at h
      have := ih w (by simpa using h)
      cases x with
      | none => simpa [List.reduceOption_cons_of_none] using this
      | some y =>
        simp only [List.set_cons_succ, List.reduceOption_cons_of_some]
        exact (List.Perm.swap y r _).trans (List.Perm.cons y this)

theorem Pool.step_owed (PullRepo : String → Option GoError) (p q : Pool) (a : Action)
    (h : p.step PullRepo a = some q) : (q.owed PullRepo).Perm (p.owed PullRepo) := by
  cases a with
  | send =>
    simp only [Pool.step] at h
    cases hs : p.toSend with
    | nil => simp [hs] at h
    | cons r rs =>
      simp [hs] at h
      subst h
      simp [Pool.owed, hs]
  | recv w =>
    simp only [Pool.step] at h
    split at h
    · rename_i repo rest hb hj
      simp at h
      subst h
      simp only [Pool.owed, hj, List.map_append, List.map_cons]
      have := (reduceOption_set_some p.busy w repo hb).map (pullOne PullRepo)
      refine List.Perm.append_left _ ?_
      refine List.Perm.append_right _ ?_
      refine (List.Perm.append_right _ this).trans ?_
      simp only [List.map_cons, List.cons_append]
      exact List.perm_middle.symm
    · simp at h
  | finish w =>
    simp only [Pool.step] at h
    split at h
    · rename_i repo hb
      simp at h
      subst h
      simp only [Pool.owed, List.map_append, List.append_assoc, List.singleton_append]
      have := (reduceOption_set_none p.busy w repo hb).map (pullOne PullRepo)
      refine List.Perm.append_left _ ?_
      simp only [List.map_cons] at this
      have h2 := List.Perm.append_right
        (List.map (pullOne PullRepo) p.jobs ++ List.map (pullOne PullRepo) p.toSend) this
      simpa using h2
    · simp at h

theorem Pool.run_owed (PullRepo : String → Option GoError) (sched : List Action) :
    ∀ p q : Pool, p.run PullRepo sched = some q → (q.owed PullRepo).Perm (p.owed PullRepo) := by
  induction sched with
  | nil =>
    intro p q h
    simp [Pool.run] at h
    subst h
    exact List.Perm.refl _
  | cons a rest ih =>
    intro p q h
    unfold Pool.run at h
    cases hs : p.step PullRepo a with
    | none => simp [hs] at h
    | some p1 =>
      simp [hs] at h
      exact (ih p1 q h).trans (Pool.step_owed PullRepo p p1 a hs)

theorem reduceOption_of_all_none (l : List (Option String))
    (h : l.all (fun b => b.isNone) = true) : l.reduceOption = [] := by
  induction l with
  | nil => rfl
  | cons x xs ih =>
    simp only [List.all_cons, Bool.and_eq_true] at h
    cases x with
    | none => simpa [List.reduceOption_cons_of_none] using ih h.2
    | some y => simp at h

theorem Pool.finished_owed (PullRepo : String → Option GoError) (p : Pool)
    (h : p.finished = true) : p.owed PullRepo = p.results := by
  unfold Pool.finished at h
  simp only [Bool.and_eq_true, List.isEmpty_iff] at h
  obtain ⟨⟨h1, h2⟩, h3⟩ := h
  simp [Pool.owed, h1, h2, reduceOption_of_all_none _ h3]

theorem pullCollect_perm (PullRepo : String → Option GoError) (repos : List String)
    (sched : List Action) (out : List PullResult)
    (h : pullCollect PullRepo repos sched = some out) :
    out.Perm (repos.map (pullOne PullRepo)) := by
  unfold pullCollect at h
  cases hr : (Pool.init repos).run PullRepo sched with
  | none => simp [hr] at h
  | some p =>
    simp only [hr] at h
    split at h
    · rename_i hf
      simp at h
      subst h
      have := Pool.run_owed PullRepo sched _ _ hr
      rw [Pool.finished_owed PullRepo p hf] at this
      simpa [Pool.owed, Pool.init] using this
    · simp at h

theorem Pool.run_append (PullRepo : String → Option GoError) (s1 s2 : List Action) :
    ∀ p : Pool, p.run PullRepo (s1 ++ s2) =
      (p.run PullRepo s1).bind (fun q => q.run PullRepo s2) := by
  induction s1 with
  | nil => intro p; simp [Pool.run]
  | cons a rest ih =>
    intro p
    simp only [List.cons_append, Pool.run]
    cases p.step PullRepo a with
    | none => simp
    | some q => simp [ih q]

theorem Pool.run_sends (PullRepo : String → Option GoError) (b : List (Option String))
    (res : List PullResult) (xs : List String) :
    ∀ js : List String, (Pool.mk xs js b res).run PullRepo (xs.map (fun _ => Action.send)) =
      some (Pool.mk [] (js ++ xs) b res) := by
  induction xs with
  | nil => intro js; simp [Pool.run]
  | cons x xs ih =>
    intro js
    simp only [List.map_cons, Pool.run, Pool.step]
    rw [ih (js ++ [x])]
    simp

theorem Pool.run_solo (PullRepo : String → Option GoError) (js : List String) :
    ∀ res : List PullResult,
      (Pool.mk [] js [none, none, none, none] res).run PullRepo
        (js.map (fun _ => [Action.recv 0, Action.finish 0])).flatten =
      some (Pool.mk [] [] [none, none, none, none] (res ++ js.map (pullOne PullRepo))) := by
  induction js with
  | nil => intro res; simp [Pool.run]
  | cons x xs ih =>
    intro res
    have h := ih (res ++ [pullOne PullRepo x])
    simp only [List.append_assoc, List.singleton_append] at h
    simpa [Pool.run, Pool.step] using h

theorem pullCollect_solo (PullRepo : String → Option GoError) (repos : List String) :
    pullCollect PullRepo repos (soloSchedule repos) = some (repos.map (pullOne PullRepo)) := by
  unfold pullCollect soloSchedule Pool.init
  rw [Pool.run_append, Pool.run_sends]
  simp only [Option.some_bind, List.nil_append]
  rw [Pool.run_solo]
  simp [Pool.finished]

theorem Pool.step_remaining (PullRepo : String → Option GoError) (p q : Pool) (a : Action)
    (h : p.step PullRepo a = some q) :
    q.remaining + 1 = p.remaining ∧ q.busy.length = p.busy.length := by
  cases a with
  | send =>
    simp only [Pool.step] at h
    cases hs : p.toSend with
    | nil => simp [hs] at h
    | cons r rs =>
      simp [hs] at h
      subst h
      simp [Pool.remaining, hs]
      omega
  | recv w =>
    simp only [Pool.step] at h
    split at h
    · rename_i repo rest hb hj
      simp at h
      subst h
      have := (reduceOption_set_some p.busy w repo hb).length_eq
      simp [Pool.remaining, hj, this]
      omega
    · simp at h
  | finish w =>
    simp only [Pool.step] at h
    split at h
    · rename_i repo hb
      simp at h
      subst h
      have := (reduceOption_set_none p.busy w repo hb).length_eq
      simp at this
      simp [Pool.remaining, ← this]
      omega
    · simp at h

theorem Pool.progress (PullRepo : String → Option GoError) (p : Pool) (hb : p.busy ≠ [])
    (hf : p.finished = false) : ∃ a q, p.step PullRepo a = some q := by
  cases hs : p.toSend with
  | cons r rs => exact ⟨.send, Option.isSome_iff_exists.mp (by simp [Pool.step, hs])⟩
  | nil =>
    cases hj : p.jobs with
    | cons j js =>
      by_cases hw : ∃ w, p.busy.get? w = some none
      · obtain ⟨w, hw⟩ := hw
        exact ⟨.recv w, Option.isSome_iff_exists.mp (by simp only [Pool.step, hw, hj, Option.isSome_some])⟩
      · cases hbz : p.busy with
        | nil => exact absurd hbz hb
        | cons x xs =>
          cases x with
          | none => exact absurd ⟨0, by simp [hbz]⟩ hw
          | some r => exact ⟨.finish 0, Option.isSome_iff_exists.mp (by simp [Pool.step, hbz])⟩
    | nil =>
      have : ¬ p.busy.all (fun b => b.isNone) = true := by
        intro hall
        simp [Pool.finished, hs, hj, hall] at hf
      simp only [List.all_eq_true, not_forall] at this
      obtain ⟨x, hx, hxn⟩ := this
      cases x with
      | none => simp at hxn
      | some r =>
        obtain ⟨w, hw⟩ := List.get?_of_mem hx
        exact ⟨.finish w, Option.isSome_iff_exists.mp (by simp only [Pool.step, hw, Option.isSome_some])⟩

theorem Pool.completes (PullRepo : String → Option GoError) :
    ∀ (n : Nat) (p : Pool), p.remaining = n → p.busy ≠ [] →
      ∃ sched q, p.run PullRepo sched = some q ∧ q.finished = true := by
  intro n
  induction n with
  | zero =>
    intro p hn hb
    refine ⟨[], p, rfl, ?_⟩
    by_contra hf
    obtain ⟨a, q, hq⟩ := Pool.progress PullRepo p hb (by simpa using hf)
    have := (Pool.step_remaining PullRepo p q a hq).1
    omega
  | succ n ih =>
    intro p hn hb
    by_cases hf : p.finished = true
    · exact ⟨[], p, rfl, hf⟩
    · obtain ⟨a, q, hq⟩ := Pool.progress PullRepo p hb (by simpa using hf)
      have hr := Pool.step_remaining PullRepo p q a hq
      have hqb : q.busy ≠ [] := by
        intro h0
        apply hb
        have := hr.2
        rw [h0] at this
        exact List.length_eq_zero.mp this.symm
      obtain ⟨sched, q1, h1, h2⟩ := ih q (by omega) hqb
      exact ⟨a :: sched, q1, by simp [Pool.run, hq, h1], h2⟩

theorem Pool.run_busy_length (PullRepo : String → Option GoError) (sched : List Action) :
    ∀ p q : Pool, p.run PullRepo sched = some q →
      q.busy.length = p.busy.length ∧ q.remaining + sched.length = p.remaining := by
  induction sched with
  | nil =>
    intro p q h
    simp [Pool.run] at h
    subst h
    simp
  | cons a rest ih =>
    intro p q h
    unfold Pool.run at h
    cases hs : p.step PullRepo a with
    | none => simp [hs] at h
    | some p1 =>
      simp [hs] at h
      have h1 := ih p1 q h
      have h2 := Pool.step_remaining PullRepo p p1 a hs
      simp only [List.length_cons]
      omega

theorem pullCollect_extend (PullRepo : String → Option GoError) (repos : List String)
    (sched : List Action) (p : Pool) (h : (Pool.init repos).run PullRepo sched = some p) :
    ∃ more out, pullCollect PullRepo repos (sched ++ more) = some out := by
  have hb : p.busy ≠ [] := by
    intro h0
    have := (Pool.run_busy_length PullRepo sched _ _ h).1
    rw [h0] at this
    simp [Pool.init] at this
  obtain ⟨more, q, hq, hf⟩ := Pool.completes PullRepo p.remaining p rfl hb
  refine ⟨more, q.results, ?_⟩
  unfold pullCollect
  rw [Pool.run_append, h]
  simp [hq, hf]

theorem insertionSlice_sorts : SliceSorts insertionSlice := by
  intro less l hless
  obtain ⟨hirr, htrans, hneg⟩ := hless
  haveI : IsTotal PullResult (fun a b => less b a = false) := by
    constructor
    intro a b
    by_cases h1 : less b a = false
    · exact Or.inl h1
    · by_cases h2 : less a b = false
      · exact Or.inr h2
      · simp only [Bool.not_eq_false] at h1 h2
        have := htrans b a b h1 h2
        rw [hirr b] at this
        exact absurd this (by decide)
  haveI : IsTrans PullResult (fun a b => less b a = false) :=
    ⟨fun a b c h1 h2 => hneg c b a h2 h1⟩
  exact ⟨List.perm_insertionSort _ l,
    List.sorted_insertionSort (fun a b : PullResult => less b a = false) l⟩

theorem lessByRepo_strictWeak : StrictWeak lessByRepo := by
  unfold StrictWeak lessByRepo strLess
  refine ⟨?_, ?_, ?_⟩
  · intro a
    simp
  · intro a b c h1 h2
    simp only [decide_eq_true_eq] at h1 h2 ⊢
    exact lt_trans h1 h2
  · intro a b c h1 h2
    simp only [decide_eq_false_iff_not, not_lt] at h1 h2 ⊢
    exact le_trans h2 h1

theorem ascending_of_sorts
    (sortSlice : (PullResult → PullResult → Bool) → List PullResult → List PullResult)
    (hs : SliceSorts sortSlice) (l : List PullResult) :
    AscendingByRepo (sortSlice lessByRepo l) := by
  refine List.Pairwise.imp ?_ (hs lessByRepo l lessByRepo_strictWeak).2
  intro a b hab
  unfold lessByRepo strLess at hab
  unfold strLess
  simp only [decide_eq_false_iff_not] at hab
  rcases lt_or_eq_of_le (not_lt.mp hab) with h | h
  · exact Or.inl h
  · exact Or.inr (String.ext h)

/-- C5: the pool of `pullReposParallel` can always run to the end (whatever was
done so far), and for every complete run, that is for every completion order
of the workers, the collected results are a rearrangement of the results of
`pullReposSequential`, one per entry of the repository list, before and after
sorting. -/
theorem C5_parallel_matches_sequential (PullRepo : String → Option GoError)
    (repos : List String) :
    (∃ sched out, pullCollect PullRepo repos sched = some out) ∧
    (∀ sched p, (Pool.init repos).run PullRepo sched = some p →
      ∃ more out, pullCollect PullRepo repos (sched ++ more) = some out) ∧
    (∀ sched out, pullCollect PullRepo repos sched = some out →
      out.Perm (pullReposSequential PullRepo repos) ∧ out.length = repos.length ∧
      (out.map PullResult.repo).Perm repos) ∧
    (∀ sortSlice sched out, (∀ l, (sortSlice lessByRepo l).Perm l) →
      pullReposParallel PullRepo sortSlice repos sched = some out →
      out.Perm (pullReposSequential PullRepo repos) ∧ out.length = repos.length) ∧
    (pullReposSequential PullRepo repos).length = repos.length ∧
    (pullReposSequential PullRepo repos).map PullResult.repo = repos := by
  have hmap : (repos.map (pullOne PullRepo)).map PullResult.repo = repos := by
    simp [List.map_map, Function.comp_def, pullOne]
  refine ⟨⟨_, _, pullCollect_solo PullRepo repos⟩, pullCollect_extend PullRepo repos, ?_, ?_, ?_, ?_⟩
  · intro sched out h
    have hp := pullCollect_perm PullRepo repos sched out h
    rw [pullReposSequential_eq_map]
    refine ⟨hp, by simpa using hp.length_eq, ?_⟩
    have := hp.map PullResult.repo
    rwa [hmap] at this
  · intro sortSlice sched out hs h
    unfold pullReposParallel at h
    cases hc : pullCollect PullRepo repos sched with
    | none => simp [hc] at h
    | some c =>
      simp [hc] at h
      subst h
      have hp := (hs c).trans (pullCollect_perm PullRepo repos sched c hc)
      rw [pullReposSequential_eq_map]
      exact ⟨hp, by simpa using hp.length_eq⟩
  · simp [pullReposSequential_eq_map]
  · rw [pullReposSequential_eq_map, hmap]

/-- C5 witness: two repositories, the second worker finishing first. -/
theorem C5_parallel_matches_sequential_witness :
    ([⟨"b", "✅ 拉取成功"⟩, ⟨"a", "✅ 拉取成功"⟩] : List PullResult).Perm
        (pullReposSequential (fun _ => none) ["a", "b"]) ∧
      ([⟨"b", "✅ 拉取成功"⟩, ⟨"a", "✅ 拉取成功"⟩] : List PullResult).length = ["a", "b"].length ∧
      (([⟨"b", "✅ 拉取成功"⟩, ⟨"a", "✅ 拉取成功"⟩] : List PullResult).map PullResult.repo).Perm
        ["a", "b"] :=
  (C5_parallel_matches_sequential (fun _ => none) ["a", "b"]).2.2.1 swappedSchedule
    [⟨"b", "✅ 拉取成功"⟩, ⟨"a", "✅ 拉取成功"⟩] (by decide)

/-- C6: for a `sort.Slice` that meets its contract, called with the less
function of the program (comparison of the repository paths), the list
reported by `pullReposParallel` exists, is in ascending order of repository
path for every order in which the workers deliver their results, and is the
same list for every such order. -/
theorem C6_sorted_any_order (PullRepo : String → Option GoError)
    (sortSlice : (PullResult → PullResult → Bool) → List PullResult → List PullResult)
    (repos : List String) (hs : SliceSorts sortSlice) :
    (∃ sched out, pullReposParallel PullRepo sortSlice repos sched = some out) ∧
    (∀ sched out, pullReposParallel PullRepo sortSlice repos sched = some out →
      AscendingByRepo out) ∧
    (∀ sched1 sched2 out1 out2, pullReposParallel PullRepo sortSlice repos sched1 = some out1 →
      pullReposParallel PullRepo sortSlice repos sched2 = some out2 → out1 = out2) := by
  have key : ∀ sched out, pullReposParallel PullRepo sortSlice repos sched = some out →
      AscendingByRepo out ∧ out.Perm (repos.map (pullOne PullRepo)) := by
    intro sched out h
    unfold pullReposParallel at h
    cases hc : pullCollect PullRepo repos sched with
    | none => simp [hc] at h
    | some c =>
      simp [hc] at h
      subst h
      exact ⟨ascending_of_sorts sortSlice hs c,
        ((hs lessByRepo c lessByRepo_strictWeak).1).trans
          (pullCollect_perm PullRepo repos sched c hc)⟩
  refine ⟨⟨soloSchedule repos, sortSlice lessByRepo (repos.map (pullOne PullRepo)), ?_⟩,
    fun sched out h => (key sched out h).1, ?_⟩
  · simp [pullReposParallel, pullCollect_solo]
  · intro sched1 sched2 out1 out2 h1 h2
    obtain ⟨a1, p1⟩ := key sched1 out1 h1
    obtain ⟨a2, p2⟩ := key sched2 out2 h2
    haveI : IsAntisymm PullResult (fun a b => strLess a.repo b.repo ∨ a = b) := by
      constructor
      intro a b hab hba
      rcases hab with hab | hab
      · rcases hba with hba | hba
        · exact absurd hba (lt_asymm hab)
        · exact hba.symm
      · exact hab
    have strengthen : ∀ out : List PullResult, AscendingByRepo out →
        out.Perm (repos.map (pullOne PullRepo)) →
        out.Sorted (fun a b => strLess a.repo b.repo ∨ a = b) := by
      intro out ha hp
      refine List.Pairwise.imp_of_mem ?_ ha
      intro a b hma hmb hab
      rcases hab with hab | hab
      · exact Or.inl hab
      · right
        obtain ⟨x, _, hx⟩ := List.mem_map.mp (hp.subset hma)
        obtain ⟨y, _, hy⟩ := List.mem_map.mp (hp.subset hmb)
        subst hx hy
        simp only [pullOne] at hab
        rw [hab]
    exact List.eq_of_perm_of_sorted (p1.trans p2.symm) (strengthen out1 a1 p1)
      (strengthen out2 a2 p2)

/-- C6 witness: insertion sort by path as `sort.Slice`, two repositories. -/
theorem C6_sorted_any_order_witness :
    AscendingByRepo [⟨"a", "✅ 拉取成功"⟩, ⟨"b", "✅ 拉取成功"⟩] :=
  (C6_sorted_any_order (fun _ => none) insertionSlice ["a", "b"] insertionSlice_sorts).2.1
    swappedSchedule [⟨"a", "✅ 拉取成功"⟩, ⟨"b", "✅ 拉取成功"⟩] (by decide)

/-! ## The walk and its log (C4) -/

mutual
theorem visit_logged {σ : Type} (fn : WalkFunc σ) (path : String) :
    ∀ (node : Node) (s : σ) (log : List VisitRec),
      (visit (logged fn) path node (s, log)).1.1 = (visit fn path node s).1 ∧
      (visit (logged fn) path node (s, log)).2 = (visit fn path node s).2
  | .lstatFails e, s, log => by simp [visit, logged]
  | .file, s, log => by simp [visit, logged]
  | .unreadable e, s, log => by simp [visit, logged]
  | .dir es, s, log => by
    simp only [visit, logged]
    cases h : fn path (some ⟨basename path, true⟩) none s with
    | mk s1 r =>
      cases r with
      | some err => simp
      | none =>
        simp only
        exact visitEntries_logged fn path es s1 _
theorem visitEntries_logged {σ : Type} (fn : WalkFunc σ) (path : String) :
    ∀ (es : Entries) (s : σ) (log : List VisitRec),
      (visitEntries (logged fn) path es (s, log)).1.1 = (visitEntries fn path es s).1 ∧
      (visitEntries (logged fn) path es (s, log)).2 = (visitEntries fn path es s).2
  | .nil, s, log => by simp [visitEntries]
  | .cons name node rest, s, log => by
    simp only [visitEntries]
    have h1 := visit_logged fn (Join path name) node s log
    cases hv : visit (logged fn) (Join path name) node (s, log) with
    | mk st r =>
      cases hu : visit fn (Join path name) node s with
      | mk s1 r1 =>
        rw [hv, hu] at h1
        simp only at h1
        obtain ⟨h1a, h1b⟩ := h1
        subst h1b
        obtain ⟨s0, log0⟩ := st
        simp only at h1a
        subst h1a
        cases r with
        | none => exact visitEntries_logged fn path rest s0 log0
        | some err =>
          simp only
          split
          · simp
          · exact visitEntries_logged fn path rest s0 log0
end

theorem findWalkFn_eq (E : List String) (path : String) (info : Option FileInfo)
    (err : Option GoError) (s : List String) :
    findWalkFn E path info err s =
      (s ++ added E ⟨path, info, err⟩, returned E ⟨path, info, err⟩) := by
  unfold added returned findWalkFn
  cases err with
  | some e => simp
  | none =>
    simp only
    split
    · simp
    · cases info with
      | none => simp
      | some i =>
        simp only
        split <;> simp

theorem returned_cases (E : List String) (v : VisitRec) :
    (v.err = none ∧ (returned E v = none ∨ returned E v = some GoError.SkipDir)) ∨
    (∃ e, v.err = some e ∧ returned E v = some e) := by
  unfold returned findWalkFn
  cases h : v.err with
  | some e => right; exact ⟨e, rfl, rfl⟩
  | none =>
    left
    refine ⟨rfl, ?_⟩
    simp only
    split
    · right; rfl
    · cases v.info with
      | none => left; rfl
      | some i =>
        simp only
        split
        · right; rfl
        · left; rfl

theorem mem_added (E : List String) (v : VisitRec) (r : String) (h : r ∈ added E v) :
    v.err = none ∧ (∀ e ∈ E, ¬ Contains v.path e) ∧ (∃ i, v.info = some i ∧ i.IsDir = true ∧
      i.Name = ".git") ∧ r = Dir v.path ∧ returned E v = some GoError.SkipDir := by
  unfold added returned findWalkFn at *
  cases he : v.err with
  | some e => simp [he] at h
  | none =>
    simp only [he] at h ⊢
    split at h
    · simp at h
    · rename_i hex
      rw [if_neg hex]
      cases hi : v.info with
      | none => simp [hi] at h
      | some i =>
        simp only [hi] at h ⊢
        split at h
        · rename_i hg
          rw [if_pos hg]
          simp only [Bool.and_eq_true, beq_iff_eq] at hg
          simp only [List.nil_append, List.mem_singleton] at h
          refine ⟨by trivial, ?_, by simpa using hg, h, by simp⟩
          intro e hee hc
          apply hex
          simp only [List.any_eq_true, decide_eq_true_eq]
          exact ⟨e, hee, hc⟩
        · simp at h

/-- What a call with a given record does to a walk of `FindGitRepos`. -/
theorem logged_findWalkFn (E : List String) (path : String) (info : Option FileInfo)
    (err : Option GoError) (s : List String) (log : List VisitRec) :
    logged (findWalkFn E) path info err (s, log) =
      ((s ++ added E ⟨path, info, err⟩, log ++ [⟨path, info, err⟩]),
        returned E ⟨path, info, err⟩) := by
  simp only [logged, findWalkFn_eq]

theorem LogOutcome_single (E : List String) (v : VisitRec)
    (hv : v.err = none ∨ ∃ e, v.err = some (GoError.os e)) :
    LogOutcome [v] (returned E v) := by
  rcases returned_cases E v with ⟨h1, h2⟩ | ⟨e, h1, h2⟩
  · left
    exact ⟨h2, by simpa using h1⟩
  · right
    rcases hv with hv | ⟨e1, hv⟩
    · rw [hv] at h1; simp at h1
    · rw [hv] at h1
      simp at h1
      subst h1
      exact ⟨e1, h2, v, by simp, hv⟩

theorem LogOutcome_append {L1 L2 : List VisitRec} {r1 r2 : Option GoError}
    (hr : r1 = none ∨ r1 = some GoError.SkipDir) (h1 : LogOutcome L1 r1)
    (h2 : LogOutcome L2 r2) : LogOutcome (L1 ++ L2) r2 := by
  have hall : ∀ v ∈ L1, v.err = none := by
    rcases h1 with ⟨_, h⟩ | ⟨e, he, _⟩
    · exact h
    · rcases hr with hr | hr <;> rw [hr] at he <;> simp at he
  rcases h2 with ⟨h2a, h2b⟩ | ⟨e, he, v, hv, hve⟩
  · left
    refine ⟨h2a, ?_⟩
    intro v hv
    rcases List.mem_append.mp hv with h | h
    · exact hall v h
    · exact h2b v h
  · right
    exact ⟨e, he, v, List.mem_append_right _ hv, hve⟩

theorem stopsLoop_skip (node : Node) (err : GoError) (h : stopsLoop node err = false) :
    err = GoError.SkipDir := by
  unfold stopsLoop at h
  cases node <;> simp_all

mutual
theorem visit_shape (E : List String) (path : String) :
    ∀ (node : Node) (s : List String) (log : List VisitRec),
      ∃ L r, visit (logged (findWalkFn E)) path node (s, log) =
          ((s ++ (L.map (added E)).flatten, log ++ L), r) ∧
        LogOutcome L r ∧ InfoNamed L ∧ ∀ v ∈ L, Reached path v.path
  | .lstatFails e, s, log => by
    refine ⟨[⟨path, none, some (.os e)⟩], _, ?_, LogOutcome_single E _ (Or.inr ⟨e, rfl⟩), ?_, ?_⟩
    · simp [visit, logged_findWalkFn]
    · intro v hv i hi
      simp at hv
      subst hv
      simp at hi
    · intro v hv
      simp at hv
      subst hv
      exact Or.inl rfl
  | .file, s, log => by
    refine ⟨[⟨path, some ⟨basename path, false⟩, none⟩], _, ?_,
      LogOutcome_single E _ (Or.inl rfl), ?_, ?_⟩
    · simp [visit, logged_findWalkFn]
    · intro v hv i hi
      simp at hv
      subst hv
      simp at hi
      subst hi
      rfl
    · intro v hv
      simp at hv
      subst hv
      exact Or.inl rfl
  | .unreadable e, s, log => by
    refine ⟨[⟨path, some ⟨basename path, true⟩, some (.os e)⟩], _, ?_,
      LogOutcome_single E _ (Or.inr ⟨e, rfl⟩), ?_, ?_⟩
    · simp [visit, logged_findWalkFn]
    · intro v hv i hi
      simp at hv
      subst hv
      simp at hi
      subst hi
      rfl
    · intro v hv
      simp at hv
      subst hv
      exact Or.inl rfl
  | .dir es, s, log => by
    have hsingle := LogOutcome_single E ⟨path, some ⟨basename path, true⟩, none⟩ (Or.inl rfl)
    have hinfo : InfoNamed [⟨path, some ⟨basename path, true⟩, none⟩] := by
      intro v hv i hi
      simp at hv
      subst hv
      simp at hi
      subst hi
      rfl
    simp only [visit, logged_findWalkFn]
    cases hr : returned E ⟨path, some ⟨basename path, true⟩, none⟩ with
    | some err1 =>
      refine ⟨[⟨path, some ⟨basename path, true⟩, none⟩], some err1, by simp, ?_, hinfo, ?_⟩
      · rw [hr] at hsingle; exact hsingle
      · intro v hv
        simp at hv
        subst hv
        exact Or.inl rfl
    | none =>
      simp only
      obtain ⟨L, r, hL, hout, hnamed, hreach⟩ := visitEntries_shape E path es
        (s ++ added E ⟨path, some ⟨basename path, true⟩, none⟩)
        (log ++ [⟨path, some ⟨basename path, true⟩, none⟩])
      refine ⟨⟨path, some ⟨basename path, true⟩, none⟩ :: L, r, ?_, ?_, ?_, ?_⟩
      · rw [hL]; simp
      · rw [hr] at hsingle
        exact LogOutcome_append (Or.inl rfl) hsingle hout
      · intro v hv i hi
        rcases List.mem_cons.mp hv with h | h
        · exact hinfo v (by rw [h]; simp) i hi
        · exact hnamed v h i hi
      · intro v hv
        rcases List.mem_cons.mp hv with h | h
        · left; rw [h]
        · right; exact hreach v h
theorem visitEntries_shape (E : List String) (path : String) :
    ∀ (es : Entries) (s : List String) (log : List VisitRec),
      ∃ L r, visitEntries (logged (findWalkFn E)) path es (s, log) =
          ((s ++ (L.map (added E)).flatten, log ++ L), r) ∧
        LogOutcome L r ∧ InfoNamed L ∧ ∀ v ∈ L, ∃ a b, v.path = Join a b
  | .nil, s, log => by
    refine ⟨[], none, by simp [visitEntries], Or.inl ⟨Or.inl rfl, by simp⟩, ?_, by simp⟩
    intro v hv
    simp at hv
  | .cons name node rest, s, log => by
    obtain ⟨L1, r1, h1, hout1, hnamed1, hreach1⟩ := visit_shape E (Join path name) node s log
    obtain ⟨L2, r2, h2, hout2, hnamed2, hreach2⟩ := visitEntries_shape E path rest
      (s ++ (L1.map (added E)).flatten) (log ++ L1)
    have hreach1b : ∀ v ∈ L1, ∃ a b, v.path = Join a b := by
      intro v hv
      rcases hreach1 v hv with h | h
      · exact ⟨path, name, h⟩
      · exact h
    have hcont : (r1 = none ∨ r1 = some GoError.SkipDir) →
        (∃ L r, visitEntries (logged (findWalkFn E)) path rest
            (s ++ (L1.map (added E)).flatten, log ++ L1) =
          ((s ++ (L.map (added E)).flatten, log ++ L), r) ∧
        LogOutcome L r ∧ InfoNamed L ∧ ∀ v ∈ L, ∃ a b, v.path = Join a b) := by
      intro hr1
      refine ⟨L1 ++ L2, r2, ?_, LogOutcome_append hr1 hout1 hout2, ?_, ?_⟩
      · rw [h2]; simp
      · intro v hv i hi
        rcases List.mem_append.mp hv with h | h
        · exact hnamed1 v h i hi
        · exact hnamed2 v h i hi
      · intro v hv
        rcases List.mem_append.mp hv with h | h
        · exact hreach1b v h
        · exact hreach2 v h
    simp only [visitEntries, h1]
    cases r1 with
    | none => exact hcont (Or.inl rfl)
    | some err =>
      simp only
      by_cases hstop : stopsLoop node err = true
      · rw [if_pos hstop]
        exact ⟨L1, some err, rfl, hout1, hnamed1, hreach1b⟩
      · rw [if_neg hstop]
        have := stopsLoop_skip node err (by simpa using hstop)
        subst this
        exact hcont (Or.inr rfl)
end

/-- The walk of `FindGitRepos` in terms of its calls: without an I/O error the
result is what the calls append, in order; with one, the wrapped error and no
list. -/
theorem FindGitRepos_spec (fs : Node) (root : String) (E : List String) :
    ∃ r, LogOutcome (visited fs root E) r ∧ InfoNamed (visited fs root E) ∧
      (∀ v ∈ visited fs root E, Reached root v.path) ∧
      ((r = none ∨ r = some GoError.SkipDir) →
        FindGitRepos fs root E = (((visited fs root E).map (added E)).flatten, none)) ∧
      (∀ e, r = some (GoError.os e) →
        FindGitRepos fs root E = ([], some (.errorf "查找Git仓库失败: " (.os e) ""))) := by
  obtain ⟨L, r, hL, hout, hnamed, hreach⟩ := visit_shape E root fs [] []
  have hlog := visit_logged (findWalkFn E) root fs [] []
  rw [hL] at hlog
  simp only [List.nil_append] at hlog hL
  have hvis : visited fs root E = L := by
    unfold visited Walk
    rw [hL]
    cases r with
    | none => rfl
    | some err => simp only; split <;> rfl
  rw [hvis]
  refine ⟨r, hout, hnamed, hreach, ?_, ?_⟩
  · intro hr
    unfold FindGitRepos Walk
    cases hu : visit (findWalkFn E) root fs [] with
    | mk s1 r1 =>
      rw [hu] at hlog
      simp only at hlog
      obtain ⟨ha, hb⟩ := hlog
      subst ha hb
      rcases hr with hr | hr <;> subst hr <;> simp
  · intro e hr
    unfold FindGitRepos Walk
    cases hu : visit (findWalkFn E) root fs [] with
    | mk s1 r1 =>
      rw [hu] at hlog
      simp only at hlog
      obtain ⟨ha, hb⟩ := hlog
      subst ha hb
      subst hr
      simp

/-- Without an I/O error on any call, `FindGitRepos` returns what the calls
appended and a nil error. -/
theorem FindGitRepos_of_no_error (fs : Node) (root : String) (E : List String)
    (hall : ∀ v ∈ visited fs root E, v.err = none) :
    FindGitRepos fs root E = (((visited fs root E).map (added E)).flatten, none) := by
  obtain ⟨r, hout, _, _, hok, _⟩ := FindGitRepos_spec fs root E
  rcases hout with ⟨hr, _⟩ | ⟨e, _, v, hv, hve⟩
  · exact hok hr
  · rw [hall v hv] at hve
    simp at hve

/-- C4: if some call of the callback during the walk gets an I/O error,
`FindGitRepos` returns the error wrapped and the nil list, whatever was
collected before; if no call gets one, it returns a nil error (also when the
list is empty). -/
theorem C4_error_or_list (fs : Node) (root : String) (E : List String) :
    ((∃ v ∈ visited fs root E, v.err ≠ none) →
      ∃ e, (∃ v ∈ visited fs root E, v.err = some (GoError.os e)) ∧
        FindGitRepos fs root E = ([], some (.errorf "查找Git仓库失败: " (.os e) ""))) ∧
    ((∀ v ∈ visited fs root E, v.err = none) →
      FindGitRepos fs root E = (((visited fs root E).map (added E)).flatten, none)) := by
  obtain ⟨r, hout, _, _, hok, herr⟩ := FindGitRepos_spec fs root E
  constructor
  · rintro ⟨v, hv, hve⟩
    rcases hout with ⟨_, hall⟩ | ⟨e, he, hex⟩
    · exact absurd (hall v hv) hve
    · exact ⟨e, hex, herr e he⟩
  · intro hall
    rcases hout with ⟨hr, _⟩ | ⟨e, _, v, hv, hve⟩
    · exact hok hr
    · rw [hall v hv] at hve
      simp at hve

/-- C4 witness: a repository is found, then a directory cannot be read: the
error is returned with the nil list. -/
theorem C4_error_or_list_witness :
    ∃ e, (∃ v ∈ visited treeRepoThenError "/r" [], v.err = some (GoError.os e)) ∧
      FindGitRepos treeRepoThenError "/r" [] =
        ([], some (.errorf "查找Git仓库失败: " (.os e) "")) :=
  (C4_error_or_list treeRepoThenError "/r" []).1
    ⟨⟨"/r/b", some ⟨"b", true⟩, some (.os "permission denied")⟩, by decide, by decide⟩

/-! ## path/filepath: facts about Clean, Join, Dir and basename -/

theorem splitSep_ne_nil (p : List Char) : splitSep p ≠ [] := by
  cases p with
  | nil => simp [splitSep]
  | cons c cs =>
    unfold splitSep
    split
    · simp
    · split <;> simp

theorem splitSep_append (a b : List Char) :
    splitSep (a ++ '/' :: b) = splitSep a ++ splitSep b := by
  induction a with
  | nil => simp [splitSep]
  | cons c a ih =>
    by_cases hc : c = '/'
    · simp [splitSep, hc, ih]
    · simp only [List.cons_append, splitSep, hc, if_false, List.append_eq]
      rw [ih]
      cases hs : splitSep a with
      | nil => exact absurd hs (splitSep_ne_nil a)
      | cons h t => simp

theorem splitSep_noslash (a : List Char) (h : '/' ∉ a) : splitSep a = [a] := by
  induction a with
  | nil => rfl
  | cons c a ih =>
    have hc : c ≠ '/' := fun hc => h (by simp [hc])
    have ha : '/' ∉ a := fun ha => h (by simp [ha])
    simp [splitSep, hc, ih ha]

theorem splitSep_elems (p : List Char) : ∀ e ∈ splitSep p, '/' ∉ e := by
  induction p with
  | nil => simp [splitSep]
  | cons c cs ih =>
    by_cases hc : c = '/'
    · simp only [splitSep, hc, if_true]
      intro e he
      rcases List.mem_cons.mp he with h | h
      · rw [h]; simp
      · exact ih e h
    · simp only [splitSep, hc, if_false]
      cases hs : splitSep cs with
      | nil => exact absurd hs (splitSep_ne_nil cs)
      | cons h t =>
        rw [hs] at ih
        intro e he
        rcases List.mem_cons.mp he with h1 | h1
        · rw [h1]
          intro hmem
          rcases List.mem_cons.mp hmem with h2 | h2
          · exact hc h2.symm
          · exact ih h (by simp) h2
        · exact ih e (by simp [h1])

theorem joinSep_append_singleton (S : List (List Char)) (c : List Char) (hS : S ≠ []) :
    joinSep (S ++ [c]) = joinSep S ++ '/' :: c := by
  induction S with
  | nil => exact absurd rfl hS
  | cons x xs ih =>
    cases xs with
    | nil => simp [joinSep]
    | cons y ys =>
      have := ih (by simp)
      simp only [List.cons_append] at this ⊢
      show x ++ '/' :: joinSep (y :: (ys ++ [c])) = (x ++ '/' :: joinSep (y :: ys)) ++ '/' :: c
      rw [this]
      simp

theorem splitSep_joinSep (S : List (List Char)) (hS : S ≠ []) (h : ∀ e ∈ S, '/' ∉ e) :
    splitSep (joinSep S) = S := by
  induction S with
  | nil => exact absurd rfl hS
  | cons x xs ih =>
    cases xs with
    | nil => simpa [joinSep] using splitSep_noslash x (h x (by simp))
    | cons y ys =>
      simp only [joinSep]
      rw [splitSep_append, splitSep_noslash x (h x (by simp))]
      rw [ih (by simp) (fun e he => h e (by simp [he]))]
      simp

theorem StackOK_suffix (rooted : Bool) (A B : List (List Char)) (h : StackOK rooted (A ++ B)) :
    StackOK rooted B := by
  induction A with
  | nil => exact h
  | cons a A ih => exact ih h.2

theorem StackOK_elem (rooted : Bool) (st : List (List Char)) (h : StackOK rooted st) :
    ∀ e ∈ st, e ≠ [] ∧ '/' ∉ e ∧ e ≠ ['.'] := by
  induction st with
  | nil => simp
  | cons top rest ih =>
    intro e he
    rcases List.mem_cons.mp he with h1 | h1
    · subst h1
      rcases h.1 with hp | ⟨hd, _, _⟩
      · exact ⟨hp.1, hp.2.2.2, hp.2.1⟩
      · subst hd
        decide
    · exact ih h.2 e h1

theorem cleanStep_ok (rooted : Bool) (st : List (List Char)) (e : List Char)
    (h : StackOK rooted st) (he : '/' ∉ e) : StackOK rooted (cleanStep rooted st e) := by
  unfold cleanStep
  split
  · exact h
  · split
    · exact h
    · split
      · rename_i h1 h2 h3
        cases st with
        | nil =>
          simp only
          cases rooted with
          | true => simp [StackOK]
          | false =>
            simp only [Bool.false_eq_true, if_false]
            exact ⟨Or.inr ⟨h3, rfl, by simp⟩, trivial⟩
        | cons top rest =>
          simp only
          split
          · rename_i htop
            refine ⟨Or.inr ⟨h3, ?_, ?_⟩, h⟩
            · rcases h.1 with hp | ⟨_, hr, _⟩
              · exact absurd htop hp.2.2.1
              · exact hr
            · intro x hx
              rcases List.mem_cons.mp hx with hx | hx
              · rw [hx, htop]
              · rcases h.1 with hp | ⟨_, _, hall⟩
                · exact absurd htop hp.2.2.1
                · exact hall x hx
          · exact h.2
      · rename_i h1 h2 h3
        exact ⟨Or.inl ⟨h1, h2, h3, he⟩, h⟩

theorem foldl_cleanStep_ok (rooted : Bool) (elems : List (List Char)) :
    ∀ st, StackOK rooted st → (∀ e ∈ elems, '/' ∉ e) →
      StackOK rooted (elems.foldl (cleanStep rooted) st) := by
  induction elems with
  | nil => intro st h _; exact h
  | cons e es ih =>
    intro st h he
    simp only [List.foldl_cons]
    exact ih _ (cleanStep_ok rooted st e h (he e (by simp))) (fun x hx => he x (by simp [hx]))

theorem cleanStep_push (rooted : Bool) (st : List (List Char)) (e : List Char)
    (h : StackOK rooted (e :: st)) : cleanStep rooted st e = e :: st := by
  unfold cleanStep
  rcases h.1 with hp | ⟨hd, hr, hall⟩
  · rw [if_neg hp.1, if_neg hp.2.1, if_neg hp.2.2.1]
  · subst hd
    subst hr
    rw [if_neg (by decide), if_neg (by decide), if_pos rfl]
    cases st with
    | nil => simp
    | cons top rest =>
      simp only
      rw [if_pos (hall top (by simp))]

theorem foldl_cleanStep_refold (rooted : Bool) (T : List (List Char)) :
    ∀ acc, StackOK rooted (T.reverse ++ acc) →
      T.foldl (cleanStep rooted) acc = T.reverse ++ acc := by
  induction T with
  | nil => intro acc _; rfl
  | cons e T ih =>
    intro acc h
    simp only [List.reverse_cons, List.append_assoc, List.singleton_append] at h
    simp only [List.foldl_cons, List.reverse_cons, List.append_assoc, List.singleton_append]
    rw [cleanStep_push rooted acc e (StackOK_suffix rooted _ _ h)]
    exact ih (e :: acc) h

theorem cleanChars_eq (p : List Char) (hp : p ≠ []) :
    cleanChars p = renderPath (rootedC p) (stackC p) := by
  unfold cleanChars stackC rootedC
  rw [if_neg hp]

theorem stackC_ok (p : List Char) : StackOK (rootedC p) (stackC p).reverse := by
  unfold stackC
  rw [List.reverse_reverse]
  exact foldl_cleanStep_ok _ _ [] trivial (splitSep_elems p)

theorem head_joinSep (S : List (List Char)) (hS : S ≠ [])
    (h : ∀ e ∈ S, e ≠ [] ∧ '/' ∉ e ∧ e ≠ ['.']) :
    ∃ c rest, joinSep S = c :: rest ∧ c ≠ '/' := by
  cases S with
  | nil => exact absurd rfl hS
  | cons x xs =>
    obtain ⟨hx1, hx2, _⟩ := h x (by simp)
    cases x with
    | nil => exact absurd rfl hx1
    | cons c cs =>
      have hc : c ≠ '/' := fun hc => hx2 (by simp [hc])
      cases xs with
      | nil => exact ⟨c, cs, rfl, hc⟩
      | cons y ys => exact ⟨c, _, rfl, hc⟩

theorem stackC_render (rooted : Bool) (S : List (List Char)) (h : StackOK rooted S.reverse) :
    stackC (renderPath rooted S) = S ∧ rootedC (renderPath rooted S) = rooted ∧
      renderPath rooted S ≠ [] := by
  have hel : ∀ e ∈ S, e ≠ [] ∧ '/' ∉ e ∧ e ≠ ['.'] := fun e he =>
    StackOK_elem rooted _ h e (by simpa using he)
  have hfold : S.foldl (cleanStep rooted) [] = S.reverse := by
    have := foldl_cleanStep_refold rooted S [] (by simpa using h)
    simpa using this
  cases rooted with
  | true =>
    have hr : rootedC (renderPath true S) = true := by simp [renderPath, rootedC]
    refine ⟨?_, hr, by simp [renderPath]⟩
    unfold stackC
    rw [hr]
    simp only [renderPath, if_true, splitSep]
    by_cases hS : S = []
    · subst hS
      simp [joinSep, splitSep, cleanStep]
    · rw [splitSep_joinSep S hS (fun e he => (hel e he).2.1)]
      simp only [List.foldl_cons]
      rw [show cleanStep true [] [] = [] from rfl, hfold, List.reverse_reverse]
  | false =>
    by_cases hS : S = []
    · subst hS
      refine ⟨by decide, by decide, by decide⟩
    · obtain ⟨c, rest, hj, hc⟩ := head_joinSep S hS hel
      have hr : rootedC (renderPath false S) = false := by
        simp [renderPath, rootedC, hS, hj, hc]
      refine ⟨?_, hr, by simp [renderPath, hS, hj]⟩
      unfold stackC
      rw [hr]
      simp only [renderPath, Bool.false_eq_true, if_false, hS]
      rw [splitSep_joinSep S hS (fun e he => (hel e he).2.1), hfold, List.reverse_reverse]

theorem cleanChars_render (rooted : Bool) (S : List (List Char))
    (h : StackOK rooted S.reverse) : cleanChars (renderPath rooted S) = renderPath rooted S := by
  obtain ⟨h1, h2, h3⟩ := stackC_render rooted S h
  rw [cleanChars_eq _ h3, h1, h2]

theorem renderPath_inj (rooted : Bool) (S1 S2 : List (List Char))
    (h1 : StackOK rooted S1.reverse) (h2 : StackOK rooted S2.reverse)
    (h : renderPath rooted S1 = renderPath rooted S2) : S1 = S2 := by
  rw [← (stackC_render rooted S1 h1).1, ← (stackC_render rooted S2 h2).1, h]

theorem rootedC_append (a b : List Char) (ha : a ≠ []) : rootedC (a ++ b) = rootedC a := by
  cases a with
  | nil => exact absurd rfl ha
  | cons c cs => simp [rootedC]

theorem cleanChars_trailing (x : List Char) (hx : x ≠ []) :
    cleanChars (x ++ ['/']) = cleanChars x := by
  rw [cleanChars_eq _ (by simp), cleanChars_eq _ hx, rootedC_append x _ hx]
  unfold stackC
  rw [rootedC_append x _ hx, splitSep_append]
  simp [splitSep, cleanStep]

/-- `filepath.Join` with a plain name appends one element to the cleaned
path. -/
theorem Join_plain (a b : String) (hb : PlainName b) :
    (Join a b).data = renderPath (rootedC a.data) (stackC a.data ++ [b.data]) ∧
    stackC (Join a b).data = stackC a.data ++ [b.data] ∧
    rootedC (Join a b).data = rootedC a.data := by
  have hbs : '/' ∉ b.data := hb.2.2.2
  have hok : StackOK (rootedC a.data) (stackC a.data ++ [b.data]).reverse := by
    simp only [List.reverse_append, List.reverse_cons, List.reverse_nil, List.nil_append,
      List.singleton_append]
    exact ⟨Or.inl hb, stackC_ok a.data⟩
  have key : (Join a b).data = renderPath (rootedC a.data) (stackC a.data ++ [b.data]) := by
    unfold Join
    by_cases ha : a = ""
    · subst ha
      have hb0 : b ≠ "" := by
        intro h
        apply hb.1
        rw [h]
      rw [if_pos rfl, if_neg hb0]
      show cleanChars b.data = _
      rw [cleanChars_eq _ hb.1]
      have hr : rootedC b.data = false := by
        unfold rootedC
        cases hd : b.data with
        | nil => rfl
        | cons c cs =>
          have : c ≠ '/' := fun hc => hbs (by rw [hd]; simp [hc])
          simp [this]
      unfold stackC
      rw [hr, splitSep_noslash _ hbs]
      simp only [List.foldl_cons, List.foldl_nil]
      rw [cleanStep_push false [] b.data ⟨Or.inl hb, trivial⟩]
      rfl
    · rw [if_neg ha]
      have ha0 : a.data ≠ [] := fun h => ha (String.ext h)
      show cleanChars (a.data ++ '/' :: b.data) = _
      rw [cleanChars_eq _ (by simp), rootedC_append _ _ ha0]
      congr 1
      unfold stackC
      rw [rootedC_append _ _ ha0, splitSep_append, splitSep_noslash _ hbs, List.foldl_append]
      simp only [List.foldl_cons, List.foldl_nil]
      rw [cleanStep_push (rootedC a.data) _ b.data ⟨Or.inl hb, by
        have := stackC_ok a.data
        unfold stackC at this
        rwa [List.reverse_reverse] at this⟩]
      simp
  obtain ⟨h1, h2, _⟩ := stackC_render _ _ hok
  rw [key]
  exact ⟨rfl, h1, h2⟩

theorem descendPath_cons (root : String) (m : String) (ms : List String) :
    descendPath root (m :: ms) = descendPath (Join root m) ms := rfl

theorem descendPath_append (root : String) (ms ns : List String) :
    descendPath root (ms ++ ns) = descendPath (descendPath root ms) ns := by
  unfold descendPath
  rw [List.foldl_append]

/-- The path of an entry below the root: the cleaned root with the names
appended. -/
theorem descendPath_plain (root : String) (ms : List String) (h : ∀ m ∈ ms, PlainName m) :
    stackC (descendPath root ms).data = stackC root.data ++ ms.map String.data ∧
    rootedC (descendPath root ms).data = rootedC root.data ∧
    (ms ≠ [] → (descendPath root ms).data =
      renderPath (rootedC root.data) (stackC root.data ++ ms.map String.data)) := by
  induction ms generalizing root with
  | nil => simp [descendPath]
  | cons m ms ih =>
    obtain ⟨j1, j2, j3⟩ := Join_plain root m (h m (by simp))
    obtain ⟨i1, i2, i3⟩ := ih (Join root m) (fun x hx => h x (by simp [hx]))
    rw [descendPath_cons]
    refine ⟨by rw [i1, j2]; simp, by rw [i2, j3], fun _ => ?_⟩
    by_cases hms : ms = []
    · subst hms
      simpa [descendPath] using j1
    · rw [i3 hms, j2, j3]
      simp

theorem dropWhile_append_stop {α : Type} (p : α → Bool) (l r : List α) (x : α)
    (hl : ∀ y ∈ l, p y = true) (hx : p x = false) :
    (l ++ x :: r).dropWhile p = x :: r ∧ (l ++ x :: r).takeWhile p = l := by
  induction l with
  | nil => simp [List.dropWhile, List.takeWhile, hx]
  | cons y l ih =>
    have hy := hl y (by simp)
    have := ih (fun z hz => hl z (by simp [hz]))
    simp [List.dropWhile, List.takeWhile, hy, this]

theorem takeWhile_all {α : Type} (p : α → Bool) (l : List α) (hl : ∀ y ∈ l, p y = true) :
    l.takeWhile p = l ∧ l.dropWhile p = [] := by
  induction l with
  | nil => simp
  | cons y l ih =>
    have hy := hl y (by simp)
    have := ih (fun z hz => hl z (by simp [hz]))
    simp [List.takeWhile, List.dropWhile, hy, this]

theorem noslash_reverse (c : List Char) (hc : '/' ∉ c) :
    ∀ y ∈ c.reverse, (decide (y ≠ '/')) = true := by
  intro y hy
  have : y ∈ c := by simpa using hy
  simp only [ne_eq, decide_not, Bool.not_eq_eq_eq_not, Bool.not_true, decide_eq_false_iff_not]
  intro h
  exact hc (h ▸ this)

theorem dirPart_after_slash (pre c : List Char) (hc : '/' ∉ c) :
    dirPart (pre ++ '/' :: c) = pre ++ ['/'] := by
  unfold dirPart
  have : (pre ++ '/' :: c).reverse = c.reverse ++ '/' :: pre.reverse := by simp
  rw [this, (dropWhile_append_stop _ _ _ _ (noslash_reverse c hc) (by simp)).1]
  simp

theorem dirPart_noslash (c : List Char) (hc : '/' ∉ c) : dirPart c = [] := by
  unfold dirPart
  rw [(takeWhile_all _ _ (noslash_reverse c hc)).2]
  rfl

theorem basename_after_slash (pre c : List Char) (hc : '/' ∉ c) (hne : c ≠ []) :
    basename ⟨pre ++ '/' :: c⟩ = ⟨c⟩ := by
  unfold basename
  have hrev : (pre ++ '/' :: c).reverse = c.reverse ++ '/' :: pre.reverse := by simp
  simp only [hrev]
  cases hcr : c.reverse with
  | nil => exact absurd (by simpa using hcr) hne
  | cons last rr =>
    have hall := noslash_reverse c hc
    rw [hcr] at hall
    have hlast : last ≠ '/' := by simpa using hall last (by simp)
    have hdrop : dropTrailingSep (last :: rr ++ '/' :: pre.reverse) =
        last :: (rr ++ '/' :: pre.reverse) := by
      cases rr with
      | nil => simp [dropTrailingSep, hlast]
      | cons d r => simp [dropTrailingSep, hlast]
    rw [hdrop]
    simp only
    rw [(dropWhile_append_stop _ rr _ '/' (fun y hy => hall y (by simp [hy])) (by simp)).2]
    have : rr.reverse ++ [last] = c := by
      have := congrArg List.reverse hcr
      simpa using this.symm
    rw [this]

theorem basename_noslash (c : List Char) (hc : '/' ∉ c) : basename ⟨c⟩ = ⟨c⟩ := by
  unfold basename
  cases hcr : c.reverse with
  | nil =>
    have : c = [] := by simpa using hcr
    subst this
    rfl
  | cons last rr =>
    have hall := noslash_reverse c hc
    rw [hcr] at hall
    have hlast : last ≠ '/' := by simpa using hall last (by simp)
    have hdrop : dropTrailingSep (last :: rr) = last :: rr := by
      cases rr with
      | nil => simp [dropTrailingSep]
      | cons d r => simp [dropTrailingSep, hlast]
    simp only [hcr, hdrop]
    rw [(takeWhile_all _ rr (fun y hy => hall y (by simp [hy]))).1]
    have : rr.reverse ++ [last] = c := by
      have := congrArg List.reverse hcr
      simpa using this.symm
    rw [this]

theorem renderPath_snoc (rooted : Bool) (S : List (List Char)) (c : List Char) :
    renderPath rooted (S ++ [c]) =
      if S = [] then (if rooted then '/' :: c else c) else renderPath rooted S ++ '/' :: c := by
  by_cases hS : S = []
  · subst hS
    cases rooted <;> simp [renderPath, joinSep]
  · rw [if_neg hS]
    cases rooted
    · simp [renderPath, hS, joinSep_append_singleton S c hS]
    · simp [renderPath, joinSep_append_singleton S c hS]

theorem basename_render_snoc (rooted : Bool) (S : List (List Char)) (c : List Char)
    (hc : '/' ∉ c) (hne : c ≠ []) : basename ⟨renderPath rooted (S ++ [c])⟩ = ⟨c⟩ := by
  rw [renderPath_snoc]
  by_cases hS : S = []
  · rw [if_pos hS]
    cases rooted
    · simpa using basename_noslash c hc
    · simpa using basename_after_slash [] c hc hne
  · rw [if_neg hS]
    exact basename_after_slash _ c hc hne

theorem Dir_render_snoc (rooted : Bool) (S : List (List Char)) (c : List Char)
    (h : StackOK rooted (S ++ [c]).reverse) :
    (Dir ⟨renderPath rooted (S ++ [c])⟩).data = renderPath rooted S := by
  have hS : StackOK rooted S.reverse := by
    rw [List.reverse_append] at h
    exact h.2
  have hc : '/' ∉ c := (StackOK_elem rooted _ h c (by simp)).2.1
  show cleanChars (dirPart (renderPath rooted (S ++ [c]))) = _
  rw [renderPath_snoc]
  by_cases hSe : S = []
  · subst hSe
    rw [if_pos rfl]
    cases rooted
    · simp only [Bool.false_eq_true, if_false]
      rw [dirPart_noslash c hc]
      rfl
    · simp only [if_true]
      have := dirPart_after_slash [] c hc
      simp only [List.nil_append] at this
      rw [this]
      rfl
  · rw [if_neg hSe, dirPart_after_slash _ c hc,
      cleanChars_trailing _ (stackC_render rooted S hS).2.2, cleanChars_render rooted S hS]

/-- For a cleaned path whose last element is `.git`, `filepath.Dir` is the
path without that element: it occurs inside the path and differs from it. -/
theorem Dir_of_clean (x : List Char) (hx : x ≠ [])
    (hb : basename ⟨cleanChars x⟩ = ".git") :
    (Dir ⟨cleanChars x⟩).data <:+: cleanChars x ∧ Dir ⟨cleanChars x⟩ ≠ ⟨cleanChars x⟩ ∧
    ∃ S, stackC x = S ++ [".git".data] ∧
      (Dir ⟨cleanChars x⟩).data = renderPath (rootedC x) S := by
  rw [cleanChars_eq x hx] at hb ⊢
  have hok := stackC_ok x
  generalize rootedC x = r at hb hok ⊢
  rcases List.eq_nil_or_concat (stackC x) with hS | ⟨S, c, hS⟩
  · rw [hS] at hb
    exfalso
    revert hb
    cases r <;> decide
  · rw [List.concat_eq_append] at hS
    rw [hS] at hb hok ⊢
    have hel := StackOK_elem _ _ hok c (by simp)
    rw [basename_render_snoc _ S c hel.2.1 hel.1] at hb
    have hc : c = ".git".data := congrArg String.data hb
    subst hc
    have hdir := Dir_render_snoc _ S _ hok
    refine ⟨?_, ?_, S, rfl, hdir⟩
    · rw [hdir, renderPath_snoc]
      by_cases hSe : S = []
      · subst hSe
        cases r <;> decide
      · rw [if_neg hSe]
        exact ⟨[], '/' :: ".git".data, by simp⟩
    · intro heq
      have := congrArg String.data heq
      rw [hdir] at this
      have hlen := congrArg List.length this
      rw [renderPath_snoc] at hlen
      by_cases hSe : S = []
      · subst hSe
        revert hlen
        cases r <;> decide
      · rw [if_neg hSe] at hlen
        simp at hlen

/-! ## Repository discovery (C1 to C3) -/

theorem Join_clean_form (a b : String) :
    Join a b = "" ∨ ∃ x, x ≠ [] ∧ (Join a b).data = cleanChars x := by
  unfold Join
  by_cases ha : a = ""
  · rw [if_pos ha]
    by_cases hb : b = ""
    · left; rw [if_pos hb]
    · right
      rw [if_neg hb]
      exact ⟨b.data, fun h => hb (String.ext h), rfl⟩
  · right
    rw [if_neg ha]
    exact ⟨a.data ++ '/' :: b.data, by simp, rfl⟩

/-- On a cleaned path named `.git`, `filepath.Dir` gives a string that occurs
inside the path and is not the path. -/
theorem Dir_within (p : String) (hform : ∃ x, x ≠ [] ∧ p.data = cleanChars x)
    (hb : basename p = ".git") : (Dir p).data <:+: p.data ∧ Dir p ≠ p ∧ Clean p = p := by
  obtain ⟨x, hx, hp⟩ := hform
  have hp2 : p = ⟨cleanChars x⟩ := String.ext hp
  rw [hp2] at hb ⊢
  obtain ⟨h1, h2, _⟩ := Dir_of_clean x hx hb
  refine ⟨h1, h2, ?_⟩
  apply String.ext
  show cleanChars (cleanChars x) = cleanChars x
  rw [cleanChars_eq x hx]
  exact cleanChars_render _ _ (stackC_ok x)

theorem clean_root_form (root : String) (h : Clean root = root) :
    ∃ x, x ≠ [] ∧ root.data = cleanChars x := by
  refine ⟨root.data, ?_, ?_⟩
  · intro h0
    have : root = "" := String.ext h0
    subst this
    exact absurd h (by decide)
  · exact (congrArg String.data h).symm

/-- Every path the walk hands to the callback with the name `.git` is in
cleaned form, when the root is. -/
theorem reached_git_form (root path : String)
    (hroot : basename root ≠ ".git" ∨ Clean root = root) (hr : Reached root path)
    (hb : basename path = ".git") : ∃ x, x ≠ [] ∧ path.data = cleanChars x := by
  rcases hr with h | ⟨a, b, h⟩
  · subst h
    rcases hroot with h1 | h1
    · exact absurd hb h1
    · exact clean_root_form path h1
  · rcases Join_clean_form a b with h0 | h0
    · rw [h, h0] at hb
      exact absurd hb (by decide)
    · rw [h]; exact h0

/-- Every returned path comes from a visited directory named `.git` that is
not excluded. -/
theorem mem_FindGitRepos (fs : Node) (root : String) (E : List String) (r : String)
    (h : r ∈ (FindGitRepos fs root E).1) :
    ∃ v ∈ visited fs root E, v.IsGitDir ∧ r = Dir v.path ∧ basename v.path = ".git" ∧
      Reached root v.path ∧ ∀ e ∈ E, ¬ Contains v.path e := by
  obtain ⟨ret, hout, hnamed, hreach, hok, herr⟩ := FindGitRepos_spec fs root E
  have hmem : r ∈ ((visited fs root E).map (added E)).flatten := by
    rcases hout with ⟨hr, _⟩ | ⟨e, he, _⟩
    · rw [hok hr] at h; exact h
    · rw [herr e he] at h; simp at h
  obtain ⟨l, hl, hrl⟩ := List.mem_flatten.mp hmem
  obtain ⟨v, hv, hvl⟩ := List.mem_map.mp hl
  subst hvl
  obtain ⟨h1, h2, ⟨i, hi, hdir, hname⟩, h4, _⟩ := mem_added E v r hrl
  have hbase : basename v.path = ".git" := by rw [← hnamed v hv i hi, hname]
  refine ⟨v, hv, ⟨h1, ?_⟩, h4, hbase, hreach v hv, h2⟩
  rw [hi]
  cases i with
  | mk n d =>
    simp only at hdir hname
    rw [hdir, hname]

/-- C1 (as stated, refuted): walking from the root `a//b/.git`, itself a
directory named `.git`, with `a/b` excluded returns `a/b`. -/
theorem C1_counterexample :
    ¬ (∀ r ∈ (FindGitRepos gitDir "a//b/.git" ["a/b"]).1, ∀ e ∈ ["a/b"], ¬ Contains r e) := by
  intro h
  exact h "a/b" (by decide) "a/b" (by decide) (by decide)

/-- C1 (amended): when the root is not itself named `.git`, or is written in
cleaned form, no returned path contains a member of the exclusion list. -/
theorem C1_no_excluded_path (fs : Node) (root : String) (E : List String)
    (hroot : basename root ≠ ".git" ∨ Clean root = root) :
    ∀ r ∈ (FindGitRepos fs root E).1, ∀ e ∈ E, ¬ Contains r e := by
  intro r hr e he hc
  obtain ⟨v, _, _, hrv, hbase, hreach, hex⟩ := mem_FindGitRepos fs root E r hr
  have hinf := (Dir_within v.path (reached_git_form root v.path hroot hreach hbase) hbase).1
  apply hex e he
  unfold Contains at hc ⊢
  rw [hrv] at hc
  exact List.IsInfix.trans hc hinf

/-- C1 witness: two repositories, one of them under an excluded directory. -/
theorem C1_no_excluded_path_witness :
    "/r/app" ∈ (FindGitRepos treeTwoRepos "/r" ["vendor"]).1 ∧ ¬ Contains "/r/app" "vendor" :=
  ⟨by decide, C1_no_excluded_path treeTwoRepos "/r" ["vendor"] (Or.inl (by decide))
    "/r/app" (by decide) "vendor" (by decide)⟩

mutual
theorem visit_uniform (E : List String) (path : String) :
    ∀ (node : Node) (s : List String) (log : List VisitRec),
      visit (logged (findWalkFn E)) path node (s, log) =
        ((s ++ ((visitLog E path node).map (added E)).flatten, log ++ visitLog E path node),
          visitRet E path node)
  | .lstatFails e, s, log => by simp [visit, logged_findWalkFn, visitLog, visitRet]
  | .file, s, log => by simp [visit, logged_findWalkFn, visitLog, visitRet]
  | .unreadable e, s, log => by simp [visit, logged_findWalkFn, visitLog, visitRet]
  | .dir es, s, log => by
    have hE := visitEntries_uniform E path es
    unfold visitLog visitRet
    simp only [visit, logged_findWalkFn]
    cases hr : returned E ⟨path, some ⟨basename path, true⟩, none⟩ with
    | some err => simp
    | none =>
      simp only
      rw [hE, hE ([] ++ _) ([] ++ _)]
      simp
theorem visitEntries_uniform (E : List String) (path : String) :
    ∀ (es : Entries) (s : List String) (log : List VisitRec),
      visitEntries (logged (findWalkFn E)) path es (s, log) =
        ((s ++ ((entriesLog E path es).map (added E)).flatten, log ++ entriesLog E path es),
          entriesRet E path es)
  | .nil, s, log => by simp [visitEntries, entriesLog, entriesRet]
  | .cons name node rest, s, log => by
    have hV := visit_uniform E (Join path name) node
    have hE := visitEntries_uniform E path rest
    unfold entriesLog entriesRet
    simp only [visitEntries]
    rw [hV, hV [] []]
    cases hr : visitRet E (Join path name) node with
    | none =>
      simp only
      rw [hE, hE ([] ++ _) ([] ++ _)]
      simp
    | some err =>
      simp only
      split
      · simp
      · rw [hE, hE ([] ++ _) ([] ++ _)]
        simp
end

theorem visitLog_leaf (E : List String) (path : String) :
    visitLog E path .file = [okRec path false] ∧
    visitRet E path .file = returned E (okRec path false) := by
  simp [visitLog, visitRet, visit, logged_findWalkFn, okRec]

theorem visitLog_dir_skip (E : List String) (path : String) (es : Entries)
    (hr : returned E (okRec path true) ≠ none) :
    visitLog E path (.dir es) = [okRec path true] ∧
    visitRet E path (.dir es) = returned E (okRec path true) := by
  unfold visitLog visitRet
  simp only [visit, logged_findWalkFn]
  unfold okRec at hr
  cases hr2 : returned E ⟨path, some ⟨basename path, true⟩, none⟩ with
  | some err => simp [okRec, hr2]
  | none => exact absurd hr2 hr

theorem visitLog_dir_enter (E : List String) (path : String) (es : Entries)
    (hr : returned E (okRec path true) = none) :
    visitLog E path (.dir es) = okRec path true :: entriesLog E path es ∧
    visitRet E path (.dir es) = entriesRet E path es := by
  unfold visitLog visitRet
  simp only [visit, logged_findWalkFn]
  unfold okRec at hr
  rw [hr]
  simp only
  rw [visitEntries_uniform]
  simp [okRec]

theorem entriesLog_cons (E : List String) (path name : String) (node : Node)
    (rest : Entries) :
    entriesLog E path (.cons name node rest) =
      visitLog E (Join path name) node ++
        (if continues node (visitRet E (Join path name) node) = true
          then entriesLog E path rest else []) ∧
    entriesRet E path (.cons name node rest) =
      (if continues node (visitRet E (Join path name) node) = true
        then entriesRet E path rest else visitRet E (Join path name) node) := by
  unfold entriesLog entriesRet
  simp only [visitEntries]
  rw [visit_uniform]
  cases hr : visitRet E (Join path name) node with
  | none =>
    simp only [continues]
    rw [visitEntries_uniform]
    simp
    exact ⟨rfl, rfl⟩
  | some err =>
    simp only [continues]
    by_cases hs : stopsLoop node err = true
    · simp [hs]
    · simp only [hs]
      rw [visitEntries_uniform]
      simp
      exact ⟨rfl, rfl⟩

theorem visited_eq_visitLog (fs : Node) (root : String) (E : List String) :
    visited fs root E = visitLog E root fs := by
  unfold visited Walk visitLog
  cases hv : visit (logged (findWalkFn E)) root fs ([], []) with
  | mk st r =>
    cases r with
    | none => rfl
    | some err => simp only; split <;> rfl

/-! ## Positions of the visited entries -/

theorem descendPath_inj (root : String) (ms1 ms2 : List String)
    (h1 : ∀ m ∈ ms1, PlainName m) (h2 : ∀ m ∈ ms2, PlainName m)
    (h : descendPath root ms1 = descendPath root ms2) : ms1 = ms2 := by
  have e1 := (descendPath_plain root ms1 h1).1
  have e2 := (descendPath_plain root ms2 h2).1
  rw [h, e2] at e1
  have := List.append_cancel_left e1
  exact (List.map_injective_iff.mpr (fun a b hab => String.ext hab) this).symm

theorem Entries.wf_cons {name : String} {node : Node} {rest : Entries}
    (h : (Entries.cons name node rest).wf = true) :
    PlainName name ∧ name ∉ rest.names ∧ node.wf = true ∧ rest.wf = true := by
  simp only [Entries.wf, Bool.and_eq_true, decide_eq_true_eq] at h
  exact ⟨h.1.1.1, h.1.1.2, h.1.2, h.2⟩

theorem visitLog_nondir (E : List String) (path : String) (node : Node)
    (h : ∀ es, node ≠ .dir es) :
    ∃ v, visitLog E path node = [v] ∧ v.path = path ∧ visitRet E path node = returned E v ∧
      (node.readable = true → v = okRec path false) := by
  cases node with
  | dir es => exact absurd rfl (h es)
  | file =>
    exact ⟨okRec path false, by simp [visitLog, visit, logged_findWalkFn, okRec], rfl,
      by simp [visitRet, visit, logged_findWalkFn, okRec], fun _ => rfl⟩
  | unreadable e =>
    exact ⟨⟨path, some ⟨basename path, true⟩, some (.os e)⟩,
      by simp [visitLog, visit, logged_findWalkFn], rfl,
      by simp [visitRet, visit, logged_findWalkFn], fun hr => by simp [Node.readable] at hr⟩
  | lstatFails e =>
    exact ⟨⟨path, none, some (.os e)⟩,
      by simp [visitLog, visit, logged_findWalkFn], rfl,
      by simp [visitRet, visit, logged_findWalkFn], fun hr => by simp [Node.readable] at hr⟩

theorem visitLog_dir_mem (E : List String) (path : String) (es : Entries) (v : VisitRec)
    (hv : v ∈ visitLog E path (.dir es)) :
    v = okRec path true ∨ (returned E (okRec path true) = none ∧ v ∈ entriesLog E path es) := by
  by_cases hr : returned E (okRec path true) = none
  · rw [(visitLog_dir_enter E path es hr).1] at hv
    rcases List.mem_cons.mp hv with h | h
    · exact Or.inl h
    · exact Or.inr ⟨hr, h⟩
  · rw [(visitLog_dir_skip E path es hr).1] at hv
    exact Or.inl (by simpa using hv)

theorem entriesLog_cons_mem (E : List String) (path name : String) (node : Node)
    (rest : Entries) (v : VisitRec) (hv : v ∈ entriesLog E path (.cons name node rest)) :
    v ∈ visitLog E (Join path name) node ∨
      (continues node (visitRet E (Join path name) node) = true ∧ v ∈ entriesLog E path rest) := by
  rw [(entriesLog_cons E path name node rest).1] at hv
  rcases List.mem_append.mp hv with h | h
  · exact Or.inl h
  · by_cases hc : continues node (visitRet E (Join path name) node) = true
    · rw [if_pos hc] at h
      exact Or.inr ⟨hc, h⟩
    · rw [if_neg hc] at h
      simp at h

mutual
theorem visitLog_below (E : List String) (path : String) :
    ∀ (node : Node), node.wf = true → ∀ v ∈ visitLog E path node, Below path v.path
  | .dir es, hwf, v, hv => by
    rcases visitLog_dir_mem E path es v hv with h | ⟨_, h⟩
    · subst h
      exact ⟨[], by simp, rfl⟩
    · obtain ⟨n, ms, _, hn, hms, hp⟩ := entriesLog_below E path es hwf v h
      refine ⟨n :: ms, ?_, hp⟩
      intro m hm
      rcases List.mem_cons.mp hm with h1 | h1
      · rw [h1]; exact hn
      · exact hms m h1
  | .file, _, v, hv => by
    obtain ⟨v0, h0, hp, _⟩ := visitLog_nondir E path .file (by simp)
    rw [h0] at hv
    simp at hv
    subst hv
    exact ⟨[], by simp, hp⟩
  | .unreadable e, _, v, hv => by
    obtain ⟨v0, h0, hp, _⟩ := visitLog_nondir E path (.unreadable e) (by simp)
    rw [h0] at hv
    simp at hv
    subst hv
    exact ⟨[], by simp, hp⟩
  | .lstatFails e, _, v, hv => by
    obtain ⟨v0, h0, hp, _⟩ := visitLog_nondir E path (.lstatFails e) (by simp)
    rw [h0] at hv
    simp at hv
    subst hv
    exact ⟨[], by simp, hp⟩
theorem entriesLog_below (E : List String) (path : String) :
    ∀ (es : Entries), es.wf = true →
      ∀ v ∈ entriesLog E path es, BelowEntry path es.names v.path
  | .nil, _, v, hv => by simp [entriesLog, visitEntries] at hv
  | .cons name node rest, hwf, v, hv => by
    obtain ⟨hn, _, hnode, hrest⟩ := Entries.wf_cons hwf
    rcases entriesLog_cons_mem E path name node rest v hv with h | ⟨_, h⟩
    · obtain ⟨ms, hms, hp⟩ := visitLog_below E (Join path name) node hnode v h
      exact ⟨name, ms, by simp [Entries.names], hn, hms, by rw [hp, descendPath_cons]⟩
    · obtain ⟨n, ms, hmem, hpn, hms, hp⟩ := entriesLog_below E path rest hrest v h
      exact ⟨n, ms, by simp [Entries.names, hmem], hpn, hms, hp⟩
end

theorem inside_below (path p1 p2 : String) (ms1 ms2 : List String)
    (h1 : ∀ m ∈ ms1, PlainName m) (h2 : ∀ m ∈ ms2, PlainName m)
    (e1 : p1 = descendPath path ms1) (e2 : p2 = descendPath path ms2) (h : Inside p2 p1) :
    ∃ names, names ≠ [] ∧ ms1 = ms2 ++ names := by
  obtain ⟨names, hne, hpl, hp⟩ := h
  refine ⟨names, hne, ?_⟩
  rw [e2, ← descendPath_append, e1] at hp
  refine descendPath_inj path ms1 (ms2 ++ names) h1 ?_ hp
  intro m hm
  rcases List.mem_append.mp hm with hm | hm
  · exact h2 m hm
  · exact hpl m hm

theorem not_inside_self (path : String) : ¬ Inside path path := by
  intro h
  obtain ⟨names, hne, hn⟩ := inside_below path path path [] [] (by simp) (by simp) rfl rfl h
  simp at hn
  exact hne hn

theorem belowEntry_not_self (path : String) (names : List String)
    (h : BelowEntry path names path) : False := by
  obtain ⟨n, ms, _, hn, hms, hp⟩ := h
  have := descendPath_inj path [] (n :: ms) (by simp) (by
    intro m hm
    rcases List.mem_cons.mp hm with h1 | h1
    · rw [h1]; exact hn
    · exact hms m h1) hp
  simp at this

theorem belowEntry_inside (path : String) (names : List String) (p1 p2 : String)
    (n1 : String) (ms1 : List String) (hn1 : PlainName n1) (hms1 : ∀ m ∈ ms1, PlainName m)
    (e1 : p1 = descendPath path (n1 :: ms1)) (h2 : BelowEntry path names p2)
    (h : Inside p2 p1 ∨ Inside p1 p2 ∨ p1 = p2) : n1 ∈ names := by
  obtain ⟨n2, ms2, hmem, hn2, hms2, e2⟩ := h2
  have hp1 : ∀ m ∈ n1 :: ms1, PlainName m := by
    intro m hm
    rcases List.mem_cons.mp hm with h1 | h1
    · rw [h1]; exact hn1
    · exact hms1 m h1
  have hp2 : ∀ m ∈ n2 :: ms2, PlainName m := by
    intro m hm
    rcases List.mem_cons.mp hm with h1 | h1
    · rw [h1]; exact hn2
    · exact hms2 m h1
  rcases h with h | h | h
  · obtain ⟨names0, _, hn⟩ := inside_below path p1 p2 _ _ hp1 hp2 e1 e2 h
    simp only [List.cons_append, List.cons.injEq] at hn
    rw [hn.1]; exact hmem
  · obtain ⟨names0, _, hn⟩ := inside_below path p2 p1 _ _ hp2 hp1 e2 e1 h
    simp only [List.cons_append, List.cons.injEq] at hn
    rw [← hn.1]; exact hmem
  · have := descendPath_inj path _ _ hp1 hp2 (by rw [← e1, ← e2, h])
    simp only [List.cons.injEq] at this
    rw [this.1]; exact hmem

mutual
theorem visitLog_not_inside (E : List String) (path : String) :
    ∀ (node : Node), node.wf = true → ∀ v2 ∈ visitLog E path node, returned E v2 ≠ none →
      ∀ v1 ∈ visitLog E path node, ¬ Inside v2.path v1.path
  | .dir es, hwf, v2, hv2, hret, v1, hv1 => by
    rcases visitLog_dir_mem E path es v2 hv2 with h2 | ⟨hr2, h2⟩
    · subst h2
      rcases visitLog_dir_mem E path es v1 hv1 with h1 | ⟨hr1, _⟩
      · subst h1
        exact not_inside_self path
      · exact absurd hr1 hret
    · rcases visitLog_dir_mem E path es v1 hv1 with h1 | ⟨_, h1⟩
      · subst h1
        intro hin
        obtain ⟨n, ms, _, hn, hms, hp⟩ := entriesLog_below E path es hwf v2 h2
        obtain ⟨names, _, hnm⟩ := inside_below path path v2.path [] (n :: ms) (by simp) (by
          intro m hm
          rcases List.mem_cons.mp hm with h1 | h1
          · rw [h1]; exact hn
          · exact hms m h1) rfl hp hin
        simp at hnm
      · exact entriesLog_not_inside E path es hwf v2 h2 hret v1 h1
  | .file, _, v2, hv2, _, v1, hv1 => by
    obtain ⟨v0, h0, hp, _⟩ := visitLog_nondir E path .file (by simp)
    rw [h0] at hv1 hv2
    simp at hv1 hv2
    subst hv1 hv2
    rw [hp]
    exact not_inside_self path
  | .unreadable e, _, v2, hv2, _, v1, hv1 => by
    obtain ⟨v0, h0, hp, _⟩ := visitLog_nondir E path (.unreadable e) (by simp)
    rw [h0] at hv1 hv2
    simp at hv1 hv2
    subst hv1 hv2
    rw [hp]
    exact not_inside_self path
  | .lstatFails e, _, v2, hv2, _, v1, hv1 => by
    obtain ⟨v0, h0, hp, _⟩ := visitLog_nondir E path (.lstatFails e) (by simp)
    rw [h0] at hv1 hv2
    simp at hv1 hv2
    subst hv1 hv2
    rw [hp]
    exact not_inside_self path
theorem entriesLog_not_inside (E : List String) (path : String) :
    ∀ (es : Entries), es.wf = true → ∀ v2 ∈ entriesLog E path es, returned E v2 ≠ none →
      ∀ v1 ∈ entriesLog E path es, ¬ Inside v2.path v1.path
  | .nil, _, v2, hv2, _, _, _ => by simp [entriesLog, visitEntries] at hv2
  | .cons name node rest, hwf, v2, hv2, hret, v1, hv1 => by
    obtain ⟨hn, hfresh, hnode, hrest⟩ := Entries.wf_cons hwf
    rcases entriesLog_cons_mem E path name node rest v2 hv2 with h2 | ⟨_, h2⟩
    · rcases entriesLog_cons_mem E path name node rest v1 hv1 with h1 | ⟨_, h1⟩
      · exact visitLog_not_inside E (Join path name) node hnode v2 h2 hret v1 h1
      · intro hin
        obtain ⟨ms2, hms2, hp2⟩ := visitLog_below E (Join path name) node hnode v2 h2
        rw [← descendPath_cons] at hp2
        exact hfresh (belowEntry_inside path rest.names v2.path v1.path name ms2 hn hms2 hp2
          (entriesLog_below E path rest hrest v1 h1) (Or.inr (Or.inl hin)))
    · rcases entriesLog_cons_mem E path name node rest v1 hv1 with h1 | ⟨_, h1⟩
      · intro hin
        obtain ⟨ms1, hms1, hp1⟩ := visitLog_below E (Join path name) node hnode v1 h1
        rw [← descendPath_cons] at hp1
        exact hfresh (belowEntry_inside path rest.names v1.path v2.path name ms1 hn hms1 hp1
          (entriesLog_below E path rest hrest v2 h2) (Or.inl hin))
      · exact entriesLog_not_inside E path rest hrest v2 h2 hret v1 h1
end

mutual
theorem visitLog_paths_nodup (E : List String) (path : String) :
    ∀ (node : Node), node.wf = true → ((visitLog E path node).map VisitRec.path).Nodup
  | .dir es, hwf => by
    by_cases hr : returned E (okRec path true) = none
    · rw [(visitLog_dir_enter E path es hr).1]
      simp only [List.map_cons, List.nodup_cons]
      refine ⟨?_, entriesLog_paths_nodup E path es hwf⟩
      intro hmem
      obtain ⟨v, hv, hp⟩ := List.mem_map.mp hmem
      have := entriesLog_below E path es hwf v hv
      rw [hp] at this
      exact belowEntry_not_self path _ this
    · rw [(visitLog_dir_skip E path es hr).1]
      simp
  | .file, _ => by
    obtain ⟨v0, h0, _⟩ := visitLog_nondir E path .file (by simp)
    rw [h0]; simp
  | .unreadable e, _ => by
    obtain ⟨v0, h0, _⟩ := visitLog_nondir E path (.unreadable e) (by simp)
    rw [h0]; simp
  | .lstatFails e, _ => by
    obtain ⟨v0, h0, _⟩ := visitLog_nondir E path (.lstatFails e) (by simp)
    rw [h0]; simp
theorem entriesLog_paths_nodup (E : List String) (path : String) :
    ∀ (es : Entries), es.wf = true → ((entriesLog E path es).map VisitRec.path).Nodup
  | .nil, _ => by simp [entriesLog, visitEntries]
  | .cons name node rest, hwf => by
    obtain ⟨hn, hfresh, hnode, hrest⟩ := Entries.wf_cons hwf
    rw [(entriesLog_cons E path name node rest).1, List.map_append, List.nodup_append]
    refine ⟨visitLog_paths_nodup E (Join path name) node hnode, ?_, ?_⟩
    · split
      · exact entriesLog_paths_nodup E path rest hrest
      · simp
    · intro p hp1 hp2
      obtain ⟨v1, hv1, e1⟩ := List.mem_map.mp hp1
      obtain ⟨v2, hv2, e2⟩ := List.mem_map.mp hp2
      have hv2r : v2 ∈ entriesLog E path rest := by
        split at hv2
        · exact hv2
        · simp at hv2
      obtain ⟨ms1, hms1, hq1⟩ := visitLog_below E (Join path name) node hnode v1 hv1
      rw [← descendPath_cons] at hq1
      exact hfresh (belowEntry_inside path rest.names v1.path v2.path name ms1 hn hms1 hq1
        (entriesLog_below E path rest hrest v2 hv2r) (Or.inr (Or.inr (by rw [e1, e2]))))
end

theorem isGitDir_returned (E : List String) (v : VisitRec) (h : v.IsGitDir) :
    returned E v = some GoError.SkipDir := by
  obtain ⟨h1, h2⟩ := h
  unfold returned findWalkFn
  rw [h1, h2]
  simp only
  split <;> rfl

theorem Join_Dir (p : String) (hform : ∃ x, x ≠ [] ∧ p.data = cleanChars x)
    (hb : basename p = ".git") : Join (Dir p) ".git" = p := by
  obtain ⟨x, hx, hp⟩ := hform
  have hp2 : p = ⟨cleanChars x⟩ := String.ext hp
  subst hp2
  obtain ⟨_, _, S, hS, hdir⟩ := Dir_of_clean x hx hb
  have hok := stackC_ok x
  rw [hS, List.reverse_append] at hok
  have hokS : StackOK (rootedC x) S.reverse := StackOK_suffix _ _ _ hok
  obtain ⟨s1, s2, _⟩ := stackC_render (rootedC x) S hokS
  apply String.ext
  rw [(Join_plain _ ".git" (by decide)).1, hdir, s1, s2]
  show _ = cleanChars x
  rw [cleanChars_eq x hx, hS]

/-- C3: walking from the root `/foo/.git/`, a directory named `.git` written
with a trailing slash, `FindGitRepos` returns `/foo/.git`: the walk visits the
root as a directory named `.git`, and `filepath.Dir` of its path is the
cleaned path of that same directory, not its parent `/foo`. -/
theorem C3_git_root_returned_itself :
    FindGitRepos gitDir "/foo/.git/" [] = (["/foo/.git"], none) ∧
    (⟨"/foo/.git/", some ⟨".git", true⟩, none⟩ : VisitRec) ∈ visited gitDir "/foo/.git/" [] ∧
    (⟨"/foo/.git/", some ⟨".git", true⟩, none⟩ : VisitRec).IsGitDir ∧
    Dir "/foo/.git/" = Clean "/foo/.git/" ∧
    Clean "/foo/.git/" = "/foo/.git" := by
  decide

/-- When the root is not itself named `.git`, or is written in cleaned form,
the discovery returns parents only: every returned path is `filepath.Dir` of
the path of a visited directory named `.git`; no returned path is a visited
directory named `.git`; and no visited path and no returned path lies inside a
visited directory named `.git`. -/
theorem FindGitRepos_returns_parent (fs : Node) (root : String) (E : List String)
    (hwf : fs.wf = true) (hroot : basename root ≠ ".git" ∨ Clean root = root) :
    (∀ r ∈ (FindGitRepos fs root E).1,
      ∃ v ∈ visited fs root E, v.IsGitDir ∧ r = Dir v.path ∧ r ≠ Clean v.path) ∧
    (∀ r ∈ (FindGitRepos fs root E).1,
      ∀ v ∈ visited fs root E, v.IsGitDir → r ≠ Clean v.path) ∧
    (∀ v2 ∈ visited fs root E, v2.IsGitDir →
      (∀ v1 ∈ visited fs root E, ¬ Inside v2.path v1.path) ∧
      (∀ r ∈ (FindGitRepos fs root E).1, ¬ Inside v2.path r)) := by
  have hvisit : ∀ v2 ∈ visited fs root E, v2.IsGitDir →
      ∀ v1 ∈ visited fs root E, ¬ Inside v2.path v1.path := by
    intro v2 hv2 hg v1 hv1
    rw [visited_eq_visitLog] at hv1 hv2
    exact visitLog_not_inside E root fs hwf v2 hv2
      (by rw [isGitDir_returned E v2 hg]; simp) v1 hv1
  have hreturned : ∀ v2 ∈ visited fs root E, v2.IsGitDir →
      ∀ r ∈ (FindGitRepos fs root E).1, ¬ Inside v2.path r := by
    intro v2 hv2 hg r hr hin
    obtain ⟨v, hv, _, hrv, hbase, hreach, _⟩ := mem_FindGitRepos fs root E r hr
    have hj := Join_Dir v.path (reached_git_form root v.path hroot hreach hbase) hbase
    obtain ⟨names, hne, hpl, hp⟩ := hin
    apply hvisit v2 hv2 hg v hv
    refine ⟨names ++ [".git"], by simp, ?_, ?_⟩
    · intro m hm
      rcases List.mem_append.mp hm with h | h
      · exact hpl m h
      · simp at h
        subst h
        decide
    · rw [descendPath_append, ← hp, ← hj, ← hrv]
      rfl
  refine ⟨?_, ?_, fun v2 hv2 hg => ⟨hvisit v2 hv2 hg, hreturned v2 hv2 hg⟩⟩
  · intro r hr
    obtain ⟨v, hv, hg, hrv, hbase, hreach, _⟩ := mem_FindGitRepos fs root E r hr
    obtain ⟨_, hne, hclean⟩ :=
      Dir_within v.path (reached_git_form root v.path hroot hreach hbase) hbase
    exact ⟨v, hv, hg, hrv, by rw [hclean, hrv]; exact hne⟩
  · intro r hr v2 hv2 hg heq
    obtain ⟨_, _, hnamed, hreach, _, _⟩ := FindGitRepos_spec fs root E
    have hbase2 : basename v2.path = ".git" := by
      rw [← hnamed v2 hv2 ⟨".git", true⟩ hg.2]
    obtain ⟨_, _, hclean2⟩ :=
      Dir_within v2.path (reached_git_form root v2.path hroot (hreach v2 hv2) hbase2) hbase2
    obtain ⟨v, hv, _, hrv, hbase, hreachv, _⟩ := mem_FindGitRepos fs root E r hr
    have hj := Join_Dir v.path (reached_git_form root v.path hroot hreachv hbase) hbase
    apply hvisit v2 hv2 hg v hv
    refine ⟨[".git"], by simp, by simp; decide, ?_⟩
    rw [← hj, ← hrv, heq, hclean2]
    rfl

/-- The parent of a `.git` directory in the tree with the repositories `app`
and `vendor/lib`. -/
theorem FindGitRepos_returns_parent_sample :
    ∃ v ∈ visited treeTwoRepos "/r" [],
      v.IsGitDir ∧ "/r/vendor/lib" = Dir v.path ∧ "/r/vendor/lib" ≠ Clean v.path :=
  (FindGitRepos_returns_parent treeTwoRepos "/r" [] (by decide) (Or.inl (by decide))).1
    "/r/vendor/lib" (by decide)

/-! ## Completeness of the discovery (C2) -/

theorem logOutcome_visit (E : List String) (path : String) (node : Node) :
    LogOutcome (visitLog E path node) (visitRet E path node) ∧
    InfoNamed (visitLog E path node) := by
  obtain ⟨L, r, hL, hout, hnamed, _⟩ := visit_shape E path node [] []
  rw [visit_uniform] at hL
  simp only [List.nil_append, Prod.mk.injEq] at hL
  obtain ⟨⟨_, h1⟩, h2⟩ := hL
  rw [h1, h2]
  exact ⟨hout, hnamed⟩

mutual
theorem readable_err_none (E : List String) (path : String) :
    ∀ (node : Node), node.readable = true → ∀ v ∈ visitLog E path node, v.err = none
  | .dir es, hr, v, hv => by
    rcases visitLog_dir_mem E path es v hv with h | ⟨_, h⟩
    · subst h; rfl
    · exact readable_entries_err_none E path es (by simpa [Node.readable] using hr) v h
  | .file, _, v, hv => by
    rw [(visitLog_leaf E path).1] at hv
    simp at hv
    subst hv
    rfl
  | .unreadable e, hr, _, _ => by simp [Node.readable] at hr
  | .lstatFails e, hr, _, _ => by simp [Node.readable] at hr
theorem readable_entries_err_none (E : List String) (path : String) :
    ∀ (es : Entries), es.readable = true → ∀ v ∈ entriesLog E path es, v.err = none
  | .nil, _, v, hv => by simp [entriesLog, visitEntries] at hv
  | .cons name node rest, hr, v, hv => by
    simp only [Entries.readable, Bool.and_eq_true] at hr
    rcases entriesLog_cons_mem E path name node rest v hv with h | ⟨_, h⟩
    · exact readable_err_none E (Join path name) node hr.1 v h
    · exact readable_entries_err_none E path rest hr.2 v h
end

theorem returned_okRec (E : List String) (path : String) (isDir : Bool)
    (hex : ∀ e ∈ E, ¬ Contains path e) :
    (isDir = false ∨ basename path ≠ ".git" →
      returned E (okRec path isDir) = none ∧ added E (okRec path isDir) = []) ∧
    (isDir = true → basename path = ".git" →
      returned E (okRec path isDir) = some GoError.SkipDir ∧
      added E (okRec path isDir) = [Dir path]) := by
  have hany : ¬ (E.any (fun dir => decide (Contains path dir)) = true) := by
    simp only [List.any_eq_true, decide_eq_true_eq, not_exists, not_and]
    exact hex
  unfold returned added findWalkFn okRec
  simp only [if_neg hany]
  constructor
  · intro h
    rcases h with h | h
    · subst h; simp
    · simp [h]
  · intro h1 h2
    subst h1
    simp [h2]

theorem continues_of_readable (E : List String) (path : String) (node : Node)
    (hr : node.readable = true) (hfile : NoExcludedFile E (visitLog E path node)) :
    continues node (visitRet E path node) = true := by
  cases node with
  | file =>
    obtain ⟨h1, h2⟩ := visitLog_leaf E path
    rw [h2]
    have hex := hfile (okRec path false) (by rw [h1]; simp) rfl
    rw [((returned_okRec E path false hex).1 (Or.inl rfl)).1]
    rfl
  | unreadable e => simp [Node.readable] at hr
  | lstatFails e => simp [Node.readable] at hr
  | dir es =>
    have herr := readable_err_none E path (.dir es) hr
    rcases (logOutcome_visit E path (.dir es)).1 with ⟨h, _⟩ | ⟨e, _, v, hv, hve⟩
    · rcases h with h | h <;> rw [h] <;> rfl
    · rw [herr v hv] at hve
      simp at hve

theorem NoExcludedFile_sub (E : List String) (L1 L2 : List VisitRec)
    (h : ∀ v ∈ L1, v ∈ L2) (h2 : NoExcludedFile E L2) : NoExcludedFile E L1 :=
  fun v hv => h2 v (h v hv)

theorem entries_reach (E : List String) (path m : String) (child : Node) :
    ∀ (es : Entries), es.wf = true → es.readable = true →
      NoExcludedFile E (entriesLog E path es) → es.find m = some child →
      (∀ v ∈ visitLog E (Join path m) child, v ∈ entriesLog E path es) ∧
        child.wf = true ∧ child.readable = true ∧ PlainName m
  | .nil, _, _, _, hf => by simp [Entries.find] at hf
  | .cons name node rest, hwf, hr, hfile, hf => by
    obtain ⟨hn, _, hnode, hrest⟩ := Entries.wf_cons hwf
    simp only [Entries.readable, Bool.and_eq_true] at hr
    have hlog := (entriesLog_cons E path name node rest).1
    have hsub1 : ∀ v ∈ visitLog E (Join path name) node,
        v ∈ entriesLog E path (.cons name node rest) := by
      intro v hv
      rw [hlog]
      exact List.mem_append_left _ hv
    simp only [Entries.find] at hf
    by_cases hnm : name = m
    · rw [if_pos hnm] at hf
      simp only [Option.some.injEq] at hf
      subst hf
      subst hnm
      exact ⟨hsub1, hnode, hr.1, hn⟩
    · rw [if_neg hnm] at hf
      have hcont := continues_of_readable E (Join path name) node hr.1
        (NoExcludedFile_sub E _ _ hsub1 hfile)
      have hsub2 : ∀ v ∈ entriesLog E path rest,
          v ∈ entriesLog E path (.cons name node rest) := by
        intro v hv
        rw [hlog, if_pos hcont]
        exact List.mem_append_right _ hv
      obtain ⟨h1, h2, h3, h4⟩ := entries_reach E path m child rest hrest hr.2
        (NoExcludedFile_sub E _ _ hsub2 hfile) hf
      exact ⟨fun v hv => hsub2 v (h1 v hv), h2, h3, h4⟩

theorem basename_Join (path m : String) (hm : PlainName m) : basename (Join path m) = m := by
  have h := (Join_plain path m hm).1
  have h2 : Join path m = ⟨renderPath (rootedC path.data) (stackC path.data ++ [m.data])⟩ :=
    String.ext h
  rw [h2, basename_render_snoc _ _ _ hm.2.2.2 hm.1]

theorem visitLog_dir_head (E : List String) (path : String) (es : Entries) :
    okRec path true ∈ visitLog E path (.dir es) := by
  by_cases hr : returned E (okRec path true) = none
  · rw [(visitLog_dir_enter E path es hr).1]; simp
  · rw [(visitLog_dir_skip E path es hr).1]; simp

theorem complete_aux (E : List String) (es1 g : Entries) (hgit : es1.find ".git" = some (.dir g)) :
    ∀ (ms : List String) (path : String) (node : Node),
      node.wf = true → node.readable = true → NoExcludedFile E (visitLog E path node) →
      node.descend ms = some (.dir es1) →
      (∀ k, k ≤ ms.length → ∀ e ∈ E, ¬ Contains (descendPath path (ms.take k)) e) →
      (∀ e ∈ E, ¬ Contains (descendPath path (ms ++ [".git"])) e) →
      basename path ≠ ".git" → ".git" ∉ ms →
      okRec (descendPath path (ms ++ [".git"])) true ∈ visitLog E path node := by
  intro ms
  induction ms with
  | nil =>
    intro path node hwf hr hfile hdesc hanc _ hbase _
    simp only [Node.descend, Option.some.injEq] at hdesc
    subst hdesc
    have hret := ((returned_okRec E path true (hanc 0 (by simp))).1 (Or.inr hbase)).1
    have hlog := (visitLog_dir_enter E path es1 hret).1
    have hsub : ∀ v ∈ entriesLog E path es1, v ∈ visitLog E path (.dir es1) := by
      intro v hv
      rw [hlog]
      exact List.mem_cons_of_mem _ hv
    obtain ⟨h1, _, _, _⟩ := entries_reach E path ".git" (.dir g) es1 hwf
      (by simpa [Node.readable] using hr) (NoExcludedFile_sub E _ _ hsub hfile) hgit
    exact hsub _ (h1 _ (visitLog_dir_head E (Join path ".git") g))
  | cons m ms ih =>
    intro path node hwf hr hfile hdesc hanc hgitpath hbase hnotin
    cases node with
    | file => simp [Node.descend] at hdesc
    | unreadable e => simp [Node.descend] at hdesc
    | lstatFails e => simp [Node.descend] at hdesc
    | dir es =>
      simp only [Node.descend] at hdesc
      cases hfind : es.find m with
      | none => simp [hfind] at hdesc
      | some child =>
        simp only [hfind] at hdesc
        have hret := ((returned_okRec E path true (hanc 0 (by simp))).1 (Or.inr hbase)).1
        have hlog := (visitLog_dir_enter E path es hret).1
        have hsub : ∀ v ∈ entriesLog E path es, v ∈ visitLog E path (.dir es) := by
          intro v hv
          rw [hlog]
          exact List.mem_cons_of_mem _ hv
        obtain ⟨h1, hcwf, hcr, hpm⟩ := entries_reach E path m child es hwf
          (by simpa [Node.readable] using hr) (NoExcludedFile_sub E _ _ hsub hfile) hfind
        have hmne : m ≠ ".git" := fun h => hnotin (by simp [h])
        have := ih (Join path m) child hcwf hcr
          (NoExcludedFile_sub E _ _ (fun v hv => hsub v (h1 v hv)) hfile) hdesc
          (fun k hk e he => by
            have := hanc (k + 1) (by simp; omega) e he
            simpa [descendPath_cons] using this)
          (fun e he => by
            have := hgitpath e he
            simpa [descendPath_cons] using this)
          (by rw [basename_Join path m hpm]; exact hmne)
          (fun h => hnotin (by simp [h]))
        exact hsub _ (h1 _ (by simpa [descendPath_cons] using this))

theorem added_cases (E : List String) (v : VisitRec) :
    added E v = [] ∨ added E v = [Dir v.path] := by
  unfold added findWalkFn
  cases v.err with
  | some e => simp
  | none =>
    simp only
    split
    · simp
    · cases v.info with
      | none => simp
      | some i =>
        simp only
        split <;> simp

theorem flatten_added_nodup (E : List String) :
    ∀ (L : List VisitRec), (L.map VisitRec.path).Nodup →
      (∀ v1 ∈ L, ∀ v2 ∈ L, ∀ r, r ∈ added E v1 → r ∈ added E v2 → v1.path = v2.path) →
      ((L.map (added E)).flatten).Nodup := by
  intro L
  induction L with
  | nil => intro _ _; simp
  | cons v L ih =>
    intro hnd hinj
    simp only [List.map_cons, List.nodup_cons] at hnd
    simp only [List.map_cons, List.flatten_cons, List.nodup_append]
    refine ⟨?_, ih hnd.2 (fun v1 h1 v2 h2 => hinj v1 (by simp [h1]) v2 (by simp [h2])), ?_⟩
    · rcases added_cases E v with h | h <;> rw [h] <;> simp
    · intro r hr1 hr2
      obtain ⟨l, hl, hrl⟩ := List.mem_flatten.mp hr2
      obtain ⟨v2, hv2, e2⟩ := List.mem_map.mp hl
      subst e2
      have := hinj v (by simp) v2 (by simp [hv2]) r hr1 hrl
      exact hnd.1 (List.mem_map.mpr ⟨v2, hv2, this.symm⟩)

/-- Without an I/O error, and when the root is not itself named `.git`,
`FindGitRepos` returns no path twice. -/
theorem FindGitRepos_nodup (fs : Node) (root : String) (E : List String)
    (hwf : fs.wf = true) (hroot : basename root ≠ ".git") :
    (((visited fs root E).map (added E)).flatten).Nodup := by
  obtain ⟨_, _, hnamed, hreach, _, _⟩ := FindGitRepos_spec fs root E
  refine flatten_added_nodup E _ ?_ ?_
  · rw [visited_eq_visitLog]
    exact visitLog_paths_nodup E root fs hwf
  · intro v1 h1 v2 h2 r hr1 hr2
    obtain ⟨_, _, ⟨i1, hi1, _, hn1⟩, hd1, _⟩ := mem_added E v1 r hr1
    obtain ⟨_, _, ⟨i2, hi2, _, hn2⟩, hd2, _⟩ := mem_added E v2 r hr2
    have hb1 : basename v1.path = ".git" := by rw [← hnamed v1 h1 i1 hi1, hn1]
    have hb2 : basename v2.path = ".git" := by rw [← hnamed v2 h2 i2 hi2, hn2]
    have j1 := Join_Dir v1.path
      (reached_git_form root v1.path (Or.inl hroot) (hreach v1 h1) hb1) hb1
    have j2 := Join_Dir v2.path
      (reached_git_form root v2.path (Or.inl hroot) (hreach v2 h2) hb2) hb2
    rw [← j1, ← j2, ← hd1, ← hd2]

theorem Dir_Join_git (p : String) : Dir (Join p ".git") = Clean p := by
  apply String.ext
  have hj := (Join_plain p ".git" (by decide)).1
  have hj2 : Join p ".git" = ⟨renderPath (rootedC p.data) (stackC p.data ++ [".git".data])⟩ :=
    String.ext hj
  rw [hj2, Dir_render_snoc]
  · show _ = cleanChars p.data
    by_cases hp : p.data = []
    · rw [hp]; rfl
    · rw [cleanChars_eq _ hp]
  · simp only [List.reverse_append, List.reverse_cons, List.reverse_nil, List.nil_append,
      List.singleton_append]
    exact ⟨Or.inl (by decide), stackC_ok p.data⟩

/-- A non-directory with an excluded path ends the walk of its directory: the
repository `b`, which sorts after the excluded file `a_skip`, is lost. -/
theorem excluded_file_hides_later_entries :
    FindGitRepos treeFileThenRepo "/r" [] = (["/r/b"], none) ∧
    FindGitRepos treeFileThenRepo "/r" ["skip"] = ([], none) := by
  decide

theorem run_eol_lit (text : List Char) (c : Char) (X : Regex) (hc : c ≠ '\n') (i : Nat)
    (cap : Option (Nat × Nat)) :
    (Regex.seq .eol (.seq (.lit c) X)).run text i cap = [] := by
  simp only [Regex.run]
  split
  · rename_i h
    simp only [List.flatMap_cons, List.flatMap_nil, List.append_nil]
    have hget : ¬ text.get? i = some c := by
      rcases h with h | h
      · rw [h, List.get?_eq_none.mpr (le_refl _)]
        simp
      · rw [h]
        intro heq
        exact hc (Option.some.inj heq).symm
    rw [if_neg hget]
    rfl
  · rfl

theorem run_seq_nil (text : List Char) (a b : Regex)
    (h : ∀ j c, b.run text j c = []) (i : Nat) (cap : Option (Nat × Nat)) :
    (Regex.seq a b).run text i cap = [] := by
  rw [Regex.run]
  induction a.run text i cap with
  | nil => rfl
  | cons st l ih => rw [List.flatMap_cons, h, ih]; rfl

theorem repoNamePattern_never_matches (text : List Char) (i : Nat) (cap : Option (Nat × Nat)) :
    repoNamePattern.run text i cap = [] :=
  run_seq_nil text _ _ (run_seq_nil text _ _ (run_eol_lit text 'r' _ (by decide))) i cap

theorem findFrom_nil (re : Regex) (text : List Char)
    (h : ∀ i cap, re.run text i cap = []) : ∀ fuel start, findFrom re text fuel start = [] := by
  intro fuel
  induction fuel with
  | zero => intro start; rfl
  | succ n ih =>
    intro start
    simp only [findFrom, h]
    exact ih _

/-- The sample expression matches a configuration line and captures the name. -/
theorem urlTailPattern_matches :
    FindStringSubmatch urlTailPattern "x\nurl = git@h:a/b/repo.git\n" =
      ["url = git@h:a/b/repo.git", "repo"] := by decide

/-- C18: the expression of `GetRepoName` matches no text (it asks for the end
of a line immediately before the letter `r`), so for every path and every
state and content of `.git/config` the result is `filepath.Base(path)`. -/
theorem C18_repo_name_is_base (config : String → ConfigFile) (path : String) :
    GetRepoName config path = Base path ∧
    ∀ text : String, FindStringSubmatch repoNamePattern text = [] := by
  have hnil : ∀ text : String, FindStringSubmatch repoNamePattern text = [] :=
    fun text => findFrom_nil _ _ (repoNamePattern_never_matches text.data) _ _
  refine ⟨?_, hnil⟩
  unfold GetRepoName
  have hname : (match config (Join (Join path ".git") "config") with
      | .content data =>
        match FindStringSubmatch repoNamePattern data with
        | _ :: name :: _ => name
        | _ => ""
      | _ => "") = "" := by
    split
    · rw [hnil]
    · rfl
  simp only [hname, if_true]

/-! ## Branch views (C11 to C13) -/

theorem ne_detached_wrap (b : String) : b ≠ "(detached from " ++ b ++ ")" := by
  intro h
  have hlen := congrArg String.length h
  simp only [String.length_append] at hlen
  have h15 : "(detached from ".length = 15 := by decide
  have h1 : ")".length = 1 := by decide
  omega

theorem currentBranchColor_yellow_iff (b : String) :
    currentBranchColor b = .yellow ↔ b = "HEAD" := by
  unfold currentBranchColor
  constructor
  · intro h
    by_contra hne
    rw [if_neg] at h
    · exact absurd h (by decide)
    · rintro (h1 | h2)
      · exact hne h1
      · exact ne_detached_wrap b h2
  · intro h
    rw [if_pos (Or.inl h)]

theorem simpleBranchColor_yellow_iff (b : String) :
    simpleBranchColor b = .yellow ↔ summaryDetached b = true := by
  unfold simpleBranchColor summaryDetached
  by_cases h : b = "HEAD" ∨ HasPrefix b "(detached from" = true
  · simp [h]
  · simp [h]

/-- C13: the three branch views do not agree on detached heads. For the
branch string `(detached from abc123)` the default view picks the colour of an
ordinary branch while the simple view and the summary treat it as detached; the
default view marks a string as detached exactly when it is `HEAD`, because its
second test compares the string with a longer string built from itself, while
the simple view and the summary apply the same test to every string. -/
theorem C13_default_view_misses_detached :
    currentBranchColor "(detached from abc123)" = .green ∧
    simpleBranchColor "(detached from abc123)" = .yellow ∧
    summaryDetached "(detached from abc123)" = true ∧
    (∀ b : String, currentBranchColor b = .yellow ↔ b = "HEAD") ∧
    (∀ b : String, simpleBranchColor b = .yellow ↔ summaryDetached b = true) :=
  ⟨by decide, by decide, by decide, currentBranchColor_yellow_iff, simpleBranchColor_yellow_iff⟩

/-- C11: for a clean repository on `main` followed by a repository with a
detached HEAD and a modified file, the summary counts the first under `main`
and lists the second as detached, and its list of uncommitted changes stays
empty although `IsDirty` is true for the second repository. -/
theorem C11_detached_dirty_not_recorded :
    (GetCurrentBranch gitCleanMainDirtyDetached "/w/B" []).1 = ("HEAD", none) ∧
    (IsDirty gitCleanMainDirtyDetached "/w/B" []).1 = true ∧
    (outputBranchSummary gitCleanMainDirtyDetached (fun _ => .absent) ["/w/A", "/w/B"]).1 =
      ⟨[("main", 1)], ["B"], [], []⟩ := by decide

theorem outputBranchSummary_snoc (git : Git) (config : String → ConfigFile)
    (repos : List String) (r : String) :
    outputBranchSummary git config (repos ++ [r]) =
      summaryStep git config (outputBranchSummary git config repos) r := by
  simp [outputBranchSummary, List.foldl_append]

theorem getD_snoc_lt (repos : List String) (r : String) (i : Nat) (h : i < repos.length) :
    (repos ++ [r]).getD i "" = repos.getD i "" := by
  rw [List.getD_eq_getElem?_getD, List.getD_eq_getElem?_getD, List.getElem?_append_left h]

theorem getD_snoc_last (repos : List String) (r : String) :
    (repos ++ [r]).getD repos.length "" = r := by
  rw [List.getD_eq_getElem?_getD]
  simp

theorem summaryTrace_snoc (git : Git) (config : String → ConfigFile)
    (repos : List String) (r : String) (i : Nat) (h : i ≤ repos.length) :
    summaryTrace git config (repos ++ [r]) i = summaryTrace git config repos i := by
  unfold summaryTrace
  rw [List.take_append_of_le_length h]

theorem summaryTrace_length (git : Git) (config : String → ConfigFile) (repos : List String) :
    summaryTrace git config repos repos.length = (outputBranchSummary git config repos).2 := by
  unfold summaryTrace
  rw [List.take_length]

theorem classAt_snoc_lt (git : Git) (config : String → ConfigFile)
    (repos : List String) (r : String) (i : Nat) (h : i < repos.length) :
    classAt git config (repos ++ [r]) i = classAt git config repos i := by
  unfold classAt
  rw [getD_snoc_lt repos r i h, summaryTrace_snoc git config repos r i (le_of_lt h)]

theorem dirtyAt_snoc_lt (git : Git) (config : String → ConfigFile)
    (repos : List String) (r : String) (i : Nat) (h : i < repos.length) :
    dirtyAt git config (repos ++ [r]) i = dirtyAt git config repos i := by
  unfold dirtyAt
  rw [getD_snoc_lt repos r i h, summaryTrace_snoc git config repos r i (le_of_lt h)]

theorem classAt_snoc_last (git : Git) (config : String → ConfigFile)
    (repos : List String) (r : String) :
    classAt git config (repos ++ [r]) repos.length =
      match (GetCurrentBranch git r (outputBranchSummary git config repos).2).1 with
      | (_, some _) => .failed
      | (branch, none) => if summaryDetached branch then .detached else .onBranch branch := by
  unfold classAt
  rw [getD_snoc_last, summaryTrace_snoc git config repos r _ (le_refl _), summaryTrace_length]

theorem dirtyAt_snoc_last (git : Git) (config : String → ConfigFile)
    (repos : List String) (r : String) :
    dirtyAt git config (repos ++ [r]) repos.length =
      (IsDirty git r (GetCurrentBranch git r (outputBranchSummary git config repos).2).2).1 := by
  unfold dirtyAt
  rw [getD_snoc_last, summaryTrace_snoc git config repos r _ (le_refl _), summaryTrace_length]

theorem filter_range_snoc (n : Nat) (p q : Nat → Bool) (h : ∀ i, i < n → p i = q i) :
    (List.range (n + 1)).filter p = (List.range n).filter q ++ (if p n then [n] else []) := by
  rw [List.range_succ, List.filter_append]
  congr 1
  · apply List.filter_congr
    intro i hi
    exact h i (List.mem_range.mp hi)
  · by_cases hp : p n <;> simp [hp]

theorem namesWhere_snoc (config : String → ConfigFile) (repos : List String) (r : String)
    (p q : Nat → Bool) (h : ∀ i, i < repos.length → p i = q i) :
    namesWhere config (repos ++ [r]) p =
      namesWhere config repos q ++ (if p repos.length then [GetRepoName config r] else []) := by
  unfold namesWhere
  rw [List.length_append, List.length_singleton, filter_range_snoc _ p q h, List.map_append]
  congr 1
  · apply List.map_congr_left
    intro i hi
    rw [getD_snoc_lt repos r i (List.mem_range.mp (List.mem_filter.mp hi).1)]
  · by_cases hp : p repos.length
    · simp [hp, getD_snoc_last]
    · simp [hp]

theorem countOf_countIncr (m : List (String × Nat)) (k b : String) :
    countOf (countIncr m k) b = countOf m b + (if k = b then 1 else 0) := by
  induction m with
  | nil => simp [countIncr, countOf]
  | cons kv rest ih =>
    obtain ⟨k0, n⟩ := kv
    by_cases h : k0 = k
    · subst h
      by_cases hb : k0 = b
      · simp [countIncr, countOf, hb]
      · simp [countIncr, countOf, hb]
    · by_cases hb : k0 = b
      · subst hb
        have hk : ¬ k = k0 := fun e => h e.symm
        simp [countIncr, countOf, h, hk]
      · simp [countIncr, countOf, h, hb, ih]

theorem sum_countIncr (m : List (String × Nat)) (k : String) :
    ((countIncr m k).map Prod.snd).sum = (m.map Prod.snd).sum + 1 := by
  induction m with
  | nil => simp [countIncr]
  | cons kv rest ih =>
    obtain ⟨k0, n⟩ := kv
    by_cases h : k0 = k
    · simp [countIncr, h]; omega
    · simp [countIncr, h, ih]; omega

theorem keys_countIncr (m : List (String × Nat)) (k : String) :
    (countIncr m k).map Prod.fst =
      if k ∈ m.map Prod.fst then m.map Prod.fst else m.map Prod.fst ++ [k] := by
  induction m with
  | nil => simp [countIncr]
  | cons kv rest ih =>
    obtain ⟨k0, n⟩ := kv
    by_cases h : k0 = k
    · simp [countIncr, h]
    · have hk : ¬ k = k0 := fun e => h e.symm
      simp only [countIncr, h, if_false, List.map_cons, ih, List.mem_cons, hk, false_or]
      by_cases hm : k ∈ rest.map Prod.fst
      · simp [hm]
      · simp [hm]

theorem nodup_countIncr (m : List (String × Nat)) (k : String)
    (h : (m.map Prod.fst).Nodup) : ((countIncr m k).map Prod.fst).Nodup := by
  rw [keys_countIncr]
  by_cases hm : k ∈ m.map Prod.fst
  · rw [if_pos hm]; exact h
  · rw [if_neg hm]
    exact List.Nodup.append h (List.nodup_singleton k) (by
      intro a ha hb
      rw [List.mem_singleton] at hb
      exact hm (hb ▸ ha))
theorem outputBranchSummary_spec (git : Git) (config : String → ConfigFile)
    (repos : List String) :
    (outputBranchSummary git config repos).1.errorRepos =
      namesWhere config repos (fun i => decide (classAt git config repos i = .failed)) ∧
    (outputBranchSummary git config repos).1.detachedRepos =
      namesWhere config repos (fun i => decide (classAt git config repos i = .detached)) ∧
    (outputBranchSummary git config repos).1.dirtyRepos =
      namesWhere config repos
        (fun i => (classAt git config repos i).isBranch && dirtyAt git config repos i) ∧
    (∀ b : String, countOf (outputBranchSummary git config repos).1.branchCount b =
      ((List.range repos.length).filter
        (fun i => decide (classAt git config repos i = .onBranch b))).length) ∧
    ((outputBranchSummary git config repos).1.branchCount.map Prod.snd).sum +
      (outputBranchSummary git config repos).1.detachedRepos.length +
      (outputBranchSummary git config repos).1.errorRepos.length = repos.length ∧
    ((outputBranchSummary git config repos).1.branchCount.map Prod.fst).Nodup := by
  induction repos using List.reverseRecOn with
  | nil =>
    simp [outputBranchSummary, namesWhere, countOf]
  | append_singleton repos r ih =>
    obtain ⟨hE, hD, hY, hC, hS, hN⟩ := ih
    have hlast := classAt_snoc_last git config repos r
    have hdlast := dirtyAt_snoc_last git config repos r
    have hcl : ∀ (c : RepoClass) (i : Nat), i < repos.length →
        decide (classAt git config (repos ++ [r]) i = c) =
          decide (classAt git config repos i = c) := by
      intro c i hi
      rw [classAt_snoc_lt git config repos r i hi]
    have hdl : ∀ i : Nat, i < repos.length →
        ((classAt git config (repos ++ [r]) i).isBranch && dirtyAt git config (repos ++ [r]) i) =
          ((classAt git config repos i).isBranch && dirtyAt git config repos i) := by
      intro i hi
      rw [classAt_snoc_lt git config repos r i hi, dirtyAt_snoc_lt git config repos r i hi]
    rw [namesWhere_snoc config repos r _ _ (hcl .failed),
      namesWhere_snoc config repos r _ _ (hcl .detached),
      namesWhere_snoc config repos r _ _ hdl]
    have hcount : ∀ b : String,
        ((List.range (repos ++ [r]).length).filter
          (fun i => decide (classAt git config (repos ++ [r]) i = .onBranch b))).length =
        ((List.range repos.length).filter
          (fun i => decide (classAt git config repos i = .onBranch b))).length +
          (if classAt git config (repos ++ [r]) repos.length = .onBranch b then 1 else 0) := by
      intro b
      rw [List.length_append, List.length_singleton,
        filter_range_snoc _ _ _ (hcl (.onBranch b)), List.length_append]
      congr 1
      by_cases hp : classAt git config (repos ++ [r]) repos.length = .onBranch b
      · simp [hp]
      · simp [hp]
    have hib : ∀ b : String, (RepoClass.onBranch b).isBranch = true := fun _ => rfl
    have hif : RepoClass.failed.isBranch = false := rfl
    have hid : RepoClass.detached.isBranch = false := rfl
    simp only [hcount]
    rw [outputBranchSummary_snoc, List.length_append, List.length_singleton]
    unfold summaryStep
    rcases hq : GetCurrentBranch git r (outputBranchSummary git config repos).2 with ⟨⟨branch, e⟩, tr1⟩
    rw [hq] at hlast hdlast
    cases e with
    | some err =>
      simp only at hlast
      simp only [hlast, hif, Bool.false_and, decide_True, decide_False, if_true,
        if_false, List.append_nil, reduceCtorEq, Bool.false_eq_true, add_zero]
      refine ⟨by rw [hE], hD, hY, hC, ?_, hN⟩
      rw [List.length_append, List.length_singleton]
      omega
    | none =>
      simp only at hlast
      by_cases hdet : summaryDetached branch = true
      · rw [if_pos hdet] at hlast
        simp only [hdet, if_true, hlast, hid, Bool.false_and, decide_True,
          decide_False, if_false, List.append_nil, reduceCtorEq, Bool.false_eq_true, add_zero]
        refine ⟨hE, by rw [hD], hY, hC, ?_, hN⟩
        rw [List.length_append, List.length_singleton]
        omega
      · rw [if_neg hdet] at hlast
        simp only [hdet, if_false, hlast]
        rcases hdq : IsDirty git r tr1 with ⟨d, tr2⟩
        rw [hdq] at hdlast
        simp only at hdlast
        cases d with
        | true =>
          simp only [hdlast, hib, Bool.and_self, if_true, reduceCtorEq,
            decide_False, if_false, List.append_nil, Bool.false_eq_true]
          refine ⟨hE, hD, by rw [hY], ?_, ?_, nodup_countIncr _ _ hN⟩
          · intro b
            rw [countOf_countIncr, hC b]
            congr 1
            by_cases hb : branch = b
            · simp [hb]
            · simp [hb]
          · rw [sum_countIncr]
            omega
        | false =>
          simp only [hdlast, hib, Bool.and_false, if_true, reduceCtorEq,
            decide_False, if_false, List.append_nil, Bool.false_eq_true]
          refine ⟨hE, hD, hY, ?_, ?_, nodup_countIncr _ _ hN⟩
          · intro b
            rw [countOf_countIncr, hC b]
            congr 1
            by_cases hb : branch = b
            · simp [hb]
            · simp [hb]
          · rw [sum_countIncr]
            omega
theorem classAt_failed_iff (git : Git) (config : String → ConfigFile) (repos : List String)
    (i : Nat) :
    classAt git config repos i = .failed ↔
      (GetCurrentBranch git (repos.getD i "") (summaryTrace git config repos i)).1.2 ≠ none := by
  unfold classAt
  rcases (GetCurrentBranch git (repos.getD i "") (summaryTrace git config repos i)).1 with ⟨b, e⟩
  cases e with
  | some err => simp
  | none =>
    by_cases hd : summaryDetached b = true
    · simp [hd]
    · simp [hd]

/-- C12: for every repository list and every behaviour of the git tool, the
summary files each position of the list in exactly one class (failed query,
detached, or on a branch). The error list is the names of the positions whose
current-branch query fails, the detached list the names of the detached
positions, the dirty list the names of the positions on a branch whose tree is
dirty, each in the order of the list; the count of a branch in the histogram is
the number of positions on that branch; the keys of the histogram are distinct;
and the counts, the detached positions and the failed positions add up to the
number of repositories. -/
theorem C12_summary_partition (git : Git) (config : String → ConfigFile)
    (repos : List String) :
    (∀ i : Nat, classAt git config repos i = .failed ↔
      (GetCurrentBranch git (repos.getD i "") (summaryTrace git config repos i)).1.2 ≠ none) ∧
    (outputBranchSummary git config repos).1.errorRepos =
      namesWhere config repos (fun i => decide (classAt git config repos i = .failed)) ∧
    (outputBranchSummary git config repos).1.detachedRepos =
      namesWhere config repos (fun i => decide (classAt git config repos i = .detached)) ∧
    (outputBranchSummary git config repos).1.dirtyRepos =
      namesWhere config repos
        (fun i => (classAt git config repos i).isBranch && dirtyAt git config repos i) ∧
    (∀ b : String, countOf (outputBranchSummary git config repos).1.branchCount b =
      ((List.range repos.length).filter
        (fun i => decide (classAt git config repos i = .onBranch b))).length) ∧
    ((outputBranchSummary git config repos).1.branchCount.map Prod.snd).sum +
      (outputBranchSummary git config repos).1.detachedRepos.length +
      (outputBranchSummary git config repos).1.errorRepos.length = repos.length ∧
    ((outputBranchSummary git config repos).1.branchCount.map Prod.fst).Nodup :=
  ⟨classAt_failed_iff git config repos, outputBranchSummary_spec git config repos⟩

/-! ## Branch status (C14) -/

theorem countLine_foldl (counts : List String) (a b : Nat) :
    counts.foldl countLine (a, b) =
      (a + (counts.filter (fun line => HasPrefix line ">")).length,
        b + (counts.filter (fun line => !HasPrefix line ">" && HasPrefix line "<")).length) := by
  induction counts generalizing a b with
  | nil => simp
  | cons line rest ih =>
    rw [List.foldl_cons]
    by_cases h1 : HasPrefix line ">" = true
    · have hs : countLine (a, b) line = (a + 1, b) := by simp [countLine, h1]
      rw [hs, ih]
      simp only [List.filter_cons, h1, if_true, Bool.not_true, Bool.false_and,
        Bool.false_eq_true, if_false, List.length_cons, Prod.mk.injEq, and_true]
      omega
    · by_cases h2 : HasPrefix line "<" = true
      · have hs : countLine (a, b) line = (a, b + 1) := by simp [countLine, h1, h2]
        rw [hs, ih]
        simp only [Bool.not_eq_true] at h1
        simp only [List.filter_cons, h1, h2, if_true, Bool.not_false, Bool.true_and,
          Bool.false_eq_true, if_false, List.length_cons, Prod.mk.injEq, true_and]
        omega
      · have hs : countLine (a, b) line = (a, b) := by simp [countLine, h1, h2]
        rw [hs, ih]
        simp only [Bool.not_eq_true] at h1 h2
        simp only [List.filter_cons, h1, h2, Bool.not_false, Bool.true_and,
          Bool.false_eq_true, if_false]

/-- Without an upstream (the first query fails) the status is empty. -/
theorem GetBranchStatus_no_upstream (git : Git) (workDir branch : String) (tr : List Cmd)
    (h : (git tr (upstreamCmd workDir branch)).err ≠ none) :
    (GetBranchStatus git workDir branch tr).1 = "" := by
  unfold GetBranchStatus
  cases he : (git tr (upstreamCmd workDir branch)).err with
  | none => exact absurd he h
  | some e => simp only [he]

/-- When both queries succeed, the number after the up arrow is the number of
lines of the `rev-list` output that start with `>` and the number after the
down arrow is the number of lines that start with `<`. -/
theorem GetBranchStatus_counts (git : Git) (workDir branch : String) (tr : List Cmd)
    (h1 : (git tr (upstreamCmd workDir branch)).err = none)
    (h2 : (git (tr ++ [upstreamCmd workDir branch])
      (revListCmd workDir branch (TrimSpace (git tr (upstreamCmd workDir branch)).output))).err
        = none) :
    (GetBranchStatus git workDir branch tr).1 =
      statusText
        ((Split (git (tr ++ [upstreamCmd workDir branch]) (revListCmd workDir branch
          (TrimSpace (git tr (upstreamCmd workDir branch)).output))).output '\n').filter
            (fun line => HasPrefix line ">")).length
        ((Split (git (tr ++ [upstreamCmd workDir branch]) (revListCmd workDir branch
          (TrimSpace (git tr (upstreamCmd workDir branch)).output))).output '\n').filter
            (fun line => !HasPrefix line ">" && HasPrefix line "<")).length := by
  unfold GetBranchStatus
  simp only [h1, h2, countLine_foldl, Nat.zero_add]

/-- C14: for a branch with an upstream whose `rev-list --left-right` output
has two lines marked `<` (commits only on the local branch) and one line
marked `>` (a commit only on the upstream), `GetBranchStatus` reports one
commit ahead and two behind: the two counters are exchanged. -/
theorem C14_ahead_behind_exchanged :
    (GetBranchStatus gitTwoLocalOneUpstream "/w/A" "main" []).1 = "↑1 ↓2" := by decide

/-! ## Raw remote output (C15) -/

theorem keys_mapSet (m : List (String × String)) (k v : String) :
    (mapSet m k v).map Prod.fst =
      if k ∈ m.map Prod.fst then m.map Prod.fst else m.map Prod.fst ++ [k] := by
  induction m with
  | nil => simp [mapSet]
  | cons kv rest ih =>
    obtain ⟨k0, v0⟩ := kv
    by_cases h : k0 = k
    · simp [mapSet, h]
    · have hk : ¬ k = k0 := fun e => h e.symm
      simp only [mapSet, h, if_false, List.map_cons, ih, List.mem_cons, hk, false_or]
      by_cases hm : k ∈ rest.map Prod.fst
      · simp [hm]
      · simp [hm]

theorem nodup_mapSet (m : List (String × String)) (k v : String)
    (h : (m.map Prod.fst).Nodup) : ((mapSet m k v).map Prod.fst).Nodup := by
  rw [keys_mapSet]
  by_cases hm : k ∈ m.map Prod.fst
  · rw [if_pos hm]; exact h
  · rw [if_neg hm]
    exact List.Nodup.append h (List.nodup_singleton k) (by
      intro a ha hb
      rw [List.mem_singleton] at hb
      exact hm (hb ▸ ha))

theorem mapSet_ne_nil (m : List (String × String)) (k v : String) : mapSet m k v ≠ [] := by
  cases m with
  | nil => simp [mapSet]
  | cons kv rest =>
    obtain ⟨k0, v0⟩ := kv
    by_cases h : k0 = k <;> simp [mapSet, h]

theorem remoteUrls_nodup (git : Git) (workDir : String) (names : List String) :
    ∀ (remotes : List (String × String)) (tr : List Cmd), (remotes.map Prod.fst).Nodup →
      ((remoteUrls git workDir names remotes tr).1.1.map Prod.fst).Nodup := by
  induction names with
  | nil => intro remotes tr h; exact h
  | cons name rest ih =>
    intro remotes tr h
    unfold remoteUrls
    cases he : (git tr (getUrlCmd workDir name)).err with
    | some e => simp only [he]; exact List.nodup_nil
    | none =>
      simp only [he]
      exact ih _ _ (nodup_mapSet _ _ _ h)

theorem remoteUrls_ne_nil (git : Git) (workDir : String) (names : List String) :
    ∀ (remotes : List (String × String)) (tr : List Cmd),
      (remoteUrls git workDir names remotes tr).1.2 = none →
      (names ≠ [] ∨ remotes ≠ []) → (remoteUrls git workDir names remotes tr).1.1 ≠ [] := by
  induction names with
  | nil =>
    intro remotes tr _ h
    rcases h with h | h
    · exact absurd rfl h
    · exact h
  | cons name rest ih =>
    intro remotes tr hn _
    unfold remoteUrls at hn ⊢
    cases he : (git tr (getUrlCmd workDir name)).err with
    | some e => simp [he] at hn
    | none =>
      simp only [he] at hn ⊢
      exact ih _ _ hn (Or.inr (mapSet_ne_nil _ _ _))

theorem GetRemoteInfo_nodup (git : Git) (workDir : String) (tr : List Cmd) :
    ((GetRemoteInfo git workDir tr).1.1.map Prod.fst).Nodup := by
  unfold GetRemoteInfo
  cases he : (git tr (remoteCmd workDir)).err with
  | some e => simp only [he]; exact List.nodup_nil
  | none =>
    simp only [he]
    split
    · exact List.nodup_nil
    · exact remoteUrls_nodup git workDir _ _ _ List.nodup_nil

theorem GetRemoteInfo_empty_iff (git : Git) (workDir : String) (tr : List Cmd)
    (h : (GetRemoteInfo git workDir tr).1.2 = none) :
    (GetRemoteInfo git workDir tr).1.1 = [] ↔ Fields (git tr (remoteCmd workDir)).output = [] := by
  unfold GetRemoteInfo at h ⊢
  cases he : (git tr (remoteCmd workDir)).err with
  | some e => simp [he] at h
  | none =>
    simp only [he] at h ⊢
    by_cases hl : (Fields (git tr (remoteCmd workDir)).output).length = 0
    · simp only [hl, if_true, true_iff]
      exact List.length_eq_zero.mp hl
    · simp only [hl, if_false] at h ⊢
      have hne : Fields (git tr (remoteCmd workDir)).output ≠ [] :=
        fun e => hl (List.length_eq_zero.mpr e)
      constructor
      · intro h0
        exact absurd h0 (remoteUrls_ne_nil git workDir _ _ _ h (Or.inl hne))
      · intro h0
        exact absurd h0 hne
theorem outputRawRemoteInfo_cons (git : Git)
    (order : List (String × String) → List (String × String)) (repoPath : String)
    (rest : List String) (tr : List Cmd) :
    (outputRawRemoteInfo git order (repoPath :: rest) tr).1 =
      rawLines order repoPath (GetRemoteInfo git repoPath tr).1 ++
        (outputRawRemoteInfo git order rest (GetRemoteInfo git repoPath tr).2).1 := rfl

/-- C15: in the raw remote output, whatever the git tool answers and in
whatever order the map is ranged over, the lines of a repository are followed
by the output for the remaining repositories, and they are: one line
`<path>: ERROR: <error>` when `GetRemoteInfo` fails; one line
`<path>: NO_REMOTES` when it gives the empty map; and otherwise as many lines
as the map has entries, a rearrangement of the lines `<path>:<name>:<url>` of
its entries. The keys of the map are distinct, and the map is empty exactly
when `git remote` prints no name. -/
theorem C15_raw_remote_lines (git : Git)
    (order : List (String × String) → List (String × String))
    (horder : ∀ m, (order m).Perm m) (repoPath : String) (rest : List String) (tr : List Cmd) :
    ((GetRemoteInfo git repoPath tr).1.1.map Prod.fst).Nodup ∧
    (∀ err, (GetRemoteInfo git repoPath tr).1.2 = some err →
      (outputRawRemoteInfo git order (repoPath :: rest) tr).1 =
        (repoPath ++ ": ERROR: " ++ err.Error) ::
          (outputRawRemoteInfo git order rest (GetRemoteInfo git repoPath tr).2).1) ∧
    ((GetRemoteInfo git repoPath tr).1.2 = none → (GetRemoteInfo git repoPath tr).1.1 = [] →
      (outputRawRemoteInfo git order (repoPath :: rest) tr).1 =
        (repoPath ++ ": NO_REMOTES") ::
          (outputRawRemoteInfo git order rest (GetRemoteInfo git repoPath tr).2).1) ∧
    ((GetRemoteInfo git repoPath tr).1.2 = none →
      ((GetRemoteInfo git repoPath tr).1.1 = [] ↔
        Fields (git tr (remoteCmd repoPath)).output = [])) ∧
    ((GetRemoteInfo git repoPath tr).1.2 = none → (GetRemoteInfo git repoPath tr).1.1 ≠ [] →
      ∃ block : List String,
        (outputRawRemoteInfo git order (repoPath :: rest) tr).1 =
          block ++ (outputRawRemoteInfo git order rest (GetRemoteInfo git repoPath tr).2).1 ∧
        block.length = (GetRemoteInfo git repoPath tr).1.1.length ∧
        block.Perm ((GetRemoteInfo git repoPath tr).1.1.map
          (fun kv => repoPath ++ ":" ++ kv.1 ++ ":" ++ kv.2))) := by
  refine ⟨GetRemoteInfo_nodup git repoPath tr, ?_, ?_, GetRemoteInfo_empty_iff git repoPath tr, ?_⟩
  · intro err he
    rw [outputRawRemoteInfo_cons]
    rcases hq : (GetRemoteInfo git repoPath tr).1 with ⟨remotes, e⟩
    rw [hq] at he
    simp only at he
    subst he
    rfl
  · intro he hm
    rw [outputRawRemoteInfo_cons]
    rcases hq : (GetRemoteInfo git repoPath tr).1 with ⟨remotes, e⟩
    rw [hq] at he hm
    simp only at he hm
    subst he
    subst hm
    rfl
  · intro he hm
    rw [outputRawRemoteInfo_cons]
    rcases hq : (GetRemoteInfo git repoPath tr).1 with ⟨remotes, e⟩
    rw [hq] at he hm
    simp only at he hm
    subst he
    have hlen : ¬ remotes.length = 0 := fun h0 => hm (List.length_eq_zero.mp h0)
    refine ⟨(order remotes).map (fun kv => repoPath ++ ":" ++ kv.1 ++ ":" ++ kv.2), ?_, ?_, ?_⟩
    · simp only [rawLines, hlen, if_false]
    · rw [List.length_map]
      exact (horder remotes).length_eq
    · exact (horder remotes).map _

theorem C15_raw_remote_lines_witness :
    (outputRawRemoteInfo gitThreeRemotes id ["/w/C", "/w/A", "/w/B"] []).1 =
        "/w/C: ERROR: 获取远程列表失败: exit status 128" ::
          (outputRawRemoteInfo gitThreeRemotes id ["/w/A", "/w/B"]
            (GetRemoteInfo gitThreeRemotes "/w/C" []).2).1 ∧
    (outputRawRemoteInfo gitThreeRemotes id ["/w/A", "/w/B"] []).1 =
        "/w/A: NO_REMOTES" ::
          (outputRawRemoteInfo gitThreeRemotes id ["/w/B"]
            (GetRemoteInfo gitThreeRemotes "/w/A" []).2).1 ∧
    ∃ block : List String,
      (outputRawRemoteInfo gitThreeRemotes id ["/w/B"] []).1 =
        block ++ (outputRawRemoteInfo gitThreeRemotes id []
          (GetRemoteInfo gitThreeRemotes "/w/B" []).2).1 ∧
      block.length = 2 ∧
      block.Perm ["/w/B:origin:https://h/origin.git", "/w/B:fork:https://h/fork.git"] :=
  ⟨(C15_raw_remote_lines gitThreeRemotes id (fun m => List.Perm.refl m) "/w/C"
      ["/w/A", "/w/B"] []).2.1 (.errorf "获取远程列表失败: " (.os "exit status 128") "") (by decide),
    (C15_raw_remote_lines gitThreeRemotes id (fun m => List.Perm.refl m) "/w/A"
      ["/w/B"] []).2.2.1 (by decide) (by decide),
    (C15_raw_remote_lines gitThreeRemotes id (fun m => List.Perm.refl m) "/w/B"
      [] []).2.2.2.2 (by decide) (by decide)⟩

/-- The raw output for the three sample repositories. -/
theorem outputRawRemoteInfo_sample :
    (outputRawRemoteInfo gitThreeRemotes id ["/w/C", "/w/A", "/w/B"] []).1 =
      ["/w/C: ERROR: 获取远程列表失败: exit status 128", "/w/A: NO_REMOTES",
        "/w/B:origin:https://h/origin.git", "/w/B:fork:https://h/fork.git"] := by decide

/-! ## Empty segments of the exclusion list (C19) -/

theorem splitChar_ne_nil (sep : Char) (l : List Char) : splitChar sep l ≠ [] := by
  cases l with
  | nil => simp [splitChar]
  | cons c cs =>
    by_cases hc : c = sep
    · simp [splitChar, hc]
    · simp only [splitChar, hc, if_false]
      split <;> simp

theorem splitChar_append (sep : Char) (a b : List Char) :
    splitChar sep (a ++ sep :: b) = splitChar sep a ++ splitChar sep b := by
  induction a with
  | nil => simp [splitChar]
  | cons c a ih =>
    by_cases hc : c = sep
    · simp [splitChar, hc, ih]
    · simp only [List.cons_append, splitChar, hc, if_false, List.append_eq]
      rw [ih]
      cases hs : splitChar sep a with
      | nil => exact absurd hs (splitChar_ne_nil sep a)
      | cons h t => simp

theorem nil_mem_splitChar (sep : Char) (l : List Char)
    (h : l.head? = some sep ∨ l.getLast? = some sep ∨ [sep, sep] <:+: l) :
    [] ∈ splitChar sep l := by
  rcases h with h | h | h
  · cases l with
    | nil => simp at h
    | cons c cs =>
      simp only [List.head?_cons, Option.some.injEq] at h
      simp [splitChar, h]
  · obtain ⟨a, ha⟩ : ∃ a, l = a ++ [sep] := by
      rcases List.eq_nil_or_concat l with h0 | ⟨a, c, hl⟩
      · subst h0; simp at h
      · subst hl
        rw [List.concat_eq_append, List.getLast?_append] at h
        simp at h
        exact ⟨a, by rw [List.concat_eq_append, h]⟩
    subst ha
    rw [splitChar_append]
    simp [splitChar]
  · obtain ⟨a, b, hl⟩ := h
    subst hl
    have : a ++ [sep, sep] ++ b = a ++ sep :: (sep :: b) := by simp
    rw [this, splitChar_append]
    simp [splitChar]

theorem mem_parseExclude_empty (value : String)
    (h : value.data.head? = some ',' ∨ value.data.getLast? = some ',' ∨
      [',', ','] <:+: value.data) :
    "" ∈ parseExclude value := by
  have hne : value ≠ "" := by
    intro h0
    subst h0
    revert h
    decide
  unfold parseExclude Split
  rw [if_pos hne]
  exact List.mem_map.mpr ⟨[], nil_mem_splitChar ',' value.data h, rfl⟩

theorem FindGitRepos_empty_exclude (fs : Node) (root : String) (excludeDirs : List String)
    (hE : "" ∈ excludeDirs) (hr : fs.readable = true) :
    FindGitRepos fs root excludeDirs = ([], none) := by
  have hany : excludeDirs.any (fun dir => decide (Contains root dir)) = true := by
    rw [List.any_eq_true]
    exact ⟨"", hE, by
      rw [decide_eq_true_eq]
      exact List.nil_infix⟩
  cases fs with
  | file => simp [FindGitRepos, Walk, visit, findWalkFn, hany]
  | dir es => simp [FindGitRepos, Walk, visit, findWalkFn, hany]
  | unreadable e => simp [Node.readable] at hr
  | lstatFails e => simp [Node.readable] at hr

/-- C19: when the value of `--exclude` has an empty segment (it starts or ends
with a comma, or has two commas in a row), the exclusion list built from it
contains the empty string, and for every readable tree and every root
`FindGitRepos` with that list returns the empty list and no error. -/
theorem C19_empty_segment_hides_all (value : String) (fs : Node) (root : String)
    (hseg : value.data.head? = some ',' ∨ value.data.getLast? = some ',' ∨
      [',', ','] <:+: value.data)
    (hread : fs.readable = true) :
    "" ∈ parseExclude value ∧ FindGitRepos fs root (parseExclude value) = ([], none) :=
  ⟨mem_parseExclude_empty value hseg,
    FindGitRepos_empty_exclude fs root _ (mem_parseExclude_empty value hseg) hread⟩

theorem C19_empty_segment_hides_all_witness :
    "" ∈ parseExclude "vendor,,tmp" ∧
      FindGitRepos treeTwoRepos "/r" (parseExclude "vendor,,tmp") = ([], none) :=
  C19_empty_segment_hides_all "vendor,,tmp" treeTwoRepos "/r"
    (Or.inr (Or.inr (by decide))) (by decide)

/-- Without the empty segment the same tree gives its repository `app`. -/
theorem parseExclude_sample :
    parseExclude "vendor,tmp" = ["vendor", "tmp"] ∧
      FindGitRepos treeTwoRepos "/r" (parseExclude "vendor,tmp") = (["/r/app"], none) := by
  decide

/-! ## The dispatch of the switch command (C17) -/

theorem switchForce_flags (git : Git) (f1 f2 : SwitchFlags) (r : switchResult)
    (repoPath branch : String) (tr : List Cmd) (h : f1.switchCreate = f2.switchCreate) :
    r.switchForce git f1 repoPath branch tr = r.switchForce git f2 repoPath branch tr := by
  unfold switchResult.switchForce
  rw [h]

theorem switchWithTracking_flags (git : Git) (f1 f2 : SwitchFlags) (r : switchResult)
    (repoPath branch : String) (tr : List Cmd) (h1 : f1.switchFetch = f2.switchFetch)
    (h2 : f1.switchRemote = f2.switchRemote) :
    r.switchWithTracking git f1 repoPath branch tr =
      r.switchWithTracking git f2 repoPath branch tr := by
  unfold switchResult.switchWithTracking
  rw [h1, h2]

theorem switchForce_trace (git : Git) (flags : SwitchFlags) (r : switchResult)
    (repoPath branch : String) :
    (r.switchForce git flags repoPath branch []).2 <+:
      [resetCmd repoPath, cleanCmd repoPath, checkoutCmd repoPath branch,
        createCmd repoPath branch] := by
  unfold switchResult.switchForce
  cases h0 : (git [] (resetCmd repoPath)).err with
  | some e =>
    rw [ResetHard_err h0]
    exact ⟨[cleanCmd repoPath, checkoutCmd repoPath branch, createCmd repoPath branch], rfl⟩
  | none =>
    rw [ResetHard_ok h0]
    dsimp only
    cases h1 : (git ([] ++ [resetCmd repoPath]) (cleanCmd repoPath)).err with
    | some e =>
      rw [CleanUntracked_err h1]
      exact ⟨[checkoutCmd repoPath branch, createCmd repoPath branch], rfl⟩
    | none =>
      rw [CleanUntracked_ok h1]
      dsimp only
      have key : ∀ create : Bool,
          (SwitchOrCreateBranch git repoPath branch create
            ([] ++ [resetCmd repoPath] ++ [cleanCmd repoPath])).2 <+:
          [resetCmd repoPath, cleanCmd repoPath, checkoutCmd repoPath branch,
            createCmd repoPath branch] := by
        intro create
        rcases SwitchOrCreateBranch_trace git repoPath branch create
          ([] ++ [resetCmd repoPath] ++ [cleanCmd repoPath]) with h | h
        · rw [h]; exact ⟨[createCmd repoPath branch], rfl⟩
        · rw [h]; exact ⟨[], rfl⟩
      cases flags.switchCreate
      · have k := key false
        generalize SwitchOrCreateBranch git repoPath branch false
          ([] ++ [resetCmd repoPath] ++ [cleanCmd repoPath]) = co at k ⊢
        rcases co with ⟨_ | e0, tr3⟩ <;> simpa using k
      · have k := key true
        generalize SwitchOrCreateBranch git repoPath branch true
          ([] ++ [resetCmd repoPath] ++ [cleanCmd repoPath]) = co at k ⊢
        rcases co with ⟨_ | e0, tr3⟩ <;> simpa using k

theorem switchForce_no_remote_cmd (git : Git) (flags : SwitchFlags) (r : switchResult)
    (repoPath branch : String) :
    (∀ d, fetchAllCmd d ∉ (r.switchForce git flags repoPath branch []).2) ∧
    (∀ d b remote, lsRemoteCmd d b remote ∉ (r.switchForce git flags repoPath branch []).2) ∧
    (∀ d b remote, trackCmd d b remote ∉ (r.switchForce git flags repoPath branch []).2) := by
  have hsub := (switchForce_trace git flags r repoPath branch).subset
  refine ⟨?_, ?_, ?_⟩
  · intro d hm
    have := hsub hm
    simp [fetchAllCmd, resetCmd, cleanCmd, checkoutCmd, createCmd] at this
  · intro d b remote hm
    have := hsub hm
    simp [lsRemoteCmd, resetCmd, cleanCmd, checkoutCmd, createCmd] at this
  · intro d b remote hm
    have := hsub hm
    simp [trackCmd, resetCmd, cleanCmd, checkoutCmd, createCmd] at this
theorem switchOnly_trace (git : Git) (r : switchResult) (repoPath branch : String) :
    (r.switchOnly git repoPath branch []).2 = [checkoutCmd repoPath branch] := by
  unfold switchResult.switchOnly SwitchOrCreateBranch
  cases h : (git [] (checkoutCmd repoPath branch)).err <;> simp [h]

theorem switchOrCreate_trace (git : Git) (r : switchResult) (repoPath branch : String) :
    ((git [] (checkoutCmd repoPath branch)).err = none →
      (r.switchOrCreate git repoPath branch []).2 = [checkoutCmd repoPath branch]) ∧
    ((git [] (checkoutCmd repoPath branch)).err ≠ none →
      (r.switchOrCreate git repoPath branch []).2 =
        [checkoutCmd repoPath branch, createCmd repoPath branch]) := by
  unfold switchResult.switchOrCreate SwitchOrCreateBranch
  cases h : (git [] (checkoutCmd repoPath branch)).err with
  | none => simp [h]
  | some e =>
    simp only [h, if_true, ne_eq, not_false_eq_true, true_implies, reduceCtorEq, false_implies,
      true_and]
    cases h2 : (git ([] ++ [checkoutCmd repoPath branch]) (createCmd repoPath branch)).err <;>
      simp [h2]

theorem switchForce_trace_cases (git : Git) (flags : SwitchFlags) (r : switchResult)
    (repoPath branch : String) :
    ((git [] (resetCmd repoPath)).err ≠ none →
      (r.switchForce git flags repoPath branch []).2 = [resetCmd repoPath]) ∧
    ((git [] (resetCmd repoPath)).err = none →
      (git [resetCmd repoPath] (cleanCmd repoPath)).err ≠ none →
      (r.switchForce git flags repoPath branch []).2 = [resetCmd repoPath, cleanCmd repoPath]) ∧
    ((git [] (resetCmd repoPath)).err = none →
      (git [resetCmd repoPath] (cleanCmd repoPath)).err = none →
      (r.switchForce git flags repoPath branch []).2 =
          [resetCmd repoPath, cleanCmd repoPath, checkoutCmd repoPath branch] ∨
        (r.switchForce git flags repoPath branch []).2 =
          [resetCmd repoPath, cleanCmd repoPath, checkoutCmd repoPath branch,
            createCmd repoPath branch]) := by
  refine ⟨?_, ?_, ?_⟩
  · intro h0
    unfold switchResult.switchForce
    cases he : (git [] (resetCmd repoPath)).err with
    | none => exact absurd he h0
    | some e => rw [ResetHard_err he]; rfl
  · intro h0 h1
    unfold switchResult.switchForce
    rw [ResetHard_ok h0]
    dsimp only
    cases he : (git [resetCmd repoPath] (cleanCmd repoPath)).err with
    | none => exact absurd he h1
    | some e =>
      have he2 : (git ([] ++ [resetCmd repoPath]) (cleanCmd repoPath)).err = some e := he
      rw [CleanUntracked_err he2]
      rfl
  · intro h0 h1
    have h1b : (git ([] ++ [resetCmd repoPath]) (cleanCmd repoPath)).err = none := h1
    have key : ∀ create : Bool,
        (SwitchOrCreateBranch git repoPath branch create
          ([] ++ [resetCmd repoPath] ++ [cleanCmd repoPath])).2 =
            [resetCmd repoPath, cleanCmd repoPath, checkoutCmd repoPath branch] ∨
        (SwitchOrCreateBranch git repoPath branch create
          ([] ++ [resetCmd repoPath] ++ [cleanCmd repoPath])).2 =
            [resetCmd repoPath, cleanCmd repoPath, checkoutCmd repoPath branch,
              createCmd repoPath branch] := by
      intro create
      rcases SwitchOrCreateBranch_trace git repoPath branch create
        ([] ++ [resetCmd repoPath] ++ [cleanCmd repoPath]) with h | h
      · left; rw [h]; rfl
      · right; rw [h]; rfl
    unfold switchResult.switchForce
    rw [ResetHard_ok h0]
    dsimp only
    rw [CleanUntracked_ok h1b]
    dsimp only
    cases flags.switchCreate
    · have k := key false
      generalize SwitchOrCreateBranch git repoPath branch false
        ([] ++ [resetCmd repoPath] ++ [cleanCmd repoPath]) = co at k ⊢
      rcases co with ⟨_ | e0, tr3⟩ <;> simpa using k
    · have k := key true
      generalize SwitchOrCreateBranch git repoPath branch true
        ([] ++ [resetCmd repoPath] ++ [cleanCmd repoPath]) = co at k ⊢
      rcases co with ⟨_ | e0, tr3⟩ <;> simpa using k

theorem switchWithTracking_trace (git : Git) (flags : SwitchFlags) (r : switchResult)
    (repoPath branch : String) :
    (flags.switchFetch = true →
      (r.switchWithTracking git flags repoPath branch []).2 = [fetchAllCmd repoPath] ∨
      (r.switchWithTracking git flags repoPath branch []).2 =
        [fetchAllCmd repoPath, lsRemoteCmd repoPath branch flags.switchRemote] ∨
      (r.switchWithTracking git flags repoPath branch []).2 =
        [fetchAllCmd repoPath, lsRemoteCmd repoPath branch flags.switchRemote,
          trackCmd repoPath branch flags.switchRemote]) ∧
    (flags.switchFetch = false →
      (r.switchWithTracking git flags repoPath branch []).2 =
        [lsRemoteCmd repoPath branch flags.switchRemote] ∨
      (r.switchWithTracking git flags repoPath branch []).2 =
        [lsRemoteCmd repoPath branch flags.switchRemote,
          trackCmd repoPath branch flags.switchRemote]) := by
  have key : ∀ tr : List Cmd,
      (SwitchAndTrackBranch git repoPath branch flags.switchRemote tr).2 =
        tr ++ [lsRemoteCmd repoPath branch flags.switchRemote] ∨
      (SwitchAndTrackBranch git repoPath branch flags.switchRemote tr).2 =
        tr ++ [lsRemoteCmd repoPath branch flags.switchRemote] ++
          [trackCmd repoPath branch flags.switchRemote] := by
    intro tr
    unfold SwitchAndTrackBranch
    cases h1 : (git tr (lsRemoteCmd repoPath branch flags.switchRemote)).err with
    | some e => simp [h1]
    | none =>
      simp only [h1]
      split
      · left; rfl
      · cases h2 : (git (tr ++ [lsRemoteCmd repoPath branch flags.switchRemote])
            (trackCmd repoPath branch flags.switchRemote)).err <;> simp [h2]
  refine ⟨?_, ?_⟩
  · intro hf
    unfold switchResult.switchWithTracking
    simp only [hf, if_true]
    unfold FetchAll
    cases h0 : (git [] (fetchAllCmd repoPath)).err with
    | some e => left; simp [h0]
    | none =>
      right
      have k := key ([] ++ [fetchAllCmd repoPath])
      simp only [h0]
      generalize SwitchAndTrackBranch git repoPath branch flags.switchRemote
        ([] ++ [fetchAllCmd repoPath]) = co at k ⊢
      rcases co with ⟨_ | e0, tr3⟩ <;> simpa using k
  · intro hf
    unfold switchResult.switchWithTracking
    simp only [hf, Bool.false_eq_true, if_false]
    have k := key []
    generalize SwitchAndTrackBranch git repoPath branch flags.switchRemote [] = co at k ⊢
    rcases co with ⟨_ | e0, tr3⟩ <;> simpa using k

/-- The tasks of the sample repository `app` under the four dispatches: every
flag set (forced), `--track --create --fetch`, `--create` with a failing
checkout, and no flag. -/
theorem switchTask_sample :
    switchTask gitAllOk (fun _ => .absent) relKeep
        ⟨"", "", true, true, "origin", true, true, false⟩ "/r" "main" "/r/app" =
      (⟨"app", "/r/app", "创建并切换到: main", none⟩,
        [resetCmd "/r/app", cleanCmd "/r/app", checkoutCmd "/r/app" "main"]) ∧
    switchTask gitNoRemoteBranch (fun _ => .absent) relKeep
        ⟨"", "", true, true, "", true, false, false⟩ "/r" "main" "/r/app" =
      (⟨"app", "/r/app", "",
          some (.errorf "创建跟踪分支失败: " (remoteBranchNotFound "main" "origin") "")⟩,
        [fetchAllCmd "/r/app", lsRemoteCmd "/r/app" "main" "origin"]) ∧
    switchTask gitNoLocalBranch (fun _ => .absent) relKeep
        ⟨"", "", true, false, "origin", false, false, false⟩ "/r" "main" "/r/app" =
      (⟨"app", "/r/app", "main", none⟩,
        [checkoutCmd "/r/app" "main", createCmd "/r/app" "main"]) ∧
    switchTask gitNoLocalBranch (fun _ => .absent) relKeep
        ⟨"", "", false, false, "origin", false, false, false⟩ "/r" "main" "/r/app" =
      (⟨"app", "/r/app", "", some (.errorf "切换失败: " (.plain "分支 main 不存在") "")⟩,
        [checkoutCmd "/r/app" "main"]) := by decide

/-! ## Declined confirmation (C16) -/

/-- C16 fails for `switch --force --silent`: no confirmation is read, and with
the answer `n` waiting on the standard input the reset, the clean and the
checkout run in every repository. -/
theorem C16_counterexample :
    "n" ≠ "y" ∧ "n" ≠ "Y" ∧
    (switchRun gitAllOk (fun _ => .absent) relKeep treeTwoRepos "/r"
      ⟨"", "", false, false, "origin", false, true, true⟩ "main" "n").cmds =
    [resetCmd "/r/app", cleanCmd "/r/app", checkoutCmd "/r/app" "main",
      resetCmd "/r/vendor/lib", cleanCmd "/r/vendor/lib", checkoutCmd "/r/vendor/lib" "main"] := by
  decide

/-- C16: when the answer to the confirmation is neither `y` nor `Y`, `clean`
without `--force` ends as cancelled with no git command run and no directory
removed, and `switch --force` without `--silent` ends without running any
command (the discovery failed, found nothing, or the run was cancelled). -/
theorem C16_declined_runs_nothing (git : Git) (config : String → ConfigFile)
    (rel : String → String → String) (dirs : TargetDirs) (fs : Node) (cwd : String)
    (co : CleanOptions) (so : SwitchOptions) (args : List String) (branchName confirm : String)
    (hy : confirm ≠ "y") (hY : confirm ≠ "Y") :
    cleanRun git dirs fs cwd { co with forceFlag := false } args confirm =
      (.cancelled, ⟨[], []⟩) ∧
    (switchRun git config rel fs cwd { so with switchForce := true, switchSilent := false }
      branchName confirm).cmds = [] ∧
    ((∃ err, switchRun git config rel fs cwd
        { so with switchForce := true, switchSilent := false } branchName confirm =
          .findFailed err) ∨
      switchRun git config rel fs cwd { so with switchForce := true, switchSilent := false }
        branchName confirm = .noRepos ∨
      switchRun git config rel fs cwd { so with switchForce := true, switchSilent := false }
        branchName confirm = .cancelled) := by
  have hs : (∃ err, switchRun git config rel fs cwd
        { so with switchForce := true, switchSilent := false } branchName confirm =
          .findFailed err) ∨
      switchRun git config rel fs cwd { so with switchForce := true, switchSilent := false }
        branchName confirm = .noRepos ∨
      switchRun git config rel fs cwd { so with switchForce := true, switchSilent := false }
        branchName confirm = .cancelled := by
    unfold switchRun
    dsimp only
    rcases FindGitRepos fs (if so.switchPath ≠ "" then so.switchPath else cwd)
      (parseExclude so.switchExclude) with ⟨repos, _ | err⟩
    · by_cases hl : repos.length = 0
      · right; left
        simp [hl]
      · right; right
        simp [hl, hy, hY]
    · left
      exact ⟨err, rfl⟩
  refine ⟨?_, ?_, hs⟩
  · unfold cleanRun
    simp [hy, hY]
  · rcases hs with ⟨err, h⟩ | h | h <;> rw [h] <;> rfl

theorem C16_declined_runs_nothing_witness :
    cleanRun gitAllOk targetsPresent treeTwoRepos "/r"
        { (⟨true, true, "", ""⟩ : CleanOptions) with forceFlag := false } [] "n" =
      (.cancelled, ⟨[], []⟩) ∧
    (switchRun gitAllOk (fun _ => .absent) relKeep treeTwoRepos "/r"
      { (⟨"", "", false, false, "origin", false, false, true⟩ : SwitchOptions) with
        switchForce := true, switchSilent := false } "main" "n").cmds = [] :=
  ⟨(C16_declined_runs_nothing gitAllOk (fun _ => .absent) relKeep targetsPresent treeTwoRepos "/r"
      ⟨true, true, "", ""⟩ ⟨"", "", false, false, "origin", false, false, true⟩ [] "main" "n"
      (by decide) (by decide)).1,
    (C16_declined_runs_nothing gitAllOk (fun _ => .absent) relKeep targetsPresent treeTwoRepos "/r"
      ⟨true, true, "", ""⟩ ⟨"", "", false, false, "origin", false, false, true⟩ [] "main" "n"
      (by decide) (by decide)).2.1⟩

/-- With the answer `y` the same `clean` run resets and cleans both sample
repositories and removes their `target` directories. -/
theorem cleanRun_sample :
    cleanRun gitAllOk targetsPresent treeTwoRepos "/r" ⟨false, true, "", ""⟩ [] "y" =
      (.cleaned [("/r/app", none), ("/r/vendor/lib", none)],
        ⟨[resetCmd "/r/app", cleanCmd "/r/app", resetCmd "/r/vendor/lib",
            cleanCmd "/r/vendor/lib"],
          ["/r/app/target", "/r/vendor/lib/target"]⟩) := by decide

end Sgit
